import Mathlib

/-!
# cloud_sim: trust and redundant verification (`src/sim2/system.cpp`)

A shallow embedding of the job / node / project model of `system.cpp`.

Conventions of the embedding:

* `float` values are exact rationals (`ℚ`): rounding is not modelled.
* `Job*` and `Node*` are addresses (`Nat`); the objects live in two heaps
  `Nat → Job` and `Nat → Node`; pointer comparison `a < b` is `<` on addresses.
* `assert` is enabled; a failed assertion and `exit(1)` end the process and are
  recorded in the outcome of the call together with the state reached.
* `std::map` / `std::set` members that the source only searches, inserts into
  and erases from are association lists; `m_results` (a `std::multimap` that
  the source iterates) keeps the multimap's iteration order.
-/

namespace CloudSim

/-! ## Entities -/

/-- The struct `AssumedResult`: a reservation of a node on a job. -/
structure AssumedResult where
  job : Nat
  node : Nat
  correctness : ℚ
  deriving DecidableEq

/-- The struct `Result`: a finalized submission. -/
structure Result where
  hash : Int
  node : Nat
  job : Nat
  correctness : ℚ
  deriving DecidableEq

/-- The class `Job`. -/
structure Job where
  m_difficulty : ℚ
  m_active : Bool
  m_assumedCorrectness : ℚ
  m_bestCorrectness : ℚ
  m_correctnessPerHash : List (Int × ℚ)
  m_assumedResults : List (Nat × AssumedResult)
  m_results : List Result
  deriving DecidableEq

/-- The class `Node`. -/
structure Node where
  m_trust : ℚ
  m_performance : ℚ
  m_nextActionTime : Nat
  m_lastActionTime : Nat
  m_currentWork : Option AssumedResult
  m_falseRatio : ℚ
  m_results : List Result
  m_resultsJob : List Nat
  deriving DecidableEq

/-- The ways the process ends inside a call: an `assert` fails, `exit(1)` is
called, or a null pointer or an `end()` iterator is dereferenced. -/
inductive Halt where
  | assertFailed
  | exited
  | undefined
  deriving DecidableEq

/-- How a call ends: it returns a value, or the process ends inside it. -/
inductive Ret (α : Type) where
  | returned (a : α)
  | halted (h : Halt)
  deriving DecidableEq

/-! ## Containers -/

/-- The call `m.find(k)` of a map: the value stored under `k`, if any. -/
def mapFind {κ α : Type} [DecidableEq κ] (k : κ) : List (κ × α) → Option α
  | [] => none
  | e :: m => if e.1 = k then some e.2 else mapFind k m

/-- The call `m.erase(k)` of a map. -/
def mapErase {κ α : Type} [DecidableEq κ] (k : κ) : List (κ × α) → List (κ × α)
  | [] => []
  | e :: m => if e.1 = k then mapErase k m else e :: mapErase k m

/-- The assignment `m[k] = v` of a map. -/
def mapAssign {κ α : Type} [DecidableEq κ] (k : κ) (v : α) (m : List (κ × α)) :
    List (κ × α) :=
  (k, v) :: mapErase k m

/-- The call `m_results.insert(pair(hash, result))` of the multimap: the new
element goes after the elements whose key is not greater. -/
def multimapInsert (r : Result) : List Result → List Result
  | [] => [r]
  | x :: xs => if r.hash < x.hash then r :: x :: xs else x :: multimapInsert r xs

/-! ## Job -/

/-- The constructor `Job::Job()`; it leaves `m_active` as it finds it. -/
def Job.new (active : Bool) : Job :=
  { m_difficulty := 1, m_active := active, m_assumedCorrectness := 0,
    m_bestCorrectness := 0, m_correctnessPerHash := [], m_assumedResults := [],
    m_results := [] }

/-- The method `Job::getCorrectness`. -/
def Job.getCorrectness (j : Job) : ℚ :=
  j.m_assumedCorrectness + j.m_bestCorrectness

/-- The method `Job::nodeStarted`, the sum taken exactly; `Job.nodeStarted32` is the
method with the rounding of `float`. -/
def Job.nodeStarted (j : Job) (res : AssumedResult) : Job :=
  { j with
    m_assumedCorrectness := j.m_assumedCorrectness + res.correctness
    m_assumedResults := mapAssign res.node res j.m_assumedResults }

/-- The statement `node->m_trust += d`. -/
def addTrust (nodes : Nat → Node) (n : Nat) (d : ℚ) : Nat → Node :=
  Function.update nodes n { nodes n with m_trust := (nodes n).m_trust + d }

/-- The loop of `Job::workDone` over `m_results` that hands out trust. -/
def payout (best : ℚ) (hash : Int) : (Nat → Node) → List Result → (Nat → Node)
  | nodes, [] => nodes
  | nodes, r :: rs =>
    payout best hash
      (if r.hash = hash then addTrust nodes r.node (best - r.correctness) else nodes) rs

/-- What a call of `Job::workDone` leaves behind: the job, the nodes, and how the
call ended. -/
structure WorkDone where
  job : Job
  nodes : Nat → Node
  ret : Ret (Option Result)

/-- The method `Job::workDone` of the job at address `self`, the sums and
differences taken exactly and `-0.01f` taken as -1/100; `Job.workDone32` is the
method with the rounding of `float`. -/
def Job.workDone (self : Nat) (j : Job) (nodes : Nat → Node) (res : AssumedResult)
    (hash : Int) : WorkDone :=
  let j1 : Job := { j with
    m_assumedResults := mapErase res.node j.m_assumedResults
    m_assumedCorrectness := j.m_assumedCorrectness - res.correctness }
  if ¬ (j1.m_assumedCorrectness ≥ -(1 / 100)) then
    { job := j1, nodes := nodes, ret := .halted .assertFailed }
  else if j1.m_bestCorrectness ≥ 1 then
    { job := j1, nodes := nodes, ret := .returned none }
  else
    let result : Result :=
      { hash := hash, node := res.node, job := self, correctness := res.correctness }
    let resultCor : ℚ :=
      match mapFind hash j1.m_correctnessPerHash with
      | some v => result.correctness + v
      | none => result.correctness
    let best : ℚ := if resultCor > j1.m_bestCorrectness then resultCor else j1.m_bestCorrectness
    let j2 : Job := { j1 with
      m_results := multimapInsert result j1.m_results
      m_correctnessPerHash := mapAssign hash resultCor j1.m_correctnessPerHash
      m_bestCorrectness := best }
    if best ≥ 1 then
      let nodes2 := payout best hash nodes j2.m_results
      if hash ≠ 0 then
        { job := j2, nodes := nodes2, ret := .halted .exited }
      else
        { job := j2, nodes := nodes2, ret := .returned (some result) }
    else
      { job := j2, nodes := nodes, ret := .returned (some result) }

/-! ## Sequences of calls on one job -/

/-- What the program does to a job: a call of one of the two methods of `Job`
that change it, or the statement `obj->m_active = true` of `Project::activateJob`. -/
inductive Call where
  | nodeStarted (res : AssumedResult)
  | workDone (res : AssumedResult) (hash : Int)
  | activate

/-- A job, the nodes its results point to, and whether the process has ended. -/
structure JobRun where
  job : Job
  nodes : Nat → Node
  halted : Option Halt

/-- One call on the job at address `self`; nothing runs once the process has ended. -/
def JobRun.step (self : Nat) (s : JobRun) (c : Call) : JobRun :=
  match s.halted with
  | some _ => s
  | none =>
    match c with
    | .nodeStarted res => { s with job := s.job.nodeStarted res }
    | .workDone res hash =>
      let o := Job.workDone self s.job s.nodes res hash
      { job := o.job, nodes := o.nodes,
        halted := match o.ret with
          | .returned _ => none
          | .halted h => some h }
    | .activate => { s with job := { s.job with m_active := true } }

/-- A sequence of calls, in order. -/
def JobRun.run (self : Nat) (s : JobRun) (calls : List Call) : JobRun :=
  calls.foldl (JobRun.step self) s

/-- A job as `Job::Job()` leaves it, before any call. -/
def JobRun.fresh (active : Bool) (nodes : Nat → Node) : JobRun :=
  { job := Job.new active, nodes := nodes, halted := none }

/-- The correctness weight a call carries. -/
def Call.correctness : Call → ℚ
  | .nodeStarted res => res.correctness
  | .workDone res _ => res.correctness
  | .activate => 0

/-! ## Job with float arithmetic -/

/-- Rounding to the nearest integer, a tie going to the even one. -/
def roundEven (q : ℚ) : ℤ :=
  if q - ⌊q⌋ < 1 / 2 then ⌊q⌋
  else if 1 / 2 < q - ⌊q⌋ then ⌊q⌋ + 1
  else if ⌊q⌋ % 2 = 0 then ⌊q⌋ else ⌊q⌋ + 1

/-- The value of type `float` (IEEE 754 binary32) that a `float` operation with the
exact result `x` returns: the multiple of the spacing `2 ^ (e - 23)` nearest to `x`,
a tie going to the even multiple, where `2 ^ e ≤ |x| < 2 ^ (e + 1)` and `e` is at
least -126. A result of `2 ^ 128` or more stands for an infinity, which has no
value here. -/
def round32 (x : ℚ) : ℚ :=
  let e := max (Int.log 2 |x|) (-126)
  roundEven (x / 2 ^ (e - 23)) * 2 ^ (e - 23)

/-- The method `Job::nodeStarted` with `float` arithmetic. -/
def Job.nodeStarted32 (j : Job) (res : AssumedResult) : Job :=
  { j with
    m_assumedCorrectness := round32 (j.m_assumedCorrectness + res.correctness)
    m_assumedResults := mapAssign res.node res j.m_assumedResults }

/-- The statement `node->m_trust += d` with `float` arithmetic. -/
def addTrust32 (nodes : Nat → Node) (n : Nat) (d : ℚ) : Nat → Node :=
  Function.update nodes n { nodes n with m_trust := round32 ((nodes n).m_trust + d) }

/-- The loop of `Job::workDone` over `m_results` that hands out trust, with `float`
arithmetic. -/
def payout32 (best : ℚ) (hash : Int) : (Nat → Node) → List Result → (Nat → Node)
  | nodes, [] => nodes
  | nodes, r :: rs =>
    payout32 best hash
      (if r.hash = hash then addTrust32 nodes r.node (round32 (best - r.correctness))
       else nodes) rs

/-- The method `Job::workDone` of the job at address `self`, with `float`
arithmetic: every `+=`, `-=` and `-` rounds its result, and `-0.01f` is the `float`
nearest to 0.01, negated. -/
def Job.workDone32 (self : Nat) (j : Job) (nodes : Nat → Node) (res : AssumedResult)
    (hash : Int) : WorkDone :=
  let j1 : Job := { j with
    m_assumedResults := mapErase res.node j.m_assumedResults
    m_assumedCorrectness := round32 (j.m_assumedCorrectness - res.correctness) }
  if ¬ (j1.m_assumedCorrectness ≥ -(round32 (1 / 100))) then
    { job := j1, nodes := nodes, ret := .halted .assertFailed }
  else if j1.m_bestCorrectness ≥ 1 then
    { job := j1, nodes := nodes, ret := .returned none }
  else
    let result : Result :=
      { hash := hash, node := res.node, job := self, correctness := res.correctness }
    let resultCor : ℚ :=
      match mapFind hash j1.m_correctnessPerHash with
      | some v => round32 (result.correctness + v)
      | none => result.correctness
    let best : ℚ := if resultCor > j1.m_bestCorrectness then resultCor else j1.m_bestCorrectness
    let j2 : Job := { j1 with
      m_results := multimapInsert result j1.m_results
      m_correctnessPerHash := mapAssign hash resultCor j1.m_correctnessPerHash
      m_bestCorrectness := best }
    if best ≥ 1 then
      let nodes2 := payout32 best hash nodes j2.m_results
      if hash ≠ 0 then
        { job := j2, nodes := nodes2, ret := .halted .exited }
      else
        { job := j2, nodes := nodes2, ret := .returned (some result) }
    else
      { job := j2, nodes := nodes, ret := .returned (some result) }

/-- One call on the job at address `self`, with `float` arithmetic; nothing runs
once the process has ended. -/
def JobRun.step32 (self : Nat) (s : JobRun) (c : Call) : JobRun :=
  match s.halted with
  | some _ => s
  | none =>
    match c with
    | .nodeStarted res => { s with job := s.job.nodeStarted32 res }
    | .workDone res hash =>
      let o := Job.workDone32 self s.job s.nodes res hash
      { job := o.job, nodes := o.nodes,
        halted := match o.ret with
          | .returned _ => none
          | .halted h => some h }
    | .activate => { s with job := { s.job with m_active := true } }

/-- A sequence of calls, in order, with `float` arithmetic. -/
def JobRun.run32 (self : Nat) (s : JobRun) (calls : List Call) : JobRun :=
  calls.foldl (JobRun.step32 self) s

/-! ## Node and Project -/

/-- The class `Project`, together with the memory its pointers refer to. -/
structure Project where
  jobHeap : Nat → Job
  nodeHeap : Nat → Node
  m_jobs : List Nat
  m_nodes : List Nat
  m_bestTrust : ℚ

/-- Modelled from the spec: `clamp` of `tools.h`, which is not part of the
sources: the value limited to the range from `lo` to `hi`. -/
def clamp (x lo hi : ℚ) : ℚ :=
  if x < lo then lo else if x > hi then hi else x

/-- The call `s.insert(a)` of a `std::set` ordered by `lt`: `a` goes before the
first element it precedes, and is dropped when an equivalent element is there. -/
def setInsert (lt : Nat → Nat → Bool) (a : Nat) : List Nat → List Nat
  | [] => [a]
  | x :: xs =>
    if lt x a then x :: setInsert lt a xs
    else if lt a x then a :: x :: xs
    else x :: xs

/-- The call `std::lower_bound(first, last, value, comp)`, as the C++ standard
gives its result: the furthest position such that `comp(e, value)` holds for every
element `e` before it. `below e` is `comp(e, value)`. -/
def lowerBound (below : Nat → Bool) (xs : List Nat) : Nat :=
  (xs.takeWhile below).length

/-- The method `Node::hasSubmitted`. -/
def Node.hasSubmitted (n : Node) (job : Nat) : Bool :=
  decide (job ∈ n.m_resultsJob)

/-- The method `Node::startJob` of the node at address `self`. The cast to
`uint64_t` truncates. The product is taken exactly here, where the source rounds
each `float` operation, so the delay can differ from the source's by a tick when
the product is near a whole number; the cast of a negative product is not defined
by the language (it wraps on the usual machines) and counts as zero here. -/
def Node.startJob (self : Nat) (p : Project) (job : Nat) (corr : ℚ) (currentTick : Nat) :
    Project :=
  let assumed : AssumedResult := { job := job, node := self, correctness := corr }
  let jobHeap := Function.update p.jobHeap job ((p.jobHeap job).nodeStarted assumed)
  let n := p.nodeHeap self
  let delay : Nat := Int.toNat ⌊100 * (jobHeap job).m_difficulty * (1 - n.m_performance)⌋
  { p with
    jobHeap := jobHeap
    nodeHeap := Function.update p.nodeHeap self { n with
      m_currentWork := some assumed
      m_nextActionTime := (currentTick + 1 + delay) % 2 ^ 64 } }

/-- The hash `Node::endJob` submits; `randf` and `rand` are what `randf()` and
`rand()` return when they are called. -/
def Node.endJobHash (n : Node) (randf : ℚ) (rand : Int) : Int :=
  if n.m_falseRatio > 0 then
    if randf < n.m_falseRatio then rand else 0
  else 0

/-- The method `Node::endJob` of the node at address `self`. -/
def Node.endJob (self : Nat) (p : Project) (randf : ℚ) (rand : Int) : Project × Ret Unit :=
  let hash := (p.nodeHeap self).endJobHash randf rand
  match (p.nodeHeap self).m_currentWork with
  | none => (p, .halted .undefined)
  | some w =>
    let o := Job.workDone w.job (p.jobHeap w.job) p.nodeHeap w hash
    let p1 : Project := { p with
      jobHeap := Function.update p.jobHeap w.job o.job
      nodeHeap := o.nodes }
    match o.ret with
    | .halted h => (p1, .halted h)
    | .returned (some res) =>
      let n := p1.nodeHeap self
      ({ p1 with nodeHeap := Function.update p1.nodeHeap self { n with
          m_results := n.m_results ++ [res]
          m_resultsJob := if res.job ∈ n.m_resultsJob then n.m_resultsJob
                          else res.job :: n.m_resultsJob
          m_currentWork := none } }, .returned ())
    | .returned none =>
      let n := p1.nodeHeap self
      ({ p1 with nodeHeap := Function.update p1.nodeHeap self { n with
          m_currentWork := none } }, .returned ())

/-- The comparison `JobCompare::operator()` of the job `ja` at address `a` with
the job `jb` at address `b`. -/
def JobCompare (a : Nat) (ja : Job) (b : Nat) (jb : Job) : Bool :=
  if a = b then false
  else if ja.m_active = jb.m_active then
    let ac := ja.getCorrectness
    let bc := jb.getCorrectness
    if ac = bc then decide (a < b) else decide (ac > bc)
  else ja.m_active

/-- The method `Project::getTrust`. -/
def Project.getTrust (p : Project) (node : Nat) : Ret ℚ :=
  let constTrust : ℚ := 1 / 10
  if p.m_bestTrust = 0 then .returned constTrust
  else if ¬ ((p.nodeHeap node).m_trust ≤ p.m_bestTrust) then .halted .assertFailed
  else .returned (clamp (constTrust + (p.nodeHeap node).m_trust / p.m_bestTrust) 0 1)

/-- The method `Project::updateTrust`. -/
def Project.updateTrust (p : Project) (node : Nat) : Project :=
  if (p.nodeHeap node).m_trust > p.m_bestTrust then
    { p with m_bestTrust := (p.nodeHeap node).m_trust }
  else p

/-- The comparison `NodeCompare::operator()`. -/
def NodeCompare (a : Nat) (na : Node) (b : Nat) (nb : Node) : Bool :=
  if a = b then false
  else if na.m_nextActionTime = nb.m_nextActionTime then decide (a < b)
  else decide (na.m_nextActionTime < nb.m_nextActionTime)

/-- The method `Project::addNode`. -/
def Project.addNode (p : Project) (node : Nat) : Project :=
  Project.updateTrust
    { p with m_nodes :=
        setInsert (fun a b => NodeCompare a (p.nodeHeap a) b (p.nodeHeap b)) node p.m_nodes }
    node

/-- One of the two loops of `Project::findJobForNode` over the jobs from position
`i` on: the position and the job it stops at, if it finds one. -/
def Project.scanJobs (p : Project) (node : Nat) : Nat → List Nat → Option (Nat × Nat)
  | _, [] => none
  | i, obj :: rest =>
    if ¬ (p.jobHeap obj).m_active then none
    else if (p.jobHeap obj).getCorrectness ≥ 1 then p.scanJobs node (i + 1) rest
    else if (p.nodeHeap node).hasSubmitted obj then p.scanJobs node (i + 1) rest
    else some (i, obj)

/-- The local `Job search` of `Project::findJobForNode`. -/
def searchJob (target : ℚ) : Job :=
  { Job.new true with m_assumedCorrectness := target }

/-- The search of `Project::findJobForNode` from `std::lower_bound` of a
target on; `searchAddr` is the address of the local `search`. -/
def Project.searchFrom (p : Project) (node : Nat) (target : ℚ) (searchAddr : Nat) :
    Option (Nat × Nat) :=
  let it := lowerBound (fun a => JobCompare a (p.jobHeap a) searchAddr (searchJob target))
    p.m_jobs
  p.scanJobs node it (p.m_jobs.drop it)

/-- The method `Project::findJobForNode`; `rnd` is what `getRand(1.0f, 1.3f)`
returns and `searchAddr` the address of the local `search`. -/
def Project.findJobForNode (p : Project) (node : Nat) (rnd : ℚ) (searchAddr : Nat) :
    Project × Ret (Option Nat) :=
  match p.getTrust node with
  | .halted h => (p, .halted h)
  | .returned t =>
    match p.searchFrom node (clamp (rnd - t) 0 1) searchAddr with
    | some (i, obj) => ({ p with m_jobs := p.m_jobs.eraseIdx i }, .returned (some obj))
    | none =>
      match p.searchFrom node 1 searchAddr with
      | some (i, obj) => ({ p with m_jobs := p.m_jobs.eraseIdx i }, .returned (some obj))
      | none => (p, .returned none)

/-- The part of `Project::findJobForNode` after line 180, for a given value
`target` of `search.m_assumedCorrectness`: the search from the target and the
fallback search from 1. -/
def Project.findJobAt (p : Project) (node : Nat) (target : ℚ) (searchAddr : Nat) :
    Project × Ret (Option Nat) :=
  match p.searchFrom node target searchAddr with
  | some (i, obj) => ({ p with m_jobs := p.m_jobs.eraseIdx i }, .returned (some obj))
  | none =>
    match p.searchFrom node 1 searchAddr with
    | some (i, obj) => ({ p with m_jobs := p.m_jobs.eraseIdx i }, .returned (some obj))
    | none => (p, .returned none)

/-- The method `Project::activateJob`. -/
def Project.activateJob (p : Project) : Project × Ret Unit :=
  match p.m_jobs.getLast? with
  | none => (p, .halted .undefined)
  | some obj =>
    if (p.jobHeap obj).m_active then (p, .returned ())
    else
      let jobHeap := Function.update p.jobHeap obj { p.jobHeap obj with m_active := true }
      ({ p with
          jobHeap := jobHeap
          m_jobs := setInsert (fun a b => JobCompare a (jobHeap a) b (jobHeap b)) obj
            p.m_jobs.dropLast }, .returned ())

/-- The statements `m_jobs.erase(m_jobs.find(job))` of `Project::simulate`;
erasing `end()` is undefined. -/
def Project.jobsErase (p : Project) (job : Nat) : Project × Ret Unit :=
  if job ∈ p.m_jobs then ({ p with m_jobs := p.m_jobs.erase job }, .returned ())
  else (p, .halted .undefined)

/-- The statement `m_jobs.insert(job)` of `Project::simulate`. -/
def Project.jobsInsert (p : Project) (job : Nat) : Project :=
  { p with m_jobs :=
      setInsert (fun a b => JobCompare a (p.jobHeap a) b (p.jobHeap b)) job p.m_jobs }

/-- The statement `node->m_nextActionTime = currentTick` of `Project::simulate`. -/
def Project.delay (p : Project) (node : Nat) (currentTick : Nat) : Project :=
  let n := p.nodeHeap node
  { p with nodeHeap := Function.update p.nodeHeap node { n with m_nextActionTime := currentTick } }

/-! ## Sequences of operations on a project -/

/-- The operations of the source that change a project or the objects it points to. -/
inductive Op where
  | startJob (node job : Nat) (corr : ℚ) (currentTick : Nat)
  | endJob (node : Nat) (randf : ℚ) (rand : Int)
  | findJobForNode (node : Nat) (rnd : ℚ) (searchAddr : Nat)
  | activateJob
  | updateTrust (node : Nat)
  | addNode (node : Nat)
  | jobsErase (job : Nat)
  | jobsInsert (job : Nat)
  | delay (node : Nat) (currentTick : Nat)

/-- A project and whether the process has ended. -/
structure ProjectRun where
  project : Project
  halted : Option Halt

/-- The project a call leaves and how the call ended, as a state of the run. -/
def ProjectRun.after {α : Type} (o : Project × Ret α) : ProjectRun :=
  { project := o.1,
    halted := match o.2 with
      | .returned _ => none
      | .halted h => some h }

/-- One operation; nothing runs once the process has ended. -/
def ProjectRun.step (s : ProjectRun) (op : Op) : ProjectRun :=
  match s.halted with
  | some _ => s
  | none =>
    match op with
    | .startJob node job corr currentTick =>
      { s with project := Node.startJob node s.project job corr currentTick }
    | .endJob node randf rand => ProjectRun.after (Node.endJob node s.project randf rand)
    | .findJobForNode node rnd searchAddr =>
      ProjectRun.after (s.project.findJobForNode node rnd searchAddr)
    | .activateJob => ProjectRun.after s.project.activateJob
    | .updateTrust node => { s with project := s.project.updateTrust node }
    | .addNode node => { s with project := s.project.addNode node }
    | .jobsErase job => ProjectRun.after (s.project.jobsErase job)
    | .jobsInsert job => { s with project := s.project.jobsInsert job }
    | .delay node currentTick => { s with project := s.project.delay node currentTick }

/-- A sequence of operations, in order. -/
def ProjectRun.run (s : ProjectRun) (ops : List Op) : ProjectRun :=
  ops.foldl ProjectRun.step s

/-! ## Project::simulate

The set-up and the loop of `Project::simulate` (lines 279 to 402). Of the plots
only the keys of the map `plots` and the calls of `getTrust` on them are kept; the
data that is collected for plotting and the printing are left out. In the loop over
the due nodes the iterator `it` always stands on the first node of `m_nodes`: the
body either leaves the loop, or erases the node `it` stands on and moves `it` to
the next one, or goes round again without moving `it` (line 314); nothing is
inserted into `m_nodes` before the loop ends. -/

/-- What the random source returns to the `k`-th node the driver processes:
`randf()` and `rand()` in `Node::endJob`, `getRand(1.0f, 1.3f)` in
`Project::findJobForNode` and `getRand(-0.1f, 0.1f)` in `Project::simulate`. -/
structure Draws where
  randf : Nat → ℚ
  rand : Nat → Int
  target : Nat → ℚ
  noise : Nat → ℚ

/-- The local `corr` of `Project::simulate` (lines 354 and 355), from what
`getTrust(node)` and `getRand(-0.1f, 0.1f)` return. -/
def simulateCorr (trust u : ℚ) : ℚ :=
  min (max 0 (trust + u)) (99 / 100)

/-- The lines 323 to 341 of `Project::simulate` for a node with a reservation: the
job leaves the job order, the node ends it, the job is inserted again, the next
job is activated when this one became done, and `updateTrust` runs on the node of
every stored result of the job. Returns whether the job became done. -/
def Project.finishWork (p : Project) (node : Nat) (randf : ℚ) (rand : Int) :
    Project × Ret Bool :=
  match (p.nodeHeap node).m_currentWork with
  | none => (p, .halted .undefined)
  | some w =>
    match p.jobsErase w.job with
    | (p1, .halted h) => (p1, .halted h)
    | (p1, .returned _) =>
      let done := decide ((p1.jobHeap w.job).m_bestCorrectness ≥ 1)
      match Node.endJob node p1 randf rand with
      | (p2, .halted h) => (p2, .halted h)
      | (p2, .returned _) =>
        let p3 := p2.jobsInsert w.job
        let nowDone := !done && decide ((p3.jobHeap w.job).m_bestCorrectness ≥ 1)
        match (if nowDone then p3.activateJob else (p3, .returned ())) with
        | (p4, .halted h) => (p4, .halted h)
        | (p4, .returned _) =>
          ((p4.jobHeap w.job).m_results.foldl (fun q r => q.updateTrust r.node) p4,
            .returned nowDone)

/-- The lines 348 to 364 of `Project::simulate`: the node asks for a job and starts
it, or is delayed to the current tick. Returns whether the node found work. -/
def Project.assign (p : Project) (node currentTick : Nat) (rnd u : ℚ) (searchAddr : Nat) :
    Project × Ret Bool :=
  match p.findJobForNode node rnd searchAddr with
  | (q, .halted h) => (q, .halted h)
  | (q, .returned none) => (q.delay node currentTick, .returned false)
  | (q, .returned (some job)) =>
    match q.getTrust node with
    | .halted h => (q, .halted h)
    | .returned t =>
      ((Node.startJob node q job (simulateCorr t u) currentTick).jobsInsert job,
        .returned true)

/-- The state of the loop over the due nodes in one tick. -/
structure Drain where
  project : Project
  foundWork : Bool
  nodesToReinsert : List Nat
  resultsSent : Nat
  jobsDone : Nat
  drawn : Nat

/-- How one round of the loop over the due nodes ends: the loop is left, the loop
goes round again, or the process ends. -/
inductive DrainStep where
  | exit (s : Drain)
  | next (s : Drain)
  | halted (s : Drain) (h : Halt)

/-- The lines 348 to 366 in the loop over the due nodes, for the node `node` that
was erased from `m_nodes`; `k` is the number of nodes processed before. -/
def drainAssign (d : Draws) (searchAddr currentTick node k : Nat) (s : Drain) : DrainStep :=
  match s.project.assign node currentTick (d.target k) (d.noise k) searchAddr with
  | (p, .halted h) => .halted { s with project := p } h
  | (p, .returned found) =>
    .next { s with
      project := p
      foundWork := s.foundWork || found
      nodesToReinsert := setInsert (fun a b => decide (a < b)) node s.nodesToReinsert }

/-- One round of the loop over the due nodes (lines 307 to 367) in tick
`currentTick`. -/
def drainStep (d : Draws) (searchAddr currentTick : Nat) (s : Drain) : DrainStep :=
  match s.project.m_nodes with
  | [] => .exit s
  | node :: rest =>
    let n := s.project.nodeHeap node
    if n.m_nextActionTime > currentTick then .exit s
    else if n.m_lastActionTime ≠ 0 ∧ n.m_lastActionTime < currentTick
        ∧ n.m_currentWork = none then .next s
    else
      let s0 : Drain := { s with
        project := { s.project with m_nodes := rest }
        drawn := s.drawn + 1 }
      match n.m_currentWork with
      | none => drainAssign d searchAddr currentTick node s.drawn s0
      | some _ =>
        match s0.project.finishWork node (d.randf s.drawn) (d.rand s.drawn) with
        | (p1, .halted h) => .halted { s0 with project := p1 } h
        | (p1, .returned nowDone) =>
          let s1 : Drain := { s0 with
            project := p1
            resultsSent := s0.resultsSent + 1
            jobsDone := if nowDone then s0.jobsDone + 1 else s0.jobsDone }
          if (p1.nodeHeap node).m_lastActionTime ≠ 0
              ∧ (p1.nodeHeap node).m_lastActionTime < currentTick then .next s1
          else drainAssign d searchAddr currentTick node s.drawn s1

/-- The loop over the due nodes, for at most `fuel` rounds: the state it ends in
and whether the process ended there, or nothing when it is still going round. -/
def drain (d : Draws) (searchAddr currentTick : Nat) : Nat → Drain → Option (Drain × Option Halt)
  | 0, _ => none
  | fuel + 1, s =>
    match drainStep d searchAddr currentTick s with
    | .exit s1 => some (s1, none)
    | .next s1 => drain d searchAddr currentTick fuel s1
    | .halted s1 h => some (s1, some h)

/-- The state of `Project::simulate` between two ticks; `plotted` holds the keys of
the map `plots`. -/
structure Sim where
  project : Project
  currentTick : Nat
  resultsSent : Nat
  jobsDone : Nat
  noWorkFor : Nat
  drawn : Nat
  plotted : List Nat

/-- The calls `getTrust(plotit->first)` of line 378 on the keys of `plots`: how the
first call that does not return ends, if there is one. -/
def Project.plotTrust (p : Project) : List Nat → Option Halt
  | [] => none
  | n :: ns =>
    match p.getTrust n with
    | .halted h => some h
    | .returned _ => p.plotTrust ns

/-- How a tick of `Project::simulate` ends: the loop goes on to the next tick, the
stall exit of line 373 is taken, the loop is left at line 400 because the jobs are
done, or the process ends. -/
inductive TickEnd where
  | next (s : Sim)
  | stalled (s : Sim)
  | done (s : Sim)
  | halted (s : Sim) (h : Halt)

/-- The loop over the due nodes of the tick that starts in `s`, with the rounds it
needs when it ends: one more than there are nodes in `m_nodes`. -/
def Sim.drain (d : Draws) (searchAddr : Nat) (s : Sim) : Option (Drain × Option Halt) :=
  CloudSim.drain d searchAddr s.currentTick (s.project.m_nodes.length + 1)
    { project := s.project, foundWork := false, nodesToReinsert := [],
      resultsSent := s.resultsSent, jobsDone := s.jobsDone, drawn := s.drawn }

/-- One tick of `Project::simulate` (the body of the loop of line 305), or nothing
when the loop over the due nodes does not end. -/
def Sim.tick (d : Draws) (searchAddr : Nat) (s : Sim) : Option TickEnd :=
  match s.drain d searchAddr with
  | none => none
  | some (r, some h) =>
    some (.halted { s with
      project := r.project, resultsSent := r.resultsSent, jobsDone := r.jobsDone,
      drawn := r.drawn } h)
  | some (r, none) =>
    let noWorkFor := if r.foundWork then s.noWorkFor else s.noWorkFor + 1
    let s1 : Sim := { s with
      project := r.project, resultsSent := r.resultsSent, jobsDone := r.jobsDone,
      drawn := r.drawn, noWorkFor := noWorkFor }
    if ¬ r.foundWork ∧ noWorkFor > 1000 then some (.stalled s1)
    else
      match r.project.plotTrust s.plotted with
      | some h => some (.halted s1 h)
      | none =>
        let s2 : Sim := { s1 with
          project := r.nodesToReinsert.foldl (fun q n => q.addNode n) r.project }
        if s2.jobsDone ≥ s2.project.m_jobs.length then some (.done s2)
        else some (.next { s2 with currentTick := s.currentTick + 1 })

/-- The loop of `Project::simulate` for at most `fuel` ticks: how it ends, or
nothing when it is still running or a loop over the due nodes does not end. -/
def Sim.simulate (d : Draws) (searchAddr : Nat) : Nat → Sim → Option TickEnd
  | 0, _ => none
  | fuel + 1, s =>
    match s.tick d searchAddr with
    | some (.next s1) => Sim.simulate d searchAddr fuel s1
    | other => other

/-- The lines 279 to 302 of `Project::simulate`, which lead to the state the loop
starts in: the counters are 0; the sixth node of `m_nodes` is erased, becomes a key
of `plots` and is inserted again, and the two nodes after it become keys of `plots`
too. With fewer than eight nodes an iterator that stands on `end()` is
dereferenced. -/
def Sim.start (p : Project) : Ret Sim :=
  match p.m_nodes.drop 5 with
  | a :: b :: c :: _ =>
    let nodes := setInsert (fun x y => NodeCompare x (p.nodeHeap x) y (p.nodeHeap y)) a
      (p.m_nodes.eraseIdx 5)
    .returned
      { project := { p with m_nodes := nodes },
        currentTick := 0, resultsSent := 0, jobsDone := 0, noWorkFor := 0, drawn := 0,
        plotted := [a, b, c] }
  | _ => .halted .undefined

/-! ## Concrete inputs -/

/-- A node as `Node::Node()` leaves it. -/
def Node.new : Node :=
  { m_trust := 0, m_performance := 0, m_nextActionTime := 0, m_lastActionTime := 0,
    m_currentWork := none, m_falseRatio := 0, m_results := [], m_resultsJob := [] }

/-- A job at address 7 that node 1 has sent a result of weight 1/2 for with hash 0,
and that node 2 has a reservation of weight 1/2 on. -/
def halfDoneJob : Job :=
  { m_difficulty := 1, m_active := true, m_assumedCorrectness := 1 / 2,
    m_bestCorrectness := 1 / 2, m_correctnessPerHash := [(0, 1 / 2)],
    m_assumedResults := [(2, { job := 7, node := 2, correctness := 1 / 2 })],
    m_results := [{ hash := 0, node := 1, job := 7, correctness := 1 / 2 }] }

/-- The reservation of node 2 on `halfDoneJob`. -/
def secondReservation : AssumedResult :=
  { job := 7, node := 2, correctness := 1 / 2 }

/-- A job at address 7 that node 1 has sent a result of weight 1/2 for with hash 5,
and that node 2 has a reservation of weight 1/2 on. -/
def halfWrongJob : Job :=
  { m_difficulty := 1, m_active := true, m_assumedCorrectness := 1 / 2,
    m_bestCorrectness := 1 / 2, m_correctnessPerHash := [(5, 1 / 2)],
    m_assumedResults := [(2, { job := 7, node := 2, correctness := 1 / 2 })],
    m_results := [{ hash := 5, node := 1, job := 7, correctness := 1 / 2 }] }

/-- A job at address 7 that nodes 1 and 2 have completed on hash 0, with no
reservation left. -/
def doneJob : Job :=
  { m_difficulty := 1, m_active := true, m_assumedCorrectness := 0,
    m_bestCorrectness := 1, m_correctnessPerHash := [(0, 1)],
    m_assumedResults := [],
    m_results := [{ hash := 0, node := 1, job := 7, correctness := 1 / 2 },
                  { hash := 0, node := 2, job := 7, correctness := 1 / 2 }] }

/-- A reservation of node 3 of weight 0. -/
def zeroReservation : AssumedResult :=
  { job := 7, node := 3, correctness := 0 }

/-- A reservation of node 1 of weight 1/2 on the job at address 7. -/
def firstReservation : AssumedResult :=
  { job := 7, node := 1, correctness := 1 / 2 }

/-- Nodes 1 and 2 reserve the job at address 7 and send hash 0, one after the other. -/
def twoHonestCalls : List Call :=
  [.nodeStarted firstReservation, .nodeStarted secondReservation,
   .workDone firstReservation 0, .workDone secondReservation 0]

/-- Nodes 1 and 2 reserve the job at address 7, and node 1 sends hash 0. -/
def oneResultCalls : List Call :=
  [.nodeStarted firstReservation, .nodeStarted secondReservation,
   .workDone firstReservation 0]

/-- A project with one fresh active job at address 7 and nodes as `Node::Node()`
leaves them. -/
def smallProject : Project :=
  { jobHeap := fun _ => Job.new true, nodeHeap := fun _ => Node.new, m_jobs := [7],
    m_nodes := [1, 2], m_bestTrust := 0 }

/-- Node 1 starts the job at address 7 with weight 1/2 and ends it. -/
def startAndEnd : List Op :=
  [.startJob 1 7 (1 / 2) 0, .endJob 1 (1 / 4) 5]

/-- As `smallProject`, with node 1 returning a corrupted hash every time. -/
def liarProject : Project :=
  { smallProject with nodeHeap := fun n =>
      if n = 1 then { Node.new with m_falseRatio := 1 } else Node.new }

/-- A project whose job order holds two inactive jobs nobody has worked on, at
addresses 1 and 2. -/
def twoInactive : Project :=
  { jobHeap := fun _ => Job.new false, nodeHeap := fun _ => Node.new, m_jobs := [1, 2],
    m_nodes := [], m_bestTrust := 0 }

/-- A project whose nodes have trust 2 while the tracked maximum is 1. -/
def overTrusted : Project :=
  { jobHeap := fun _ => Job.new true, nodeHeap := fun _ => { Node.new with m_trust := 2 },
    m_jobs := [], m_nodes := [1], m_bestTrust := 1 }

/-- As `overTrusted`, with the fresh active job at address 7 in the job order. -/
def overTrustedQueue : Project :=
  { overTrusted with m_jobs := [7] }

/-- A project with one active job, at address 7, with `getCorrectness() = 95/100`,
and nodes as `Node::Node()` leaves them. -/
def nearlyDone : Project :=
  { jobHeap := fun _ => { Job.new true with m_assumedCorrectness := 95 / 100 },
    nodeHeap := fun _ => Node.new, m_jobs := [7], m_nodes := [1], m_bestTrust := 0 }

/-- A project whose nodes have trust 1, the tracked maximum. -/
def fullyTrusted : Project :=
  { jobHeap := fun _ => Job.new true, nodeHeap := fun _ => { Node.new with m_trust := 1 },
    m_jobs := [], m_nodes := [1], m_bestTrust := 1 }

/-- A random source that returns 1 for `getRand(1.0f, 1.3f)` and 0 otherwise. -/
def plainDraws : Draws :=
  { randf := fun _ => 0, rand := fun _ => 0, target := fun _ => 1, noise := fun _ => 0 }

/-- A project at the start of tick 6, after six ticks in which nobody found work:
the only job, at address 7, is inactive, and the eight nodes are idle and were
delayed to tick 5; node 1 has the deadline 5. -/
def retiredProject : Project :=
  { jobHeap := fun _ => Job.new false,
    nodeHeap := fun n =>
      if n = 1 then { Node.new with m_nextActionTime := 5, m_lastActionTime := 5 }
      else { Node.new with m_nextActionTime := 5 },
    m_jobs := [7], m_nodes := [1, 2, 3, 4, 5, 6, 7, 8], m_bestTrust := 0 }

/-- The loop over the due nodes of `retiredProject` as tick 6 starts it. -/
def retiredDrain : Drain :=
  { project := retiredProject, foundWork := false, nodesToReinsert := [], resultsSent := 0,
    jobsDone := 0, drawn := 48 }

/-- The loop of `simulate` on `retiredProject` at tick 6. -/
def retiredSim : Sim :=
  { project := retiredProject, currentTick := 6, resultsSent := 0, jobsDone := 0,
    noWorkFor := 6, drawn := 48, plotted := [6, 7, 8] }

/-- A project with no jobs and eight nodes as `Node::Node()` leaves them. -/
def noJobs : Project :=
  { jobHeap := fun _ => Job.new true, nodeHeap := fun _ => Node.new, m_jobs := [],
    m_nodes := [1, 2, 3, 4, 5, 6, 7, 8], m_bestTrust := 0 }

/-- A project with one job, at address 7, of difficulty 20, and eight nodes that
join late: node 1 is due at tick 500, the others at tick 5000. -/
def stallProject : Project :=
  { jobHeap := fun _ => { Job.new true with m_difficulty := 20 },
    nodeHeap := fun n =>
      if n = 1 then { Node.new with m_nextActionTime := 500 }
      else { Node.new with m_nextActionTime := 5000 },
    m_jobs := [7], m_nodes := [1, 2, 3, 4, 5, 6, 7, 8], m_bestTrust := 0 }

/-- The state in which the loop of `simulate` starts on `stallProject`. -/
def stallStart : Sim :=
  { project := stallProject, currentTick := 0, resultsSent := 0, jobsDone := 0,
    noWorkFor := 0, drawn := 0, plotted := [6, 7, 8] }

/-- The loop of `simulate` on `stallProject` after 500 ticks in which no node was
due. -/
def stallAt500 : Sim :=
  { project := stallProject, currentTick := 500, resultsSent := 0, jobsDone := 0,
    noWorkFor := 500, drawn := 0, plotted := [6, 7, 8] }

/-- The project `stallProject` after node 1 has taken the job at address 7 at
tick 500, with weight 1/10, and before the node is inserted again. -/
def stallWorking : Project :=
  (Node.startJob 1 { stallProject with m_jobs := [], m_nodes := [2, 3, 4, 5, 6, 7, 8] } 7
    (1 / 10) 500).jobsInsert 7

/-- The loop of `simulate` on `stallProject` after tick 500. -/
def stallAt501 : Sim :=
  { project := stallWorking.addNode 1, currentTick := 501, resultsSent := 0, jobsDone := 0,
    noWorkFor := 500, drawn := 1, plotted := [6, 7, 8] }

/-- A project whose job order holds two active jobs: the job at address 3 with
`getCorrectness() = 8/10` and the job at address 4 with `getCorrectness() = 3/10`. -/
def twoActive : Project :=
  { jobHeap := fun a =>
      if a = 3 then { Job.new true with m_assumedCorrectness := 8 / 10 }
      else { Job.new true with m_assumedCorrectness := 3 / 10 },
    nodeHeap := fun _ => Node.new, m_jobs := [3, 4], m_nodes := [1], m_bestTrust := 0 }

/-- A project in which node 2 is about to send the second half of the job at
address 7: the job is `halfDoneJob`, and node 2 holds its reservation. -/
def finishing : Project :=
  { jobHeap := fun _ => halfDoneJob,
    nodeHeap := fun n =>
      if n = 2 then { Node.new with m_currentWork := some secondReservation } else Node.new,
    m_jobs := [7], m_nodes := [], m_bestTrust := 0 }

/-- Whether the call completes the job: it finds `m_bestCorrectness < 1` and leaves
`m_bestCorrectness ≥ 1`. These are the calls in which the trust loop of
`Job::workDone` runs. -/
def JobRun.completes (self : Nat) (s : JobRun) (c : Call) : Bool :=
  decide (s.job.m_bestCorrectness < 1 ∧ (s.step self c).job.m_bestCorrectness ≥ 1)

/-- The sum of the correctness of the results with hash `h`. -/
def hashTotal (rs : List Result) (h : Int) : ℚ :=
  ((rs.filter (fun r => decide (r.hash = h))).map (fun r => r.correctness)).sum

/-- The value `m_correctnessPerHash[h]`: what the map holds for `h`, and 0 for a
hash it has no entry for. -/
def perHash (m : List (Int × ℚ)) (h : Int) : ℚ :=
  (mapFind h m).getD 0

/-- The per-hash accounting of a job: `m_correctnessPerHash[h]` is the sum of the
correctness of the stored results with hash `h`, for every `h`. -/
def Job.Accounted (j : Job) : Prop :=
  ∀ h : Int, perHash j.m_correctnessPerHash h = hashTotal j.m_results h

/-- The stored results have non-negative correctness. -/
def Job.StoredNonneg (j : Job) : Prop :=
  ∀ r ∈ j.m_results, 0 ≤ r.correctness

/-- The correctness a call reserves: that of its reservation for a `nodeStarted`
call that runs, and nothing otherwise. -/
def JobRun.reservedBy (s : JobRun) (c : Call) : ℚ :=
  match s.halted, c with
  | none, .nodeStarted res => res.correctness
  | _, _ => 0

/-- A call that respects the reservation protocol: a node is reserved only while
the job holds no reservation of it, and a reservation is finalized only while the
job holds it (so it was made before and has not been finalized yet). -/
def JobRun.Allowed (s : JobRun) (c : Call) : Prop :=
  match c with
  | .nodeStarted res => mapFind res.node s.job.m_assumedResults = none
  | .workDone res _ => mapFind res.node s.job.m_assumedResults = some res
  | .activate => True

/-- A job that, if it is done, is done on hash 0: the entry of hash 0 in
`m_correctnessPerHash` is `m_bestCorrectness`. -/
def Job.WonByZero (j : Job) : Prop :=
  j.m_bestCorrectness ≥ 1 → mapFind 0 j.m_correctnessPerHash = some j.m_bestCorrectness

/-- A job whose stored results are among `old` or have hash 0. -/
def Job.NewResultsZero (old : List Result) (j : Job) : Prop :=
  ∀ r ∈ j.m_results, r ∈ old ∨ r.hash = 0

/-- A project all of whose nodes have `m_falseRatio = 0`. -/
def Project.Honest (p : Project) : Prop :=
  ∀ n, (p.nodeHeap n).m_falseRatio = 0

/-- A property of jobs that the program keeps when it sends hash 0: `nodeStarted`,
the activation and `workDone` with hash 0 preserve it. -/
def StableUnderZero (J : Job → Prop) : Prop :=
  (∀ (job : Job) (res : AssumedResult), J job → J (job.nodeStarted res))
    ∧ (∀ job : Job, J job → J { job with m_active := true })
    ∧ (∀ (self : Nat) (job : Job) (nodes : Nat → Node) (res : AssumedResult),
        J job → J (Job.workDone self job nodes res 0).job)

/-- The number of stored results with hash `h`. -/
def hashCount (rs : List Result) (h : Int) : Nat :=
  (rs.filter (fun r => decide (r.hash = h))).length

/-- The order of the jobs of a project: `JobCompare` on the jobs at two addresses. -/
def Project.comp (p : Project) (a b : Nat) : Bool :=
  JobCompare a (p.jobHeap a) b (p.jobHeap b)

/-- A job order sorted by `JobCompare`: every job precedes the jobs after it. -/
def Project.JobsSorted (p : Project) : Prop :=
  p.m_jobs.Pairwise (fun a b => p.comp a b = true)

/-- A job the node can be given: active, with `getCorrectness() < 1`, and not in
the submitted set of the node. -/
def Project.Eligible (p : Project) (node obj : Nat) : Prop :=
  (p.jobHeap obj).m_active = true ∧ (p.jobHeap obj).getCorrectness < 1
    ∧ (p.nodeHeap node).hasSubmitted obj = false

/-- A node of a project that is idle, has no deadline, and whose trust does not
exceed the tracked maximum. -/
def Project.IdleNode (p : Project) (n : Nat) : Prop :=
  (p.nodeHeap n).m_lastActionTime = 0 ∧ (p.nodeHeap n).m_currentWork = none
    ∧ (p.nodeHeap n).m_trust ≤ p.m_bestTrust

/-- The state of `simulate` after `k` more ticks, when each of them goes on to the
next tick. -/
def Sim.after (d : Draws) (searchAddr : Nat) : Nat → Sim → Option Sim
  | 0, s => some s
  | k + 1, s =>
    match s.tick d searchAddr with
    | some (.next s1) => Sim.after d searchAddr k s1
    | _ => none

/-- The state of `simulate` after `k` ticks in which nothing but the two counters
changed. -/
def Sim.idleFor (s : Sim) (k : Nat) : Sim :=
  { s with currentTick := s.currentTick + k, noWorkFor := s.noWorkFor + k }

/-- The tracked maximum covers every node: no node has more trust than
`m_bestTrust`. -/
def Project.TrustCovered (p : Project) : Prop :=
  ∀ n, (p.nodeHeap n).m_trust ≤ p.m_bestTrust

/-- The sum of the correctness of the reservations made by the calls of a sequence
that run with `float` arithmetic. -/
def JobRun.reserved32 (self : Nat) : JobRun → List Call → ℚ
  | _, [] => 0
  | s, c :: cs => s.reservedBy c + JobRun.reserved32 self (s.step32 self c) cs

/-- A sequence of calls each of which, when it runs with `float` arithmetic,
respects the reservation protocol. -/
def JobRun.WellFormed32 (self : Nat) : JobRun → List Call → Prop
  | _, [] => True
  | s, c :: cs =>
    (s.halted = none → s.Allowed c) ∧ JobRun.WellFormed32 self (s.step32 self c) cs

/-- The number of calls of a sequence that complete the job. -/
def JobRun.completions (self : Nat) : JobRun → List Call → Nat
  | _, [] => 0
  | s, c :: cs =>
    (if s.completes self c then 1 else 0) + JobRun.completions self (s.step self c) cs

/-- The sum of `best - correctness` over the results of `rs` with the given hash
and node: what the payout loop adds to the trust of that node. -/
def payoutSum (best : ℚ) (hash : Int) (n : Nat) (rs : List Result) : ℚ :=
  ((rs.filter (fun r => decide (r.hash = hash ∧ r.node = n))).map
    (fun r => best - r.correctness)).sum

/-- The job after the first two statements of `Job::workDone`: the reservation is
erased and its weight released. -/
def Job.released (j : Job) (res : AssumedResult) : Job :=
  { j with
    m_assumedResults := mapErase res.node j.m_assumedResults
    m_assumedCorrectness := j.m_assumedCorrectness - res.correctness }

/-- The local `resultCor` of `Job::workDone`: the weight of the new result plus
what `m_correctnessPerHash` holds for its hash. -/
def Job.resultCor (j : Job) (res : AssumedResult) (hash : Int) : ℚ :=
  match mapFind hash j.m_correctnessPerHash with
  | some v => res.correctness + v
  | none => res.correctness

/-- The `Result` that `Job::workDone` builds. -/
def Job.newResult (self : Nat) (res : AssumedResult) (hash : Int) : Result :=
  { hash := hash, node := res.node, job := self, correctness := res.correctness }

/-- The job after `Job::workDone` has stored the new result (lines 36 to 53). -/
def Job.stored (self : Nat) (j : Job) (res : AssumedResult) (hash : Int) : Job :=
  { j.released res with
    m_results := multimapInsert (Job.newResult self res hash) j.m_results
    m_correctnessPerHash := mapAssign hash (j.resultCor res hash) j.m_correctnessPerHash
    m_bestCorrectness :=
      if j.resultCor res hash > j.m_bestCorrectness then j.resultCor res hash
      else j.m_bestCorrectness }

/-! ## Containers: facts -/

theorem mapFind_mapErase_self {κ α : Type} [DecidableEq κ] (k : κ) (m : List (κ × α)) :
    mapFind k (mapErase k m) = none := by
  induction m with
  | nil => rfl
  | cons e m ih =>
    by_cases h : e.1 = k
    · simp [mapErase, h, ih]
    · simp [mapErase, mapFind, h, ih]

theorem mapFind_mapErase_ne {κ α : Type} [DecidableEq κ] {k k' : κ} (h : k' ≠ k)
    (m : List (κ × α)) : mapFind k' (mapErase k m) = mapFind k' m := by
  induction m with
  | nil => rfl
  | cons e m ih =>
    by_cases h1 : e.1 = k
    · have h2 : ¬ e.1 = k' := fun h3 => h (h3.symm.trans h1)
      rw [mapErase, if_pos h1, ih, mapFind, if_neg h2]
    · rw [mapErase, if_neg h1, mapFind, mapFind, ih]

theorem mapFind_mapAssign_self {κ α : Type} [DecidableEq κ] (k : κ) (v : α)
    (m : List (κ × α)) : mapFind k (mapAssign k v m) = some v := by
  simp [mapAssign, mapFind]

theorem mapFind_mapAssign_ne {κ α : Type} [DecidableEq κ] {k k' : κ} (h : k' ≠ k) (v : α)
    (m : List (κ × α)) : mapFind k' (mapAssign k v m) = mapFind k' m := by
  simp [mapAssign, mapFind, Ne.symm h, mapFind_mapErase_ne h]

theorem payout_trust (best : ℚ) (hash : Int) (n : Nat) (rs : List Result) :
    ∀ nodes : Nat → Node,
      (payout best hash nodes rs n).m_trust = (nodes n).m_trust + payoutSum best hash n rs := by
  induction rs with
  | nil => intro nodes; simp [payout, payoutSum]
  | cons r rs ih =>
    intro nodes
    rw [payout, ih]
    by_cases h1 : r.hash = hash
    · by_cases h2 : r.node = n
      · subst h2
        simp [payoutSum, List.filter_cons, h1, addTrust] at *
        ring
      · simp [payoutSum, List.filter_cons, h1, h2, addTrust, Function.update_noteq (Ne.symm h2)]
    · simp [payoutSum, List.filter_cons, h1]

theorem payout_untouched (best : ℚ) (hash : Int) (n : Nat) (rs : List Result)
    (h : ∀ r ∈ rs, r.hash = hash → r.node ≠ n) :
    ∀ nodes : Nat → Node, payout best hash nodes rs n = nodes n := by
  induction rs with
  | nil => intro nodes; rfl
  | cons r rs ih =>
    intro nodes
    rw [payout, ih (fun x hx => h x (List.mem_cons_of_mem _ hx))]
    by_cases h1 : r.hash = hash
    · have h2 : n ≠ r.node := Ne.symm (h r (List.mem_cons_self _ _) h1)
      simp [h1, addTrust, Function.update_noteq h2]
    · simp [h1]

theorem mem_multimapInsert (r x : Result) (rs : List Result) :
    x ∈ multimapInsert r rs ↔ x = r ∨ x ∈ rs := by
  induction rs with
  | nil => simp [multimapInsert]
  | cons y ys ih =>
    unfold multimapInsert
    split_ifs
    · simp
    · simp [ih]
      tauto

/-! ## Job::workDone -/

/-- The paths through `Job::workDone`: the assertion fails; the job was done
already; the result is stored and completes the job; the result is stored and
the job stays open. -/
theorem workDone_cases (self : Nat) (j : Job) (nodes : Nat → Node) (res : AssumedResult)
    (hash : Int) :
    (¬ (j.m_assumedCorrectness - res.correctness ≥ -(1 / 100)) ∧
        Job.workDone self j nodes res hash
          = { job := j.released res, nodes := nodes, ret := .halted .assertFailed })
      ∨ (j.m_assumedCorrectness - res.correctness ≥ -(1 / 100) ∧ j.m_bestCorrectness ≥ 1 ∧
        Job.workDone self j nodes res hash
          = { job := j.released res, nodes := nodes, ret := .returned none })
      ∨ (j.m_assumedCorrectness - res.correctness ≥ -(1 / 100) ∧ j.m_bestCorrectness < 1 ∧
        j.resultCor res hash ≥ 1 ∧
        (Job.stored self j res hash).m_bestCorrectness = j.resultCor res hash ∧
        Job.workDone self j nodes res hash
          = { job := Job.stored self j res hash,
              nodes := payout (j.resultCor res hash) hash nodes
                (Job.stored self j res hash).m_results,
              ret := if hash ≠ 0 then .halted .exited
                     else .returned (some (Job.newResult self res hash)) })
      ∨ (j.m_assumedCorrectness - res.correctness ≥ -(1 / 100) ∧ j.m_bestCorrectness < 1 ∧
        (Job.stored self j res hash).m_bestCorrectness < 1 ∧
        Job.workDone self j nodes res hash
          = { job := Job.stored self j res hash, nodes := nodes,
              ret := .returned (some (Job.newResult self res hash)) }) := by
  unfold Job.workDone Job.stored Job.released Job.resultCor Job.newResult
  simp only []
  by_cases h1 : j.m_assumedCorrectness - res.correctness ≥ -(1 / 100)
  · by_cases h2 : j.m_bestCorrectness ≥ 1
    · right; left
      exact ⟨h1, h2, by simp only [h1, h2, not_true_eq_false, ↓reduceIte]⟩
    · right; right
      have h2' : j.m_bestCorrectness < 1 := lt_of_not_ge h2
      split_ifs with h3 h4 h5
      all_goals first
        | (left; exact ⟨h1, h2', h4, rfl, rfl⟩)
        | (right; exact ⟨h1, h2', lt_of_not_ge h4, rfl⟩)
        | (right; exact ⟨h1, h2', h2', rfl⟩)
  · left
    exact ⟨h1, by simp only [h1, not_false_eq_true, ↓reduceIte]⟩

theorem workDone_best_mono (self : Nat) (j : Job) (nodes : Nat → Node) (res : AssumedResult)
    (hash : Int) :
    j.m_bestCorrectness ≤ (Job.workDone self j nodes res hash).job.m_bestCorrectness := by
  rcases workDone_cases self j nodes res hash with
    ⟨_, h⟩ | ⟨_, _, h⟩ | ⟨_, hlt, hge, hb, h⟩ | ⟨_, _, _, h⟩
  · rw [h]; exact le_refl _
  · rw [h]; exact le_refl _
  · rw [h]; simp only [hb]; exact le_trans (le_of_lt hlt) hge
  · rw [h]
    simp only [Job.stored, Job.released]
    split_ifs with h1
    · exact le_of_lt h1
    · exact le_refl _

theorem step_best_mono (self : Nat) (s : JobRun) (c : Call) :
    s.job.m_bestCorrectness ≤ (s.step self c).job.m_bestCorrectness := by
  unfold JobRun.step
  cases s.halted with
  | some _ => exact le_refl _
  | none =>
    cases c with
    | nodeStarted res => exact le_refl _
    | workDone res hash => exact workDone_best_mono _ _ _ _ _
    | activate => exact le_refl _

theorem completions_of_done (self : Nat) (calls : List Call) :
    ∀ s : JobRun, s.job.m_bestCorrectness ≥ 1 → JobRun.completions self s calls = 0 := by
  induction calls with
  | nil => intro s _; rfl
  | cons c cs ih =>
    intro s hs
    have h1 : s.completes self c = false := by
      simp [JobRun.completes, not_lt.mpr hs]
    rw [JobRun.completions, h1, ih _ (le_trans hs (step_best_mono self s c))]
    rfl

theorem completions_le_one (self : Nat) (calls : List Call) :
    ∀ s : JobRun, JobRun.completions self s calls ≤ 1 := by
  induction calls with
  | nil => intro s; exact Nat.zero_le _
  | cons c cs ih =>
    intro s
    rw [JobRun.completions]
    by_cases h : s.completes self c = true
    · have h2 : (s.step self c).job.m_bestCorrectness ≥ 1 := by
        simp only [JobRun.completes, decide_eq_true_eq] at h
        exact h.2
      rw [if_pos h, completions_of_done self cs _ h2]
    · rw [if_neg h, Nat.zero_add]
      exact ih _

theorem step_nodes_of_not_completes (self : Nat) (s : JobRun) (c : Call)
    (h : s.completes self c = false) : (s.step self c).nodes = s.nodes := by
  simp only [JobRun.completes, decide_eq_false_iff_not, not_and, not_le] at h
  revert h
  unfold JobRun.step
  cases s.halted with
  | some _ => intro _; rfl
  | none =>
    cases c with
    | nodeStarted res => intro _; rfl
    | workDone res hash =>
      simp only []
      rcases workDone_cases self s.job s.nodes res hash with
        ⟨_, h⟩ | ⟨_, _, h⟩ | ⟨_, hlt, hge, hb, h⟩ | ⟨_, _, _, h⟩
      · rw [h]; intro _; rfl
      · rw [h]; intro _; rfl
      · rw [h]; simp only [hb]
        intro h2
        exact absurd (h2 hlt) (not_lt.mpr hge)
      · rw [h]; intro _; rfl
    | activate => intro _; rfl

/-- Counterexample to C2 as stated: `doneJob` is the job that `twoHonestCalls`
leaves, it is done, and a further `workDone` with the reservation of node 1 (of
weight 1/2, finalized before) ends at the assertion of line 30 instead of
returning none. -/
theorem workDone_late_assert_counterexample :
    ((JobRun.fresh true (fun _ => Node.new)).run 7 twoHonestCalls).job = doneJob
      ∧ doneJob.m_bestCorrectness ≥ 1
      ∧ (Job.workDone 7 doneJob (fun _ => Node.new) firstReservation 0).ret
          = .halted .assertFailed
      ∧ (Job.workDone 7 doneJob (fun _ => Node.new) firstReservation 0).ret
          ≠ .returned none := by
  have h : (Job.workDone 7 doneJob (fun _ => Node.new) firstReservation 0).ret
      = .halted .assertFailed := by
    norm_num [Job.workDone, doneJob, firstReservation]
  refine ⟨?_, by norm_num [doneJob], h, ?_⟩
  · norm_num [JobRun.run, JobRun.step, JobRun.fresh, twoHonestCalls, Job.new,
      Job.nodeStarted, Job.workDone, mapFind, mapErase, mapAssign, firstReservation,
      secondReservation, multimapInsert, doneJob]
  · rw [h]
    exact fun h2 => Ret.noConfusion h2

/-- C2 (amended). Late finalize: for a job with `m_bestCorrectness ≥ 1`, `workDone`
leaves `m_bestCorrectness`, `m_correctnessPerHash`, `m_results`, the other fields
but the reservation map and `m_assumedCorrectness`, and every node unchanged, and
it does not call `exit(1)`; it returns none when the assertion of line 30 holds and
ends at that assertion otherwise. Over any sequence of calls at most one call
completes the job, and a call that does not complete it leaves every node
unchanged, so the payout happens in at most one call. -/
theorem workDone_late (self : Nat) (j : Job) (nodes : Nat → Node) (res : AssumedResult)
    (hash : Int) (hdone : j.m_bestCorrectness ≥ 1) :
    (Job.workDone self j nodes res hash).job
        = { j with
            m_assumedResults := mapErase res.node j.m_assumedResults
            m_assumedCorrectness := j.m_assumedCorrectness - res.correctness }
      ∧ (Job.workDone self j nodes res hash).nodes = nodes
      ∧ (Job.workDone self j nodes res hash).ret
          = (if j.m_assumedCorrectness - res.correctness ≥ -(1 / 100) then .returned none
             else .halted .assertFailed)
      ∧ (∀ (s : JobRun) (calls : List Call), JobRun.completions self s calls ≤ 1)
      ∧ (∀ (s : JobRun) (c : Call), s.completes self c = false →
          (s.step self c).nodes = s.nodes) := by
  refine ⟨?_, ?_, ?_, fun s calls => completions_le_one self calls s,
    fun s c h => step_nodes_of_not_completes self s c h⟩
  all_goals
    rcases workDone_cases self j nodes res hash with
      ⟨h1, h⟩ | ⟨h1, _, h⟩ | ⟨_, hlt, _⟩ | ⟨_, hlt, _⟩
    · first | (rw [h]; done) | (rw [h]; rfl) | (rw [h]; simp only [h1, ↓reduceIte])
    · first | (rw [h]; done) | (rw [h]; rfl) | (rw [h]; simp only [h1, ↓reduceIte])
    · exact absurd hdone (not_le.mpr hlt)
    · exact absurd hdone (not_le.mpr hlt)

/-- Witness of C2 (`workDone_late`): a late result of weight 0 for `doneJob`
returns none. -/
theorem workDone_late_witness :
    doneJob.m_bestCorrectness ≥ 1
      ∧ (Job.workDone 7 doneJob (fun _ => Node.new) zeroReservation 5).ret = .returned none := by
  have h1 : doneJob.m_bestCorrectness ≥ 1 := by norm_num [doneJob]
  refine ⟨h1, ?_⟩
  rw [(workDone_late 7 doneJob (fun _ => Node.new) zeroReservation 5 h1).2.2.1]
  norm_num [doneJob, zeroReservation]

/-- C3. Wrong-consensus failure: when the assertion of line 30 holds, `workDone`
ends in `exit(1)` exactly when the call finds `m_bestCorrectness < 1`, leaves
`m_bestCorrectness ≥ 1` and the submitted hash is not 0; in every other case it
returns. -/
theorem workDone_exit_iff (self : Nat) (j : Job) (nodes : Nat → Node) (res : AssumedResult)
    (hash : Int) (hassert : j.m_assumedCorrectness - res.correctness ≥ -(1 / 100)) :
    ((Job.workDone self j nodes res hash).ret = .halted .exited
        ↔ (j.m_bestCorrectness < 1
            ∧ (Job.workDone self j nodes res hash).job.m_bestCorrectness ≥ 1 ∧ hash ≠ 0))
      ∧ (¬ (j.m_bestCorrectness < 1
            ∧ (Job.workDone self j nodes res hash).job.m_bestCorrectness ≥ 1 ∧ hash ≠ 0)
          → ∃ r, (Job.workDone self j nodes res hash).ret = .returned r) := by
  rcases workDone_cases self j nodes res hash with
    ⟨h1, _⟩ | ⟨_, h2, h⟩ | ⟨_, hlt, hge, hb, h⟩ | ⟨_, hlt, h3, h⟩
  · exact absurd hassert h1
  · rw [h]
    refine ⟨⟨fun h4 => Ret.noConfusion h4, fun h4 => absurd h2 (not_le.mpr h4.1)⟩,
      fun _ => ⟨none, rfl⟩⟩
  · rw [h]
    simp only [hb]
    by_cases h0 : hash = 0
    · simp [h0]
    · simp [h0, hlt, hge]
  · rw [h]
    refine ⟨⟨fun h4 => Ret.noConfusion h4, fun h4 => absurd h4.2.1 (not_le.mpr h3)⟩,
      fun _ => ⟨_, rfl⟩⟩

/-- Witness of C3 (`workDone_exit_iff`): node 2 completes `halfWrongJob` on hash 5, and
the call ends in `exit(1)`. -/
theorem workDone_exit_iff_witness :
    halfWrongJob.m_assumedCorrectness - secondReservation.correctness ≥ -(1 / 100)
      ∧ (Job.workDone 7 halfWrongJob (fun _ => Node.new) secondReservation 5).ret
          = .halted .exited := by
  have h1 : halfWrongJob.m_assumedCorrectness - secondReservation.correctness ≥ -(1 / 100) := by
    norm_num [halfWrongJob, secondReservation]
  refine ⟨h1, ?_⟩
  refine (workDone_exit_iff 7 halfWrongJob (fun _ => Node.new) secondReservation 5 h1).1.mpr
    ⟨?_, ?_, ?_⟩
  · norm_num [halfWrongJob]
  · norm_num [Job.workDone, halfWrongJob, secondReservation, mapFind, mapErase, mapAssign]
  · decide

/-! ## Per-hash accounting -/

theorem multimapInsert_perm (r : Result) (rs : List Result) :
    (multimapInsert r rs).Perm (r :: rs) := by
  induction rs with
  | nil => exact List.Perm.refl _
  | cons x xs ih =>
    unfold multimapInsert
    split_ifs
    · exact List.Perm.refl _
    · exact (ih.cons x).trans (List.Perm.swap r x xs)

theorem hashTotal_cons (r : Result) (rs : List Result) (h : Int) :
    hashTotal (r :: rs) h = (if r.hash = h then r.correctness else 0) + hashTotal rs h := by
  by_cases h1 : r.hash = h <;> simp [hashTotal, List.filter_cons, h1]

theorem hashTotal_multimapInsert (r : Result) (rs : List Result) (h : Int) :
    hashTotal (multimapInsert r rs) h
      = (if r.hash = h then r.correctness else 0) + hashTotal rs h := by
  rw [← hashTotal_cons]
  exact (((multimapInsert_perm r rs).filter _).map _).sum_eq

theorem perHash_mapAssign (k : Int) (v : ℚ) (m : List (Int × ℚ)) (h : Int) :
    perHash (mapAssign k v m) h = if h = k then v else perHash m h := by
  unfold perHash
  by_cases h1 : h = k
  · rw [h1, mapFind_mapAssign_self, if_pos rfl]; rfl
  · rw [mapFind_mapAssign_ne h1, if_neg h1]

theorem resultCor_eq (j : Job) (res : AssumedResult) (hash : Int) :
    j.resultCor res hash = res.correctness + perHash j.m_correctnessPerHash hash := by
  unfold Job.resultCor perHash
  cases mapFind hash j.m_correctnessPerHash <;> simp

theorem stored_accounted (self : Nat) (j : Job) (res : AssumedResult) (hash : Int)
    (hacc : j.Accounted) : (Job.stored self j res hash).Accounted := by
  intro h
  simp only [Job.stored, Job.released]
  rw [perHash_mapAssign, hashTotal_multimapInsert, resultCor_eq, hacc hash]
  simp only [Job.newResult]
  by_cases h1 : h = hash
  · rw [h1, if_pos rfl, if_pos rfl]
  · rw [if_neg h1, if_neg (Ne.symm h1), zero_add, hacc h]

theorem workDone_accounted (self : Nat) (j : Job) (nodes : Nat → Node) (res : AssumedResult)
    (hash : Int) (hacc : j.Accounted) : (Job.workDone self j nodes res hash).job.Accounted := by
  rcases workDone_cases self j nodes res hash with
    ⟨_, h⟩ | ⟨_, _, h⟩ | ⟨_, _, _, _, h⟩ | ⟨_, _, _, h⟩
  · rw [h]; exact hacc
  · rw [h]; exact hacc
  · rw [h]; exact stored_accounted self j res hash hacc
  · rw [h]; exact stored_accounted self j res hash hacc

theorem step_accounted (self : Nat) (s : JobRun) (c : Call) (hacc : s.job.Accounted) :
    (s.step self c).job.Accounted := by
  unfold JobRun.step
  cases s.halted with
  | some _ => exact hacc
  | none =>
    cases c with
    | nodeStarted res => exact hacc
    | workDone res hash => exact workDone_accounted _ _ _ _ _ hacc
    | activate => exact hacc

theorem run_accounted (self : Nat) (calls : List Call) :
    ∀ s : JobRun, s.job.Accounted → (s.run self calls).job.Accounted := by
  induction calls with
  | nil => intro s h; exact h
  | cons c cs ih =>
    intro s h
    exact ih (s.step self c) (step_accounted self s c h)

theorem fresh_accounted (active : Bool) (nodes : Nat → Node) :
    (JobRun.fresh active nodes).job.Accounted := by
  intro h; rfl

theorem workDone_storedNonneg (self : Nat) (j : Job) (nodes : Nat → Node)
    (res : AssumedResult) (hash : Int) (hnn : j.StoredNonneg) (hc : 0 ≤ res.correctness) :
    (Job.workDone self j nodes res hash).job.StoredNonneg := by
  have hs : (Job.stored self j res hash).StoredNonneg := by
    intro r hr
    rcases (mem_multimapInsert _ _ _).mp hr with h | h
    · rw [h]; exact hc
    · exact hnn r h
  rcases workDone_cases self j nodes res hash with
    ⟨_, h⟩ | ⟨_, _, h⟩ | ⟨_, _, _, _, h⟩ | ⟨_, _, _, h⟩
  · rw [h]; exact hnn
  · rw [h]; exact hnn
  · rw [h]; exact hs
  · rw [h]; exact hs

theorem step_storedNonneg (self : Nat) (s : JobRun) (c : Call) (hnn : s.job.StoredNonneg)
    (hc : 0 ≤ c.correctness) : (s.step self c).job.StoredNonneg := by
  unfold JobRun.step
  cases s.halted with
  | some _ => exact hnn
  | none =>
    cases c with
    | nodeStarted res => exact hnn
    | workDone res hash => exact workDone_storedNonneg _ _ _ _ _ hnn hc
    | activate => exact hnn

theorem run_storedNonneg (self : Nat) (calls : List Call) :
    ∀ s : JobRun, s.job.StoredNonneg → (∀ c ∈ calls, 0 ≤ c.correctness) →
      (s.run self calls).job.StoredNonneg := by
  induction calls with
  | nil => intro s h _; exact h
  | cons c cs ih =>
    intro s hnn hc
    exact ih (s.step self c) (step_storedNonneg self s c hnn (hc c (List.mem_cons_self _ _)))
      (fun x hx => hc x (List.mem_cons_of_mem _ hx))

theorem mem_le_hashTotal (rs : List Result) (hnn : ∀ x ∈ rs, 0 ≤ x.correctness) (r : Result)
    (hr : r ∈ rs) : r.correctness ≤ hashTotal rs r.hash := by
  induction rs with
  | nil => exact absurd hr (List.not_mem_nil r)
  | cons x xs ih =>
    have h0 : 0 ≤ hashTotal xs r.hash := by
      apply List.sum_nonneg
      intro y hy
      obtain ⟨e, he, rfl⟩ := List.mem_map.mp hy
      exact hnn e (List.mem_cons_of_mem _ (List.mem_of_mem_filter he))
    rw [hashTotal_cons]
    rcases List.mem_cons.mp hr with h | h
    · rw [← h, if_pos rfl]
      linarith
    · have h1 := ih (fun y hy => hnn y (List.mem_cons_of_mem _ hy)) h
      have h2 := hnn x (List.mem_cons_self _ _)
      split_ifs <;> linarith

theorem payoutSum_nonneg (best : ℚ) (hash : Int) (n : Nat) (rs : List Result)
    (h : ∀ r ∈ rs, r.hash = hash → r.correctness ≤ best) : 0 ≤ payoutSum best hash n rs := by
  apply List.sum_nonneg
  intro y hy
  obtain ⟨r, hr, rfl⟩ := List.mem_map.mp hy
  have h1 := List.mem_filter.mp hr
  have h2 : r.hash = hash := (of_decide_eq_true h1.2).1
  have h3 := h r h1.1 h2
  linarith

theorem stored_increment_nonneg (self : Nat) (j : Job) (res : AssumedResult) (hash : Int)
    (hacc : j.Accounted) (hnn : j.StoredNonneg) (hc : 0 ≤ res.correctness) :
    ∀ r ∈ (Job.stored self j res hash).m_results, r.hash = hash →
      r.correctness ≤ j.resultCor res hash := by
  intro r hr hh
  have h1 : j.resultCor res hash = hashTotal (Job.stored self j res hash).m_results hash := by
    rw [← stored_accounted self j res hash hacc hash]
    simp only [Job.stored, Job.released]
    rw [perHash_mapAssign, if_pos rfl]
  have h2 : ∀ x ∈ (Job.stored self j res hash).m_results, 0 ≤ x.correctness := by
    intro x hx
    rcases (mem_multimapInsert _ _ _).mp hx with h | h
    · rw [h]; exact hc
    · exact hnn x h
  rw [h1]
  have h3 := mem_le_hashTotal _ h2 r hr
  rw [hh] at h3
  exact h3

theorem workDone_trust_mono (self : Nat) (j : Job) (nodes : Nat → Node) (res : AssumedResult)
    (hash : Int) (hacc : j.Accounted) (hnn : j.StoredNonneg) (hc : 0 ≤ res.correctness)
    (n : Nat) : (nodes n).m_trust ≤ ((Job.workDone self j nodes res hash).nodes n).m_trust := by
  rcases workDone_cases self j nodes res hash with
    ⟨_, h⟩ | ⟨_, _, h⟩ | ⟨_, _, _, _, h⟩ | ⟨_, _, _, h⟩
  · rw [h]
  · rw [h]
  · rw [h]
    simp only []
    rw [payout_trust]
    have := payoutSum_nonneg (j.resultCor res hash) hash n _
      (stored_increment_nonneg self j res hash hacc hnn hc)
    linarith
  · rw [h]

theorem step_trust_mono (self : Nat) (s : JobRun) (c : Call) (hacc : s.job.Accounted)
    (hnn : s.job.StoredNonneg) (hc : 0 ≤ c.correctness) (n : Nat) :
    (s.nodes n).m_trust ≤ ((s.step self c).nodes n).m_trust := by
  obtain ⟨job, nodes, halted⟩ := s
  cases halted with
  | some _ => exact le_refl _
  | none =>
    cases c with
    | nodeStarted res => exact le_refl _
    | workDone res hash => exact workDone_trust_mono self job nodes res hash hacc hnn hc n
    | activate => exact le_refl _

theorem run_trust_mono (self : Nat) (calls : List Call) (n : Nat) :
    ∀ s : JobRun, s.job.Accounted → s.job.StoredNonneg → (∀ c ∈ calls, 0 ≤ c.correctness) →
      (s.nodes n).m_trust ≤ ((s.run self calls).nodes n).m_trust := by
  induction calls with
  | nil => intro s _ _ _; exact le_refl _
  | cons c cs ih =>
    intro s hacc hnn hc
    have h0 := hc c (List.mem_cons_self _ _)
    exact le_trans (step_trust_mono self s c hacc hnn h0 n)
      (ih (s.step self c) (step_accounted self s c hacc) (step_storedNonneg self s c hnn h0)
        (fun x hx => hc x (List.mem_cons_of_mem _ hx)))

theorem startJob_trust (node : Nat) (p : Project) (job : Nat) (corr : ℚ) (currentTick : Nat)
    (n : Nat) :
    ((Node.startJob node p job corr currentTick).nodeHeap n).m_trust = (p.nodeHeap n).m_trust := by
  unfold Node.startJob
  simp only []
  by_cases h : n = node
  · rw [h, Function.update_same]
  · rw [Function.update_noteq h]

theorem findJobForNode_nodeHeap (p : Project) (node : Nat) (rnd : ℚ) (searchAddr : Nat) :
    (p.findJobForNode node rnd searchAddr).1.nodeHeap = p.nodeHeap := by
  unfold Project.findJobForNode
  cases p.getTrust node with
  | halted h => rfl
  | returned t =>
    simp only []
    cases p.searchFrom node (clamp (rnd - t) 0 1) searchAddr with
    | some x => rfl
    | none =>
      simp only []
      cases p.searchFrom node 1 searchAddr with
      | some x => rfl
      | none => rfl

theorem activateJob_nodeHeap (p : Project) : p.activateJob.1.nodeHeap = p.nodeHeap := by
  unfold Project.activateJob
  cases p.m_jobs.getLast? with
  | none => rfl
  | some obj =>
    simp only []
    split_ifs <;> rfl

theorem updateTrust_nodeHeap (p : Project) (node : Nat) :
    (p.updateTrust node).nodeHeap = p.nodeHeap := by
  unfold Project.updateTrust
  split_ifs <;> rfl

/-- C7. Trust never decreases: on a job reached from `Job::Job()` by calls with
non-negative correctness weights, a `workDone` call with a non-negative weight that
completes the job pays, for every stored result with the submitted hash, an
increment `m_bestCorrectness - correctness ≥ 0`, and every node's trust after the
call, and after the whole sequence, is at least its trust before; `nodeStarted`,
`startJob`, `findJobForNode`, `activateJob` and `updateTrust` leave every node's
trust unchanged. -/
theorem trust_never_decreases (self : Nat) (active : Bool) (nodes : Nat → Node)
    (calls : List Call) (res : AssumedResult) (hash : Int)
    (hnonneg : ∀ c ∈ calls, 0 ≤ c.correctness) (hres : 0 ≤ res.correctness) :
    (((JobRun.fresh active nodes).run self calls).job.m_bestCorrectness < 1 →
        (Job.workDone self ((JobRun.fresh active nodes).run self calls).job
          ((JobRun.fresh active nodes).run self calls).nodes res hash).job.m_bestCorrectness ≥ 1 →
        ∀ r ∈ (Job.workDone self ((JobRun.fresh active nodes).run self calls).job
            ((JobRun.fresh active nodes).run self calls).nodes res hash).job.m_results,
          r.hash = hash →
          0 ≤ (Job.workDone self ((JobRun.fresh active nodes).run self calls).job
              ((JobRun.fresh active nodes).run self calls).nodes res hash).job.m_bestCorrectness
            - r.correctness)
      ∧ (∀ n, (((JobRun.fresh active nodes).run self calls).nodes n).m_trust
          ≤ ((Job.workDone self ((JobRun.fresh active nodes).run self calls).job
              ((JobRun.fresh active nodes).run self calls).nodes res hash).nodes n).m_trust)
      ∧ (∀ n, (nodes n).m_trust ≤ (((JobRun.fresh active nodes).run self calls).nodes n).m_trust)
      ∧ (∀ (s : JobRun) (r : AssumedResult), (s.step self (.nodeStarted r)).nodes = s.nodes)
      ∧ (∀ (p : Project) (node job : Nat) (corr : ℚ) (currentTick n : Nat),
          ((Node.startJob node p job corr currentTick).nodeHeap n).m_trust
            = (p.nodeHeap n).m_trust)
      ∧ (∀ (p : Project) (node : Nat) (rnd : ℚ) (searchAddr : Nat),
          (p.findJobForNode node rnd searchAddr).1.nodeHeap = p.nodeHeap)
      ∧ (∀ p : Project, p.activateJob.1.nodeHeap = p.nodeHeap)
      ∧ (∀ (p : Project) (node : Nat), (p.updateTrust node).nodeHeap = p.nodeHeap) := by
  have hacc := run_accounted self calls _ (fresh_accounted active nodes)
  have hnn := run_storedNonneg self calls (JobRun.fresh active nodes)
    (fun r hr => absurd hr (List.not_mem_nil r)) hnonneg
  refine ⟨?_, fun n => workDone_trust_mono self _ _ res hash hacc hnn hres n,
    fun n => run_trust_mono self calls n (JobRun.fresh active nodes)
      (fresh_accounted active nodes) (fun r hr => absurd hr (List.not_mem_nil r)) hnonneg,
    ?_, fun p node job corr t n => startJob_trust node p job corr t n, findJobForNode_nodeHeap, activateJob_nodeHeap, updateTrust_nodeHeap⟩
  · intro hlt hge r hr hh
    rcases workDone_cases self ((JobRun.fresh active nodes).run self calls).job
        ((JobRun.fresh active nodes).run self calls).nodes res hash with
      ⟨_, h⟩ | ⟨_, h2, _⟩ | ⟨_, _, _, hb, h⟩ | ⟨_, _, h3, h⟩
    · rw [h] at hge
      exact absurd hge (not_le.mpr hlt)
    · exact absurd h2 (not_le.mpr hlt)
    · rw [h] at hr ⊢
      simp only [hb] at hr ⊢
      have := stored_increment_nonneg self _ res hash hacc hnn hres r hr hh
      linarith
    · rw [h] at hge
      exact absurd hge (not_le.mpr h3)
  · intro s r
    obtain ⟨job, nodes, halted⟩ := s
    cases halted <;> rfl

/-- Witness of C7 (`trust_never_decreases`): after `oneResultCalls` node 2 completes the
job; the trust of node 1 does not go down. -/
theorem trust_never_decreases_witness :
    (∀ c ∈ oneResultCalls, 0 ≤ c.correctness) ∧ 0 ≤ secondReservation.correctness
      ∧ (((JobRun.fresh true (fun _ => Node.new)).run 7 oneResultCalls).nodes 1).m_trust
          ≤ ((Job.workDone 7 ((JobRun.fresh true (fun _ => Node.new)).run 7 oneResultCalls).job
              ((JobRun.fresh true (fun _ => Node.new)).run 7 oneResultCalls).nodes
              secondReservation 0).nodes 1).m_trust :=
  have h : ∀ c ∈ oneResultCalls, 0 ≤ c.correctness := by
    intro c hc
    simp only [oneResultCalls, List.mem_cons, List.mem_singleton, List.not_mem_nil, or_false] at hc
    rcases hc with rfl | rfl | rfl <;>
      norm_num [Call.correctness, firstReservation, secondReservation]
  have h2 : 0 ≤ secondReservation.correctness := by norm_num [secondReservation]
  ⟨h, h2, (trust_never_decreases 7 true (fun _ => Node.new) oneResultCalls secondReservation 0
    h h2).2.1 1⟩

/-! ## Node::endJob and honest nodes -/

theorem payout_falseRatio (best : ℚ) (hash : Int) (n : Nat) (rs : List Result) :
    ∀ nodes : Nat → Node,
      (payout best hash nodes rs n).m_falseRatio = (nodes n).m_falseRatio := by
  induction rs with
  | nil => intro nodes; rfl
  | cons r rs ih =>
    intro nodes
    rw [payout, ih]
    split_ifs
    · unfold addTrust
      by_cases h : n = r.node
      · rw [h, Function.update_same]
      · rw [Function.update_noteq h]
    · rfl

theorem workDone_falseRatio (self : Nat) (j : Job) (nodes : Nat → Node) (res : AssumedResult)
    (hash : Int) (n : Nat) :
    ((Job.workDone self j nodes res hash).nodes n).m_falseRatio = (nodes n).m_falseRatio := by
  rcases workDone_cases self j nodes res hash with
    ⟨_, h⟩ | ⟨_, _, h⟩ | ⟨_, _, _, _, h⟩ | ⟨_, _, _, h⟩
  · rw [h]
  · rw [h]
  · rw [h]; exact payout_falseRatio _ _ _ _ _
  · rw [h]

theorem workDone_zero_not_exited (self : Nat) (j : Job) (nodes : Nat → Node)
    (res : AssumedResult) : (Job.workDone self j nodes res 0).ret ≠ .halted .exited := by
  rcases workDone_cases self j nodes res 0 with
    ⟨_, h⟩ | ⟨_, _, h⟩ | ⟨_, _, _, _, h⟩ | ⟨_, _, _, h⟩ <;>
  · rw [h]; simp

theorem workDone_zero_wonByZero (self : Nat) (j : Job) (nodes : Nat → Node)
    (res : AssumedResult) (hw : j.WonByZero) : (Job.workDone self j nodes res 0).job.WonByZero := by
  rcases workDone_cases self j nodes res 0 with
    ⟨_, h⟩ | ⟨_, _, h⟩ | ⟨_, _, _, hb, h⟩ | ⟨_, _, h3, h⟩
  · rw [h]; exact hw
  · rw [h]; exact hw
  · rw [h]
    intro _
    simp only [hb]
    exact mapFind_mapAssign_self _ _ _
  · rw [h]
    intro h4
    exact absurd h4 (not_le.mpr h3)

theorem workDone_zero_newResultsZero (self : Nat) (j : Job) (nodes : Nat → Node)
    (res : AssumedResult) (old : List Result) (hq : j.NewResultsZero old) :
    (Job.workDone self j nodes res 0).job.NewResultsZero old := by
  have hs : (Job.stored self j res 0).NewResultsZero old := by
    intro r hr
    rcases (mem_multimapInsert _ _ _).mp hr with h | h
    · right; rw [h]; rfl
    · exact hq r h
  rcases workDone_cases self j nodes res 0 with
    ⟨_, h⟩ | ⟨_, _, h⟩ | ⟨_, _, _, _, h⟩ | ⟨_, _, _, h⟩
  · rw [h]; exact hq
  · rw [h]; exact hq
  · rw [h]; exact hs
  · rw [h]; exact hs

theorem endJobHash_honest (n : Node) (randf : ℚ) (rand : Int) (h : n.m_falseRatio = 0) :
    n.endJobHash randf rand = 0 := by
  unfold Node.endJobHash
  rw [h, if_neg (lt_irrefl 0)]

theorem endJob_none (self : Nat) (p : Project) (randf : ℚ) (rand : Int)
    (h : (p.nodeHeap self).m_currentWork = none) :
    Node.endJob self p randf rand = (p, .halted .undefined) := by
  unfold Node.endJob
  simp only [h]

theorem endJob_some (self : Nat) (p : Project) (randf : ℚ) (rand : Int) (w : AssumedResult)
    (h : (p.nodeHeap self).m_currentWork = some w) :
    (Node.endJob self p randf rand).1.jobHeap
        = Function.update p.jobHeap w.job
            (Job.workDone w.job (p.jobHeap w.job) p.nodeHeap w
              ((p.nodeHeap self).endJobHash randf rand)).job
      ∧ (∀ n, ((Node.endJob self p randf rand).1.nodeHeap n).m_falseRatio
          = ((Job.workDone w.job (p.jobHeap w.job) p.nodeHeap w
              ((p.nodeHeap self).endJobHash randf rand)).nodes n).m_falseRatio)
      ∧ (∀ n, ((Node.endJob self p randf rand).1.nodeHeap n).m_trust
          = ((Job.workDone w.job (p.jobHeap w.job) p.nodeHeap w
              ((p.nodeHeap self).endJobHash randf rand)).nodes n).m_trust)
      ∧ (∀ hl, (Node.endJob self p randf rand).2 = .halted hl ↔
          (Job.workDone w.job (p.jobHeap w.job) p.nodeHeap w
            ((p.nodeHeap self).endJobHash randf rand)).ret = .halted hl) := by
  unfold Node.endJob
  simp only [h]
  cases hret : (Job.workDone w.job (p.jobHeap w.job) p.nodeHeap w
      ((p.nodeHeap self).endJobHash randf rand)).ret with
  | halted hl => simp
  | returned r =>
    cases r with
    | none =>
      simp only []
      refine ⟨trivial, ?_, ?_, by simp⟩ <;>
      · intro n
        by_cases hn : n = self
        · rw [hn, Function.update_same]
        · rw [Function.update_noteq hn]
    | some res =>
      simp only []
      refine ⟨trivial, ?_, ?_, by simp⟩ <;>
      · intro n
        by_cases hn : n = self
        · rw [hn, Function.update_same]
        · rw [Function.update_noteq hn]

theorem findJobForNode_jobHeap (p : Project) (node : Nat) (rnd : ℚ) (searchAddr : Nat) :
    (p.findJobForNode node rnd searchAddr).1.jobHeap = p.jobHeap := by
  unfold Project.findJobForNode
  cases p.getTrust node with
  | halted h => rfl
  | returned t =>
    simp only []
    cases p.searchFrom node (clamp (rnd - t) 0 1) searchAddr with
    | some x => rfl
    | none =>
      simp only []
      cases p.searchFrom node 1 searchAddr with
      | some x => rfl
      | none => rfl

theorem getTrust_halted (p : Project) (node : Nat) (h : Halt)
    (hh : p.getTrust node = .halted h) : h = .assertFailed := by
  unfold Project.getTrust at hh
  simp only [] at hh
  split_ifs at hh
  exact (Ret.halted.inj hh).symm

theorem findJobForNode_not_exited (p : Project) (node : Nat) (rnd : ℚ) (searchAddr : Nat) :
    (p.findJobForNode node rnd searchAddr).2 ≠ .halted .exited := by
  unfold Project.findJobForNode
  cases hg : p.getTrust node with
  | halted h =>
    rw [getTrust_halted p node h hg]
    simp
  | returned t =>
    simp only []
    cases p.searchFrom node (clamp (rnd - t) 0 1) searchAddr with
    | some x => simp
    | none =>
      simp only []
      cases p.searchFrom node 1 searchAddr with
      | some x => simp
      | none => simp

theorem activateJob_jobHeap (p : Project) :
    p.activateJob.1.jobHeap = p.jobHeap
      ∨ ∃ obj, p.activateJob.1.jobHeap
          = Function.update p.jobHeap obj { p.jobHeap obj with m_active := true } := by
  unfold Project.activateJob
  cases p.m_jobs.getLast? with
  | none => left; rfl
  | some obj =>
    simp only []
    split_ifs
    · left; rfl
    · right; exact ⟨obj, rfl⟩

theorem activateJob_not_exited (p : Project) : p.activateJob.2 ≠ .halted .exited := by
  unfold Project.activateJob
  cases p.m_jobs.getLast? with
  | none => simp
  | some obj =>
    simp only []
    split_ifs <;> simp

theorem after_halted {α : Type} (o : Project × Ret α) (h : o.2 ≠ .halted .exited) :
    (ProjectRun.after o).halted ≠ some .exited := by
  unfold ProjectRun.after
  cases h2 : o.2 with
  | returned a => simp
  | halted hl =>
    simp only [ne_eq, Option.some.injEq]
    intro h3
    rw [h3] at h2
    exact h h2

theorem update_stable {J : Job → Prop} (heap : Nat → Job) (a : Nat) (v : Job) (j : Nat)
    (hj : J (heap j)) (hv : J (heap a) → J v) : J (Function.update heap a v j) := by
  by_cases h : j = a
  · rw [h, Function.update_same]
    rw [h] at hj
    exact hv hj
  · rw [Function.update_noteq h]
    exact hj

theorem step_honest (J : Job → Prop) (hJ : StableUnderZero J) (s : ProjectRun) (op : Op)
    (j : Nat) (hh : s.project.Honest) (hj : J (s.project.jobHeap j))
    (hx : s.halted ≠ some .exited) :
    (s.step op).project.Honest ∧ J ((s.step op).project.jobHeap j)
      ∧ (s.step op).halted ≠ some .exited := by
  obtain ⟨hJ1, hJ2, hJ3⟩ := hJ
  obtain ⟨p, halted⟩ := s
  cases halted with
  | some _ => exact ⟨hh, hj, hx⟩
  | none =>
    simp only [] at hh hj
    cases op with
    | startJob node job corr currentTick =>
      refine ⟨?_, ?_, hx⟩
      · intro n
        simp only [ProjectRun.step, Node.startJob]
        by_cases hn : n = node
        · rw [hn, Function.update_same]; exact hh node
        · rw [Function.update_noteq hn]; exact hh n
      · simp only [ProjectRun.step, Node.startJob]
        exact update_stable _ _ _ _ hj (hJ1 _ _)
    | endJob node randf rand =>
      simp only [ProjectRun.step]
      cases hw : (p.nodeHeap node).m_currentWork with
      | none =>
        rw [endJob_none node p randf rand hw]
        exact ⟨hh, hj, by simp [ProjectRun.after]⟩
      | some w =>
        obtain ⟨h1, h2, _, h4⟩ := endJob_some node p randf rand w hw
        rw [endJobHash_honest _ randf rand (hh node)] at h1 h2 h4
        refine ⟨?_, ?_, ?_⟩
        · intro n
          simp only [ProjectRun.after]
          rw [h2 n, workDone_falseRatio]
          exact hh n
        · simp only [ProjectRun.after]
          rw [h1]
          exact update_stable _ _ _ _ hj (hJ3 _ _ _ _)
        · apply after_halted
          intro h5
          exact workDone_zero_not_exited _ _ _ _ ((h4 _).mp h5)
    | findJobForNode node rnd searchAddr =>
      simp only [ProjectRun.step]
      refine ⟨?_, ?_, after_halted _ (findJobForNode_not_exited p node rnd searchAddr)⟩
      · intro n
        simp only [ProjectRun.after]
        rw [findJobForNode_nodeHeap]
        exact hh n
      · simp only [ProjectRun.after]
        rw [findJobForNode_jobHeap]
        exact hj
    | activateJob =>
      simp only [ProjectRun.step]
      refine ⟨?_, ?_, after_halted _ (activateJob_not_exited p)⟩
      · intro n
        simp only [ProjectRun.after]
        rw [activateJob_nodeHeap]
        exact hh n
      · simp only [ProjectRun.after]
        rcases activateJob_jobHeap p with h | ⟨obj, h⟩
        · rw [h]; exact hj
        · rw [h]; exact update_stable _ _ _ _ hj (hJ2 _)
    | updateTrust node =>
      simp only [ProjectRun.step]
      refine ⟨?_, ?_, hx⟩
      · intro n
        rw [updateTrust_nodeHeap]
        exact hh n
      · unfold Project.updateTrust
        split_ifs <;> exact hj
    | addNode node =>
      simp only [ProjectRun.step, Project.addNode]
      refine ⟨?_, ?_, hx⟩
      · intro n
        rw [updateTrust_nodeHeap]
        exact hh n
      · unfold Project.updateTrust
        split_ifs <;> exact hj
    | jobsErase job =>
      simp only [ProjectRun.step, Project.jobsErase]
      split_ifs
      · exact ⟨hh, hj, by simp [ProjectRun.after]⟩
      · exact ⟨hh, hj, by simp [ProjectRun.after]⟩
    | jobsInsert job => exact ⟨hh, hj, hx⟩
    | delay node currentTick =>
      refine ⟨?_, hj, hx⟩
      intro n
      simp only [ProjectRun.step, Project.delay]
      by_cases hn : n = node
      · rw [hn, Function.update_same]; exact hh node
      · rw [Function.update_noteq hn]; exact hh n

theorem run_honest (J : Job → Prop) (hJ : StableUnderZero J) (j : Nat) (ops : List Op) :
    ∀ s : ProjectRun, s.project.Honest → J (s.project.jobHeap j) → s.halted ≠ some .exited →
      (s.run ops).project.Honest ∧ J ((s.run ops).project.jobHeap j)
        ∧ (s.run ops).halted ≠ some .exited := by
  induction ops with
  | nil => intro s h1 h2 h3; exact ⟨h1, h2, h3⟩
  | cons op ops ih =>
    intro s h1 h2 h3
    obtain ⟨h4, h5, h6⟩ := step_honest J hJ s op j h1 h2 h3
    exact ih (s.step op) h4 h5 h6

theorem wonByZero_stable : StableUnderZero Job.WonByZero :=
  ⟨fun _ _ h => h, fun _ h => h, fun self job nodes res h =>
    workDone_zero_wonByZero self job nodes res h⟩

theorem newResultsZero_stable (old : List Result) : StableUnderZero (Job.NewResultsZero old) :=
  ⟨fun _ _ h => h, fun _ h => h, fun self job nodes res h =>
    workDone_zero_newResultsZero self job nodes res old h⟩

/-- C8. Honest population: a node with `m_falseRatio = 0` submits hash 0 from
`endJob` whatever `randf()` and `rand()` return; and in every sequence of
operations on a project all of whose nodes have `m_falseRatio = 0`, the process
never ends in the `exit(1)` of `workDone`, every job that goes from
`m_bestCorrectness < 1` to `m_bestCorrectness ≥ 1` has its winning total under
hash 0, and every result stored on the way has hash 0. -/
theorem honest_population (p : Project) (ops : List Op) (hhonest : p.Honest) :
    (∀ (q : Project) (node : Nat) (randf : ℚ) (rand : Int),
        (q.nodeHeap node).m_falseRatio = 0 →
        (q.nodeHeap node).endJobHash randf rand = 0
          ∧ ∀ w, (q.nodeHeap node).m_currentWork = some w →
              (Node.endJob node q randf rand).1.jobHeap w.job
                = (Job.workDone w.job (q.jobHeap w.job) q.nodeHeap w 0).job)
      ∧ (ProjectRun.run { project := p, halted := none } ops).halted ≠ some .exited
      ∧ (∀ j, (p.jobHeap j).m_bestCorrectness < 1 →
          ((ProjectRun.run { project := p, halted := none } ops).project.jobHeap
              j).m_bestCorrectness ≥ 1 →
          mapFind 0 ((ProjectRun.run { project := p, halted := none } ops).project.jobHeap
              j).m_correctnessPerHash
            = some ((ProjectRun.run { project := p, halted := none } ops).project.jobHeap
                j).m_bestCorrectness)
      ∧ (∀ j, ∀ r ∈ ((ProjectRun.run { project := p, halted := none } ops).project.jobHeap
              j).m_results,
          r ∈ (p.jobHeap j).m_results ∨ r.hash = 0) := by
  refine ⟨?_, ?_, ?_, ?_⟩
  · intro q node randf rand h0
    refine ⟨endJobHash_honest _ randf rand h0, fun w hw => ?_⟩
    rw [(endJob_some node q randf rand w hw).1, endJobHash_honest _ randf rand h0,
      Function.update_same]
  · exact (run_honest (fun _ => True)
      ⟨fun _ _ _ => trivial, fun _ _ => trivial, fun _ _ _ _ _ => trivial⟩ 0 ops
      { project := p, halted := none } hhonest trivial (by simp)).2.2
  · intro j hlt
    exact (run_honest Job.WonByZero wonByZero_stable j ops
      { project := p, halted := none } hhonest
      (fun h => absurd h (not_le.mpr hlt)) (by simp)).2.1
  · intro j
    exact (run_honest (Job.NewResultsZero (p.jobHeap j).m_results)
      (newResultsZero_stable _) j ops { project := p, halted := none } hhonest
      (fun r hr => Or.inl hr) (by simp)).2.1

/-- Witness of C8 (`honest_population`): on `smallProject`, whose nodes are honest,
`startAndEnd` does not end in `exit(1)`. -/
theorem honest_population_witness :
    smallProject.Honest
      ∧ (ProjectRun.run { project := smallProject, halted := none } startAndEnd).halted
          ≠ some .exited :=
  have h : smallProject.Honest := fun _ => rfl
  ⟨h, (honest_population smallProject startAndEnd h).2.1⟩

/-! ## No single submission completes a job -/

theorem hashCount_multimapInsert (r : Result) (rs : List Result) :
    hashCount (multimapInsert r rs) r.hash = hashCount rs r.hash + 1 := by
  have h := ((multimapInsert_perm r rs).filter (fun x => decide (x.hash = r.hash))).length_eq
  unfold hashCount
  rw [h, List.filter_cons]
  simp

theorem hashCount_pos_of_hashTotal_pos (rs : List Result) (h : Int)
    (hp : 0 < hashTotal rs h) : 1 ≤ hashCount rs h := by
  unfold hashCount
  unfold hashTotal at hp
  cases hf : rs.filter (fun r => decide (r.hash = h)) with
  | nil => rw [hf] at hp; simp at hp
  | cons x xs => simp

theorem workDone_fresh_alone (self : Nat) (j : Job) (nodes : Nat → Node) (res : AssumedResult)
    (hash : Int) (ha : j.m_assumedCorrectness = 0) (hb : j.m_bestCorrectness = 0)
    (hm : j.m_correctnessPerHash = []) (hc : res.correctness < 1) :
    (Job.workDone self (j.nodeStarted res) nodes res hash).job.m_bestCorrectness < 1
      ∧ (Job.workDone self (j.nodeStarted res) nodes res hash).nodes = nodes
      ∧ (Job.workDone self (j.nodeStarted res) nodes res hash).ret
          = .returned (some (Job.newResult self res hash)) := by
  have h0 : (j.nodeStarted res).m_bestCorrectness = 0 := hb
  have h1 : (j.nodeStarted res).resultCor res hash = res.correctness := by
    simp [Job.resultCor, Job.nodeStarted, hm, mapFind]
  rcases workDone_cases self (j.nodeStarted res) nodes res hash with
    ⟨h2, _⟩ | ⟨_, h2, _⟩ | ⟨_, _, h2, _⟩ | ⟨_, _, h3, h⟩
  · exfalso
    apply h2
    simp only [Job.nodeStarted, ha]
    norm_num
  · rw [h0] at h2
    exact absurd h2 (by norm_num)
  · rw [h1] at h2
    exact absurd h2 (not_le.mpr hc)
  · rw [h]
    exact ⟨h3, rfl, rfl⟩

/-- C9. No single submission completes a job: on a job reached from `Job::Job()` by
any calls, a `workDone` call with a weight `< 1` that finds `m_bestCorrectness < 1`
and leaves `m_bestCorrectness ≥ 1` leaves at least two stored results with the
submitted hash, and a `nodeStarted` call does not change `m_bestCorrectness`. In
particular a node, whatever its `m_falseRatio`, that starts a job nobody has worked
on with a weight `< 1` and ends it leaves `m_bestCorrectness < 1` and every trust
as it was, and `endJob` returns. -/
theorem no_single_completion (self : Nat) (active : Bool) (nodes : Nat → Node)
    (calls : List Call) (res : AssumedResult) (hash : Int) (hres : res.correctness < 1) :
    (((JobRun.fresh active nodes).run self calls).job.m_bestCorrectness < 1 →
        (Job.workDone self ((JobRun.fresh active nodes).run self calls).job
          ((JobRun.fresh active nodes).run self calls).nodes res hash).job.m_bestCorrectness ≥ 1 →
        2 ≤ hashCount (Job.workDone self ((JobRun.fresh active nodes).run self calls).job
          ((JobRun.fresh active nodes).run self calls).nodes res hash).job.m_results hash)
      ∧ (∀ (s : JobRun) (r : AssumedResult),
          (s.step self (.nodeStarted r)).job.m_bestCorrectness = s.job.m_bestCorrectness)
      ∧ (∀ (p : Project) (node job : Nat) (currentTick : Nat) (randf : ℚ) (rand : Int),
          (p.jobHeap job).m_assumedCorrectness = 0 → (p.jobHeap job).m_bestCorrectness = 0 →
          (p.jobHeap job).m_correctnessPerHash = [] →
          ((Node.endJob node (Node.startJob node p job res.correctness currentTick)
              randf rand).1.jobHeap job).m_bestCorrectness < 1
            ∧ (∀ n, ((Node.endJob node (Node.startJob node p job res.correctness currentTick)
                randf rand).1.nodeHeap n).m_trust = (p.nodeHeap n).m_trust)
            ∧ (Node.endJob node (Node.startJob node p job res.correctness currentTick)
                randf rand).2 = .returned ()) := by
  refine ⟨?_, ?_, ?_⟩
  · intro hlt hge
    have hacc := run_accounted self calls _ (fresh_accounted active nodes)
    rcases workDone_cases self ((JobRun.fresh active nodes).run self calls).job
        ((JobRun.fresh active nodes).run self calls).nodes res hash with
      ⟨_, h⟩ | ⟨_, h2, _⟩ | ⟨_, _, h4, _, h⟩ | ⟨_, _, h3, h⟩
    · rw [h] at hge
      exact absurd hge (not_le.mpr hlt)
    · exact absurd h2 (not_le.mpr hlt)
    · rw [h]
      simp only [Job.stored, Job.released]
      have h5 := hashCount_multimapInsert (Job.newResult self res hash)
        ((JobRun.fresh active nodes).run self calls).job.m_results
      simp only [Job.newResult] at h5 ⊢
      rw [h5]
      rw [resultCor_eq, hacc hash] at h4
      have h6 := hashCount_pos_of_hashTotal_pos
        ((JobRun.fresh active nodes).run self calls).job.m_results hash (by linarith)
      omega
    · rw [h] at hge
      exact absurd hge (not_le.mpr h3)
  · intro s r
    obtain ⟨job, nodes, halted⟩ := s
    cases halted <;> rfl
  · intro p node job currentTick randf rand ha hb hm
    have hw : ((Node.startJob node p job res.correctness currentTick).nodeHeap node).m_currentWork
        = some { job := job, node := node, correctness := res.correctness } := by
      simp [Node.startJob]
    obtain ⟨h1, _, h3, h4⟩ := endJob_some node _ randf rand _ hw
    have hj : (Node.startJob node p job res.correctness currentTick).jobHeap job
        = (p.jobHeap job).nodeStarted
            { job := job, node := node, correctness := res.correctness } := by
      simp [Node.startJob]
    simp only [] at h1 h3 h4
    rw [hj] at h1 h3 h4
    obtain ⟨h5, h6, h7⟩ := workDone_fresh_alone job (p.jobHeap job)
      (Node.startJob node p job res.correctness currentTick).nodeHeap
      { job := job, node := node, correctness := res.correctness }
      (((Node.startJob node p job res.correctness currentTick).nodeHeap node).endJobHash
        randf rand) ha hb hm hres
    refine ⟨?_, ?_, ?_⟩
    · rw [h1, Function.update_same]
      exact h5
    · intro n
      rw [h3 n, h6]
      exact startJob_trust node p job res.correctness currentTick n
    · cases hr : (Node.endJob node (Node.startJob node p job res.correctness currentTick)
          randf rand).2 with
      | returned u => rfl
      | halted hl =>
        have h8 := (h4 hl).mp hr
        rw [h7] at h8
        exact Ret.noConfusion h8

/-- Witness of C9 (`no_single_completion`): node 1 of `liarProject`, which corrupts every
hash, works alone on the job at address 7 with weight 1/2: the job stays open and
`endJob` returns. -/
theorem no_single_completion_witness :
    secondReservation.correctness < 1
      ∧ ((Node.endJob 1 (Node.startJob 1 liarProject 7 secondReservation.correctness 0)
            (1 / 4) 5).1.jobHeap 7).m_bestCorrectness < 1
      ∧ (Node.endJob 1 (Node.startJob 1 liarProject 7 secondReservation.correctness 0)
            (1 / 4) 5).2 = .returned () :=
  have h : secondReservation.correctness < 1 := by norm_num [secondReservation]
  have h2 := (no_single_completion 7 true (fun _ => Node.new) [] secondReservation 5 h).2.2
    liarProject 1 7 0 (1 / 4) 5 rfl rfl rfl
  ⟨h, h2.1, h2.2.2⟩

/-! ## Project::findJobForNode -/

theorem scanJobs_some (p : Project) (node : Nat) (xs : List Nat) :
    ∀ (i k obj : Nat), p.scanJobs node i xs = some (k, obj) →
      obj ∈ xs ∧ (p.jobHeap obj).m_active = true ∧ (p.jobHeap obj).getCorrectness < 1
        ∧ (p.nodeHeap node).hasSubmitted obj = false := by
  induction xs with
  | nil =>
    intro i k obj h
    exact Option.noConfusion h
  | cons x xs ih =>
    intro i k obj h
    unfold Project.scanJobs at h
    split_ifs at h with h1 h2 h3
    · obtain ⟨h4, h5, h6, h7⟩ := ih (i + 1) k obj h
      exact ⟨List.mem_cons_of_mem _ h4, h5, h6, h7⟩
    · obtain ⟨h4, h5, h6, h7⟩ := ih (i + 1) k obj h
      exact ⟨List.mem_cons_of_mem _ h4, h5, h6, h7⟩
    · have h4 : x = obj := (Prod.mk.inj (Option.some.inj h)).2
      rw [← h4]
      refine ⟨List.mem_cons_self _ _, ?_, lt_of_not_ge h2, ?_⟩
      · simpa using h1
      · simpa using h3

theorem searchFrom_some (p : Project) (node : Nat) (target : ℚ) (searchAddr k obj : Nat)
    (h : p.searchFrom node target searchAddr = some (k, obj)) :
    obj ∈ p.m_jobs ∧ (p.jobHeap obj).m_active = true ∧ (p.jobHeap obj).getCorrectness < 1
      ∧ (p.nodeHeap node).hasSubmitted obj = false := by
  unfold Project.searchFrom at h
  obtain ⟨h4, h5, h6, h7⟩ := scanJobs_some p node _ _ k obj h
  exact ⟨List.mem_of_mem_drop h4, h5, h6, h7⟩

/-- C10. A job that `findJobForNode` returns is in the job order, is active, has
`getCorrectness() < 1` and is not in the submitted set of the node, for every
project, node and random draw. -/
theorem findJobForNode_eligible (p : Project) (node : Nat) (rnd : ℚ) (searchAddr obj : Nat)
    (h : (p.findJobForNode node rnd searchAddr).2 = .returned (some obj)) :
    obj ∈ p.m_jobs ∧ (p.jobHeap obj).m_active = true ∧ (p.jobHeap obj).getCorrectness < 1
      ∧ (p.nodeHeap node).hasSubmitted obj = false := by
  unfold Project.findJobForNode at h
  cases hg : p.getTrust node with
  | halted hl =>
    rw [hg] at h
    exact Ret.noConfusion h
  | returned t =>
    rw [hg] at h
    simp only [] at h
    cases h1 : p.searchFrom node (clamp (rnd - t) 0 1) searchAddr with
    | some x =>
      rw [h1] at h
      obtain ⟨k, o⟩ := x
      simp only [Ret.returned.injEq, Option.some.injEq] at h
      rw [← h]
      exact searchFrom_some p node _ searchAddr k o h1
    | none =>
      rw [h1] at h
      simp only [] at h
      cases h2 : p.searchFrom node 1 searchAddr with
      | some x =>
        rw [h2] at h
        obtain ⟨k, o⟩ := x
        simp only [Ret.returned.injEq, Option.some.injEq] at h
        rw [← h]
        exact searchFrom_some p node _ searchAddr k o h2
      | none =>
        rw [h2] at h
        simp at h

/-- Witness of C10 (`findJobForNode_eligible`): on `smallProject`, node 1 is given the
job at address 7. -/
theorem findJobForNode_eligible_witness :
    (smallProject.findJobForNode 1 1 100).2 = .returned (some 7)
      ∧ 7 ∈ smallProject.m_jobs ∧ (smallProject.jobHeap 7).m_active = true
      ∧ (smallProject.jobHeap 7).getCorrectness < 1
      ∧ (smallProject.nodeHeap 1).hasSubmitted 7 = false :=
  have h : (smallProject.findJobForNode 1 1 100).2 = .returned (some 7) := by
    norm_num [Project.findJobForNode, Project.getTrust, Project.searchFrom, Project.scanJobs,
      lowerBound, JobCompare, searchJob, smallProject, Job.new, Job.getCorrectness, clamp,
      Node.hasSubmitted, Node.new]
  ⟨h, findJobForNode_eligible smallProject 1 1 100 7 h⟩

/-! ## The search of findJobForNode on a sorted job order -/

theorem findJobForNode_eq_findJobAt (p : Project) (node : Nat) (rnd : ℚ) (searchAddr : Nat)
    (t : ℚ) (h : p.getTrust node = .returned t) :
    p.findJobForNode node rnd searchAddr = p.findJobAt node (clamp (rnd - t) 0 1) searchAddr := by
  unfold Project.findJobForNode Project.findJobAt
  rw [h]

theorem drop_lowerBound (below : Nat → Bool) (xs : List Nat) :
    xs.drop (lowerBound below xs) = xs.dropWhile below := by
  unfold lowerBound
  induction xs with
  | nil => rfl
  | cons x xs ih =>
    by_cases h : below x = true
    · rw [List.takeWhile_cons_of_pos h, List.dropWhile_cons_of_pos h, List.length_cons,
        List.drop_succ_cons, ih]
    · rw [List.takeWhile_cons_of_neg h, List.dropWhile_cons_of_neg h]
      rfl

theorem take_lowerBound (below : Nat → Bool) (xs : List Nat) :
    xs.take (lowerBound below xs) = xs.takeWhile below := by
  unfold lowerBound
  induction xs with
  | nil => rfl
  | cons x xs ih =>
    by_cases h : below x = true
    · rw [List.takeWhile_cons_of_pos h, List.length_cons, List.take_succ_cons, ih]
    · rw [List.takeWhile_cons_of_neg h]
      rfl

theorem scanJobs_split (p : Project) (node : Nat) (ys : List Nat) :
    ∀ (i k obj : Nat), p.scanJobs node i ys = some (k, obj) →
      ∃ l1 l2, ys = l1 ++ obj :: l2 ∧ k = i + l1.length
        ∧ (∀ x ∈ l1, ¬ p.Eligible node x) ∧ p.Eligible node obj := by
  induction ys with
  | nil =>
    intro i k obj h
    exact Option.noConfusion h
  | cons x xs ih =>
    intro i k obj h
    unfold Project.scanJobs at h
    split_ifs at h with h1 h2 h3
    · obtain ⟨l1, l2, h4, h5, h6, h7⟩ := ih (i + 1) k obj h
      refine ⟨x :: l1, l2, by rw [h4]; rfl, by rw [h5, List.length_cons]; omega, ?_, h7⟩
      intro y hy
      rcases List.mem_cons.mp hy with hy | hy
      · rw [hy]
        exact fun he => absurd he.2.1 (not_lt.mpr h2)
      · exact h6 y hy
    · obtain ⟨l1, l2, h4, h5, h6, h7⟩ := ih (i + 1) k obj h
      refine ⟨x :: l1, l2, by rw [h4]; rfl, by rw [h5, List.length_cons]; omega, ?_, h7⟩
      intro y hy
      rcases List.mem_cons.mp hy with hy | hy
      · rw [hy]
        intro he
        rw [he.2.2] at h3
        exact Bool.noConfusion h3
      · exact h6 y hy
    · have h4 := Prod.mk.inj (Option.some.inj h)
      refine ⟨[], xs, by rw [← h4.2]; rfl, by rw [← h4.1]; rfl,
        fun y hy => absurd hy (List.not_mem_nil y), ?_⟩
      rw [← h4.2]
      exact ⟨by simpa using h1, lt_of_not_ge h2, by simpa using h3⟩

theorem searchJob_getCorrectness (t : ℚ) : (searchJob t).getCorrectness = t := by
  simp [searchJob, Job.new, Job.getCorrectness]

theorem jobCompare_active (a : Nat) (ja : Job) (b : Nat) (jb : Job)
    (h : JobCompare a ja b jb = true) (hb : jb.m_active = true) : ja.m_active = true := by
  unfold JobCompare at h
  split_ifs at h with h1 h2
  · rw [h2]; exact hb
  · exact h

theorem jobCompare_corr (a : Nat) (ja : Job) (b : Nat) (jb : Job)
    (h : JobCompare a ja b jb = true) (hab : ja.m_active = jb.m_active) :
    jb.getCorrectness < ja.getCorrectness
      ∨ (ja.getCorrectness = jb.getCorrectness ∧ a < b) := by
  unfold JobCompare at h
  rw [if_pos hab] at h
  split_ifs at h with h1
  simp only [] at h
  split_ifs at h with h3
  · right; exact ⟨h3, of_decide_eq_true h⟩
  · left; exact of_decide_eq_true h

theorem jobCompare_of_corr_gt (a : Nat) (ja : Job) (b : Nat) (jb : Job) (hne : a ≠ b)
    (hab : ja.m_active = jb.m_active) (h : jb.getCorrectness < ja.getCorrectness) :
    JobCompare a ja b jb = true := by
  unfold JobCompare
  rw [if_neg hne, if_pos hab]
  simp only []
  rw [if_neg (ne_of_gt h)]
  exact decide_eq_true h

theorem scanJobs_finds (p : Project) (node : Nat) (ys : List Nat) :
    ∀ i : Nat, ys.Pairwise (fun a b => p.comp a b = true) →
      (∃ e ∈ ys, p.Eligible node e) → ∃ k obj, p.scanJobs node i ys = some (k, obj) := by
  induction ys with
  | nil =>
    intro i _ h
    obtain ⟨e, he, _⟩ := h
    exact absurd he (List.not_mem_nil e)
  | cons x xs ih =>
    intro i hs h
    obtain ⟨e, he, hel⟩ := h
    rw [List.pairwise_cons] at hs
    have hrest : ¬ p.Eligible node x → ∃ k obj, p.scanJobs node (i + 1) xs = some (k, obj) := by
      intro hx
      rcases List.mem_cons.mp he with h1 | h1
      · rw [h1] at hel; exact absurd hel hx
      · exact ih (i + 1) hs.2 ⟨e, h1, hel⟩
    unfold Project.scanJobs
    by_cases h1 : (p.jobHeap x).m_active = true
    · rw [if_neg (by simpa using h1)]
      by_cases h2 : (p.jobHeap x).getCorrectness ≥ 1
      · rw [if_pos h2]
        exact hrest (fun hx => absurd hx.2.1 (not_lt.mpr h2))
      · rw [if_neg h2]
        by_cases h3 : (p.nodeHeap node).hasSubmitted x = true
        · rw [if_pos h3]
          exact hrest (fun hx => by rw [hx.2.2] at h3; exact Bool.noConfusion h3)
        · rw [if_neg h3]
          exact ⟨i, x, rfl⟩
    · exfalso
      rcases List.mem_cons.mp he with h2 | h2
      · rw [h2] at hel; exact h1 hel.1
      · exact h1 (jobCompare_active _ _ _ _ (hs.1 e h2) hel.1)

theorem below_imp (p : Project) (t : ℚ) (searchAddr a : Nat)
    (h : JobCompare a (p.jobHeap a) searchAddr (searchJob t) = true) :
    (p.jobHeap a).m_active = true ∧ t ≤ (p.jobHeap a).getCorrectness := by
  have h1 := jobCompare_active _ _ _ _ h rfl
  refine ⟨h1, ?_⟩
  rcases jobCompare_corr _ _ _ _ h (by rw [h1]; rfl) with h2 | h2
  · rw [searchJob_getCorrectness] at h2; exact le_of_lt h2
  · rw [searchJob_getCorrectness] at h2; exact le_of_eq h2.1.symm

theorem searchFrom_finds (p : Project) (node : Nat) (t : ℚ) (searchAddr : Nat)
    (hs : p.JobsSorted) (h : ∃ e ∈ p.m_jobs, p.Eligible node e ∧ (p.jobHeap e).getCorrectness < t) :
    ∃ k obj, p.searchFrom node t searchAddr = some (k, obj) := by
  unfold Project.searchFrom
  simp only []
  rw [drop_lowerBound]
  apply scanJobs_finds
  · exact hs.sublist (List.dropWhile_sublist _)
  · obtain ⟨e, he, hel, hlt⟩ := h
    refine ⟨e, ?_, hel⟩
    have h1 : e ∈ p.m_jobs.takeWhile
          (fun a => JobCompare a (p.jobHeap a) searchAddr (searchJob t))
        ++ p.m_jobs.dropWhile
          (fun a => JobCompare a (p.jobHeap a) searchAddr (searchJob t)) := by
      rw [List.takeWhile_append_dropWhile]; exact he
    rcases List.mem_append.mp h1 with h2 | h2
    · have h3 := List.mem_takeWhile_imp h2
      exact absurd (below_imp p t searchAddr e h3).2 (not_le.mpr hlt)
    · exact h2

theorem findJobAt_none (p : Project) (node : Nat) (t : ℚ) (searchAddr : Nat)
    (h : (p.findJobAt node t searchAddr).2 = .returned none) :
    p.searchFrom node 1 searchAddr = none ∧ p.findJobAt node t searchAddr = (p, .returned none) := by
  unfold Project.findJobAt at h ⊢
  cases h1 : p.searchFrom node t searchAddr with
  | some x =>
    rw [h1] at h
    simp at h
  | none =>
    rw [h1] at h
    simp only [] at h ⊢
    cases h2 : p.searchFrom node 1 searchAddr with
    | some x =>
      rw [h2] at h
      simp at h
    | none => exact ⟨rfl, rfl⟩

theorem findJobAt_complete (p : Project) (node : Nat) (t : ℚ) (searchAddr : Nat)
    (hs : p.JobsSorted) :
    ((∃ e ∈ p.m_jobs, p.Eligible node e) →
        ∃ obj, (p.findJobAt node t searchAddr).2 = .returned (some obj))
      ∧ ((p.findJobAt node t searchAddr).2 = .returned none →
          ¬ ∃ e ∈ p.m_jobs, p.Eligible node e)
      ∧ ((p.findJobAt node t searchAddr).2 = .returned none →
          p.findJobAt node t searchAddr = (p, .returned none))
      ∧ (∃ r, (p.findJobAt node t searchAddr).2 = .returned r) := by
  have hfind : (∃ e ∈ p.m_jobs, p.Eligible node e) →
      ∃ k obj, p.searchFrom node 1 searchAddr = some (k, obj) := by
    intro h
    obtain ⟨e, he, hel⟩ := h
    exact searchFrom_finds p node 1 searchAddr hs ⟨e, he, hel, hel.2.1⟩
  refine ⟨?_, ?_, ?_, ?_⟩
  · intro h
    obtain ⟨k, obj, h1⟩ := hfind h
    unfold Project.findJobAt
    cases h2 : p.searchFrom node t searchAddr with
    | some x => exact ⟨x.2, rfl⟩
    | none =>
      simp only []
      rw [h1]
      exact ⟨obj, rfl⟩
  · intro h hex
    obtain ⟨k, obj, h1⟩ := hfind hex
    rw [(findJobAt_none p node t searchAddr h).1] at h1
    exact Option.noConfusion h1
  · intro h
    exact (findJobAt_none p node t searchAddr h).2
  · unfold Project.findJobAt
    cases h2 : p.searchFrom node t searchAddr with
    | some x => exact ⟨_, rfl⟩
    | none =>
      simp only []
      cases h3 : p.searchFrom node 1 searchAddr with
      | some x => exact ⟨_, rfl⟩
      | none => exact ⟨_, rfl⟩

theorem getTrust_returns (p : Project) (node : Nat)
    (h : p.m_bestTrust = 0 ∨ (p.nodeHeap node).m_trust ≤ p.m_bestTrust) :
    ∃ t, p.getTrust node = .returned t := by
  unfold Project.getTrust
  simp only []
  by_cases h1 : p.m_bestTrust = 0
  · rw [if_pos h1]; exact ⟨_, rfl⟩
  · rw [if_neg h1, if_neg (not_not.mpr (h.resolve_left h1))]; exact ⟨_, rfl⟩

theorem getTrust_asserts (p : Project) (node : Nat)
    (h : ¬ (p.m_bestTrust = 0 ∨ (p.nodeHeap node).m_trust ≤ p.m_bestTrust)) :
    p.getTrust node = .halted .assertFailed := by
  unfold Project.getTrust
  simp only []
  rw [if_neg (fun h1 => h (Or.inl h1)), if_pos (fun h1 => h (Or.inr h1))]

/-- Counterexample to C11 as stated: the job order of `overTrustedQueue` is sorted
and holds the job at address 7, which is active, has `getCorrectness() < 1` and is
not in the submitted set of node 1; node 1 has trust 2 and the tracked maximum is 1,
so for every draw `findJobForNode` ends at the assertion of `getTrust` (line 234)
and returns no job. -/
theorem findJobForNode_complete_counterexample :
    overTrustedQueue.JobsSorted ∧ 7 ∈ overTrustedQueue.m_jobs
      ∧ overTrustedQueue.Eligible 1 7
      ∧ (∀ rnd searchAddr, overTrustedQueue.findJobForNode 1 rnd searchAddr
          = (overTrustedQueue, .halted .assertFailed))
      ∧ (∀ rnd searchAddr obj, (overTrustedQueue.findJobForNode 1 rnd searchAddr).2
          ≠ .returned (some obj)) := by
  have hg : overTrustedQueue.getTrust 1 = .halted .assertFailed :=
    getTrust_asserts overTrustedQueue 1 (by
      norm_num [overTrustedQueue, overTrusted, Node.new])
  have hf : ∀ rnd searchAddr, overTrustedQueue.findJobForNode 1 rnd searchAddr
      = (overTrustedQueue, .halted .assertFailed) := by
    intro rnd searchAddr
    unfold Project.findJobForNode
    rw [hg]
  refine ⟨?_, ?_, ?_, hf, ?_⟩
  · simp [Project.JobsSorted, overTrustedQueue, overTrusted]
  · simp [overTrustedQueue, overTrusted]
  · norm_num [Project.Eligible, overTrustedQueue, overTrusted, Job.new, Job.getCorrectness,
      Node.hasSubmitted, Node.new]
  · intro rnd searchAddr obj
    rw [hf]
    exact fun h => Ret.noConfusion h

/-- C11 (amended). Fallback completeness: on a job order sorted by `JobCompare`,
for every draw and every node for which `getTrust` returns, that is when the
tracked maximum is 0 or the trust of the node does not exceed it: when the order
holds a job that is active, has `getCorrectness() < 1` and is not in the submitted
set of the node, `findJobForNode` returns a job; it returns none only when there is
no such job, and then it leaves the project, and with it the job order, as it was;
and when the search from the target finds nothing although there is such a job,
the search from 1.0 finds one, which `findJobForNode` erases from the order and
returns. For a node whose trust exceeds a tracked maximum that is not 0,
`findJobForNode` ends at the assertion of line 234. -/
theorem findJobForNode_complete (p : Project) (node : Nat) (rnd : ℚ) (searchAddr : Nat)
    (hs : p.JobsSorted) :
    ((p.m_bestTrust = 0 ∨ (p.nodeHeap node).m_trust ≤ p.m_bestTrust) →
        ((∃ e ∈ p.m_jobs, p.Eligible node e) →
            ∃ obj, (p.findJobForNode node rnd searchAddr).2 = .returned (some obj))
          ∧ ((p.findJobForNode node rnd searchAddr).2 = .returned none →
              (¬ ∃ e ∈ p.m_jobs, p.Eligible node e)
                ∧ p.findJobForNode node rnd searchAddr = (p, .returned none))
          ∧ (∃ r, (p.findJobForNode node rnd searchAddr).2 = .returned r)
          ∧ (∀ t, p.getTrust node = .returned t →
              p.searchFrom node (clamp (rnd - t) 0 1) searchAddr = none →
              (∃ e ∈ p.m_jobs, p.Eligible node e) →
              ∃ k obj, p.searchFrom node 1 searchAddr = some (k, obj)
                ∧ p.findJobForNode node rnd searchAddr
                    = ({ p with m_jobs := p.m_jobs.eraseIdx k }, .returned (some obj))))
      ∧ (¬ (p.m_bestTrust = 0 ∨ (p.nodeHeap node).m_trust ≤ p.m_bestTrust) →
          p.findJobForNode node rnd searchAddr = (p, .halted .assertFailed)) := by
  constructor
  · intro ht
    obtain ⟨t0, ht0⟩ := getTrust_returns p node ht
    have heq := findJobForNode_eq_findJobAt p node rnd searchAddr t0 ht0
    obtain ⟨h1, h2, h3, h4⟩ := findJobAt_complete p node (clamp (rnd - t0) 0 1) searchAddr hs
    rw [heq]
    refine ⟨h1, fun h => ⟨h2 h, h3 h⟩, h4, ?_⟩
    intro t ht hnone hex
    rw [ht0] at ht
    have htt : t0 = t := Ret.returned.inj ht
    rw [← htt] at hnone
    obtain ⟨e, he, hel⟩ := hex
    obtain ⟨k, obj, hk⟩ := searchFrom_finds p node 1 searchAddr hs ⟨e, he, hel, hel.2.1⟩
    refine ⟨k, obj, hk, ?_⟩
    unfold Project.findJobAt
    rw [hnone]
    simp only []
    rw [hk]
  · intro ht
    unfold Project.findJobForNode
    rw [getTrust_asserts p node ht]

/-- Witness of C11 (`findJobForNode_complete`): the job order of `nearlyDone` is sorted
and holds the job at address 7 with `getCorrectness() = 95/100`, which node 1 can
be given. With the draw 1 the target is 9/10; the search from the target passes the
job over and finds nothing, and the search from 1.0 finds it. -/
theorem findJobForNode_complete_witness :
    nearlyDone.JobsSorted ∧ nearlyDone.getTrust 1 = .returned (1 / 10)
      ∧ nearlyDone.searchFrom 1 (clamp (1 - 1 / 10) 0 1) 100 = none
      ∧ ∃ k obj, nearlyDone.searchFrom 1 1 100 = some (k, obj)
          ∧ nearlyDone.findJobForNode 1 1 100
              = ({ nearlyDone with m_jobs := nearlyDone.m_jobs.eraseIdx k },
                  .returned (some obj)) :=
  have hs : nearlyDone.JobsSorted := by
    simp [Project.JobsSorted, nearlyDone]
  have hg : nearlyDone.getTrust 1 = .returned (1 / 10) := by
    simp [Project.getTrust, nearlyDone]
  have hn : nearlyDone.searchFrom 1 (clamp (1 - 1 / 10) 0 1) 100 = none := by
    norm_num [Project.searchFrom, Project.scanJobs, lowerBound, JobCompare, searchJob,
      nearlyDone, Job.new, Job.getCorrectness, clamp]
  ⟨hs, hg, hn, ((findJobForNode_complete nearlyDone 1 1 100 hs).1 (Or.inl rfl)).2.2.2
    (1 / 10) hg hn
    ⟨7, by simp [nearlyDone], by
      norm_num [Project.Eligible, nearlyDone, Job.new, Job.getCorrectness, Node.hasSubmitted,
        Node.new]⟩⟩

/-! ## JobCompare and Project::activateJob -/

theorem jobCompare_irrefl (a : Nat) (ja jb : Job) : JobCompare a ja a jb = false := by
  unfold JobCompare
  rw [if_pos rfl]

theorem jobCompare_total (a : Nat) (ja : Job) (b : Nat) (jb : Job) (hne : a ≠ b) :
    JobCompare a ja b jb = true ∨ JobCompare b jb a ja = true := by
  unfold JobCompare
  rw [if_neg hne, if_neg (Ne.symm hne)]
  by_cases h1 : ja.m_active = jb.m_active
  · rw [if_pos h1, if_pos h1.symm]
    simp only []
    by_cases h2 : ja.getCorrectness = jb.getCorrectness
    · rw [if_pos h2, if_pos h2.symm]
      rcases Nat.lt_or_gt_of_ne hne with h3 | h3
      · left; exact decide_eq_true h3
      · right; exact decide_eq_true h3
    · rw [if_neg h2, if_neg (Ne.symm h2)]
      rcases lt_or_gt_of_ne h2 with h3 | h3
      · right; exact decide_eq_true h3
      · left; exact decide_eq_true h3
  · rw [if_neg h1, if_neg (Ne.symm h1)]
    cases ha : ja.m_active with
    | true => left; rfl
    | false =>
      right
      cases hb : jb.m_active with
      | true => rfl
      | false => rw [ha, hb] at h1; exact absurd rfl h1

theorem jobCompare_asymm (a : Nat) (ja : Job) (b : Nat) (jb : Job)
    (h : JobCompare a ja b jb = true) : JobCompare b jb a ja = false := by
  unfold JobCompare at h ⊢
  split_ifs at h with h1 h2
  · rw [if_neg (Ne.symm h1), if_pos h2.symm]
    simp only [] at h ⊢
    split_ifs at h with h3
    · rw [if_pos h3.symm]
      have h4 : a < b := of_decide_eq_true h
      exact decide_eq_false (Nat.lt_asymm h4)
    · rw [if_neg (Ne.symm h3)]
      have h4 : ja.getCorrectness > jb.getCorrectness := of_decide_eq_true h
      exact decide_eq_false (not_lt.mpr (le_of_lt h4))
  · rw [if_neg (Ne.symm h1), if_neg (Ne.symm h2)]
    cases hb : jb.m_active with
    | false => rfl
    | true => rw [h, hb] at h2; exact absurd rfl h2

theorem jobCompare_trans (a : Nat) (ja : Job) (b : Nat) (jb : Job) (c : Nat) (jc : Job)
    (hab : JobCompare a ja b jb = true) (hbc : JobCompare b jb c jc = true)
    (hac : a = c → ja = jc) : JobCompare a ja c jc = true := by
  by_cases hne : a = c
  · have h1 : ja = jc := hac hne
    rw [hne, h1] at hab
    rw [jobCompare_asymm _ _ _ _ hbc] at hab
    exact Bool.noConfusion hab
  · by_cases h1 : ja.m_active = jb.m_active
    · by_cases h2 : jb.m_active = jc.m_active
      · have h3 := jobCompare_corr _ _ _ _ hab h1
        have h4 := jobCompare_corr _ _ _ _ hbc h2
        unfold JobCompare
        rw [if_neg hne, if_pos (h1.trans h2)]
        simp only []
        rcases h3 with h3 | h3 <;> rcases h4 with h4 | h4
        · rw [if_neg (ne_of_gt (lt_trans h4 h3))]
          exact decide_eq_true (lt_trans h4 h3)
        · rw [if_neg (ne_of_gt (by rw [← h4.1]; exact h3))]
          exact decide_eq_true (by rw [← h4.1]; exact h3)
        · rw [if_neg (ne_of_gt (by rw [h3.1]; exact h4))]
          exact decide_eq_true (by rw [h3.1]; exact h4)
        · rw [if_pos (h3.1.trans h4.1)]
          exact decide_eq_true (lt_trans h3.2 h4.2)
      · have h3 : jb.m_active = true := by
          unfold JobCompare at hbc
          split_ifs at hbc
          exact hbc
        have h4 : jc.m_active = false := by
          cases hc : jc.m_active with
          | false => rfl
          | true => rw [h3, hc] at h2; exact absurd rfl h2
        unfold JobCompare
        rw [if_neg hne, if_neg (by rw [h1, h3, h4]; exact Bool.noConfusion)]
        rw [h1, h3]
    · have h3 : ja.m_active = true := by
        unfold JobCompare at hab
        split_ifs at hab
        exact hab
      have h4 : jb.m_active = false := by
        cases hb : jb.m_active with
        | false => rfl
        | true => rw [h3, hb] at h1; exact absurd rfl h1
      have h5 : jc.m_active = false := by
        cases hc : jc.m_active with
        | false => rfl
        | true =>
          have := jobCompare_active _ _ _ _ hbc hc
          rw [h4] at this
          exact Bool.noConfusion this
      unfold JobCompare
      rw [if_neg hne, if_neg (by rw [h3, h5]; exact Bool.noConfusion)]
      exact h3

theorem setInsert_erase (lt : Nat → Nat → Bool) (a : Nat) (xs : List Nat) (ha : a ∉ xs)
    (htot : ∀ x ∈ xs, lt x a = true ∨ lt a x = true) :
    (setInsert lt a xs).erase a = xs ∧ a ∈ setInsert lt a xs := by
  induction xs with
  | nil => simp [setInsert]
  | cons x xs ih =>
    have hx : x ≠ a := fun h => ha (by rw [h]; exact List.mem_cons_self _ _)
    have ih2 := ih (fun h => ha (List.mem_cons_of_mem _ h))
      (fun y hy => htot y (List.mem_cons_of_mem _ hy))
    unfold setInsert
    by_cases h1 : lt x a = true
    · rw [if_pos h1]
      refine ⟨?_, List.mem_cons_of_mem _ ih2.2⟩
      rw [List.erase_cons_tail (by simpa using hx), ih2.1]
    · rw [if_neg h1]
      have h2 : lt a x = true := (htot x (List.mem_cons_self _ _)).resolve_left h1
      rw [if_pos h2]
      exact ⟨List.erase_cons_head _ _, List.mem_cons_self _ _⟩

theorem jobsSorted_nodup (p : Project) (hs : p.JobsSorted) : p.m_jobs.Nodup := by
  unfold Project.JobsSorted at hs
  refine List.Pairwise.imp ?_ hs
  intro a b h hab
  rw [hab] at h
  unfold Project.comp at h
  rw [jobCompare_irrefl] at h
  exact Bool.noConfusion h

theorem activateJob_of_inactive (p : Project) (obj : Nat)
    (hlast : p.m_jobs.getLast? = some obj) (hina : (p.jobHeap obj).m_active = false) :
    p.activateJob
      = ({ p with
            jobHeap := Function.update p.jobHeap obj { p.jobHeap obj with m_active := true }
            m_jobs := setInsert
              (fun a b => JobCompare a
                (Function.update p.jobHeap obj { p.jobHeap obj with m_active := true } a) b
                (Function.update p.jobHeap obj { p.jobHeap obj with m_active := true } b)) obj
              p.m_jobs.dropLast }, .returned ()) := by
  unfold Project.activateJob
  rw [hlast]
  simp only [hina]
  rfl

theorem setInsert_split (lt : Nat → Nat → Bool) (a : Nat) (xs : List Nat)
    (htot : ∀ x ∈ xs, lt x a = true ∨ lt a x = true)
    (htrans : ∀ x y, lt a x = true → lt x y = true → lt a y = true)
    (hs : xs.Pairwise (fun x y => lt x y = true)) :
    ∃ l r, xs = l ++ r ∧ setInsert lt a xs = l ++ a :: r
      ∧ (∀ x ∈ l, lt x a = true) ∧ (∀ y ∈ r, lt a y = true) := by
  induction xs with
  | nil =>
    exact ⟨[], [], rfl, rfl, fun x hx => absurd hx (List.not_mem_nil x),
      fun y hy => absurd hy (List.not_mem_nil y)⟩
  | cons x xs ih =>
    rw [List.pairwise_cons] at hs
    unfold setInsert
    by_cases h1 : lt x a = true
    · rw [if_pos h1]
      obtain ⟨l, r, e1, e2, e3, e4⟩ := ih (fun y hy => htot y (List.mem_cons_of_mem _ hy)) hs.2
      refine ⟨x :: l, r, by rw [e1]; rfl, by rw [e2]; rfl, ?_, e4⟩
      intro y hy
      rcases List.mem_cons.mp hy with h2 | h2
      · rw [h2]; exact h1
      · exact e3 y h2
    · rw [if_neg h1]
      have h2 : lt a x = true := (htot x (List.mem_cons_self _ _)).resolve_left h1
      rw [if_pos h2]
      refine ⟨[], x :: xs, rfl, rfl, fun y hy => absurd hy (List.not_mem_nil y), ?_⟩
      intro y hy
      rcases List.mem_cons.mp hy with h3 | h3
      · rw [h3]; exact h2
      · exact htrans x y h2 (hs.1 y h3)

theorem sorted_insert (lt : Nat → Nat → Bool) (a : Nat) (l r : List Nat)
    (hs : (l ++ r).Pairwise (fun x y => lt x y = true))
    (hl : ∀ x ∈ l, lt x a = true) (hr : ∀ y ∈ r, lt a y = true) :
    (l ++ a :: r).Pairwise (fun x y => lt x y = true) := by
  rw [List.pairwise_append] at hs ⊢
  refine ⟨hs.1, List.pairwise_cons.mpr ⟨hr, hs.2.1⟩, ?_⟩
  intro x hx y hy
  rcases List.mem_cons.mp hy with h | h
  · rw [h]; exact hl x hx
  · exact hs.2.2 x hx y h

theorem activateJob_place (p : Project) (obj : Nat) (ys : List Nat) (hs : p.JobsSorted)
    (hys : p.m_jobs = ys ++ [obj]) (hina : (p.jobHeap obj).m_active = false) :
    p.activateJob.1.JobsSorted
      ∧ ∃ l r, p.m_jobs = (l ++ r) ++ [obj] ∧ p.activateJob.1.m_jobs = l ++ obj :: r
          ∧ (∀ x ∈ l, p.activateJob.1.comp x obj = true)
          ∧ (∀ y ∈ r, p.activateJob.1.comp obj y = true) := by
  have hlast : p.m_jobs.getLast? = some obj := by rw [hys]; simp
  have hnd := jobsSorted_nodup p hs
  unfold Project.JobsSorted at hs
  rw [hys] at hs hnd
  have hnot : obj ∉ ys := fun h =>
    (List.nodup_append.mp hnd).2.2 h (List.mem_singleton.mpr rfl)
  have hdl : p.m_jobs.dropLast = ys := by rw [hys]; simp
  have hsorted : ys.Pairwise (fun x y =>
      JobCompare x (Function.update p.jobHeap obj { p.jobHeap obj with m_active := true } x) y
        (Function.update p.jobHeap obj { p.jobHeap obj with m_active := true } y) = true) := by
    refine List.Pairwise.imp_of_mem ?_ (List.pairwise_append.mp hs).1
    intro x y hx hy hxy
    have h1 : x ≠ obj := fun h => hnot (by rw [← h]; exact hx)
    have h2 : y ≠ obj := fun h => hnot (by rw [← h]; exact hy)
    rw [Function.update_noteq h1, Function.update_noteq h2]
    exact hxy
  obtain ⟨l, r, e1, e2, e3, e4⟩ := setInsert_split
    (fun a b => JobCompare a
      (Function.update p.jobHeap obj { p.jobHeap obj with m_active := true } a) b
      (Function.update p.jobHeap obj { p.jobHeap obj with m_active := true } b)) obj ys
    (fun x hx => jobCompare_total _ _ _ _ (fun h => hnot (by rw [← h]; exact hx)))
    (fun x y h1 h2 => jobCompare_trans _ _ _ _ _ _ h1 h2 (fun h => by rw [h]))
    hsorted
  rw [activateJob_of_inactive p obj hlast hina]
  simp only [hdl]
  refine ⟨?_, l, r, by rw [hys, e1], e2, e3, e4⟩
  unfold Project.JobsSorted
  simp only []
  rw [e2]
  rw [e1] at hsorted
  exact sorted_insert _ obj l r hsorted e3 e4

/-- Counterexample to C12 as stated: in `twoInactive` the job at address 1 is the
inactive job that `JobCompare` ranks first, but `activateJob` activates the job at
address 2, the last of the order, and moves it in front of the job at address 1,
which stays inactive. -/
theorem activateJob_counterexample :
    twoInactive.JobsSorted
      ∧ twoInactive.comp 1 2 = true
      ∧ (twoInactive.jobHeap 1).m_active = false ∧ (twoInactive.jobHeap 2).m_active = false
      ∧ (twoInactive.activateJob.1.jobHeap 1).m_active = false
      ∧ (twoInactive.activateJob.1.jobHeap 2).m_active = true
      ∧ twoInactive.activateJob.1.m_jobs = [2, 1] := by
  have h : twoInactive.activateJob = _ :=
    activateJob_of_inactive twoInactive 2 rfl rfl
  rw [h]
  refine ⟨?_, ?_, rfl, rfl, ?_, ?_, ?_⟩
  · simp [Project.JobsSorted, twoInactive, Project.comp, JobCompare]
  · simp [twoInactive, Project.comp, JobCompare]
  · simp [twoInactive, Function.update, Job.new]
  · simp [twoInactive, Function.update]
  · simp [twoInactive, Function.update, setInsert, JobCompare, Job.new, Job.getCorrectness]

/-- C12 (amended). On a non-empty job order sorted by `JobCompare`, `activateJob`
looks at the last job of the order, the one `JobCompare` ranks after every other
job. The order holds an inactive job exactly when that last job is inactive, and
then `activateJob` sets active exactly that job, the inactive job ranked last among
the inactive ones, leaves every other job as it was and keeps the other jobs in
the order they had. The job is inserted again at the place `JobCompare` gives it
with its new flag: the order without its last job splits into the jobs `l` that
precede the activated job and the jobs `r` it precedes, the new order is `l`, the
activated job, `r`, and it is sorted by `JobCompare`. When the order holds no
inactive job `activateJob` changes nothing. -/
theorem activateJob_last (p : Project) (obj : Nat) (hs : p.JobsSorted)
    (hlast : p.m_jobs.getLast? = some obj) :
    ((∃ x ∈ p.m_jobs, (p.jobHeap x).m_active = false) ↔ (p.jobHeap obj).m_active = false)
      ∧ (∀ x ∈ p.m_jobs, x ≠ obj → p.comp x obj = true)
      ∧ ((p.jobHeap obj).m_active = false →
          p.activateJob.2 = .returned ()
            ∧ p.activateJob.1.jobHeap obj = { p.jobHeap obj with m_active := true }
            ∧ (∀ x, x ≠ obj → p.activateJob.1.jobHeap x = p.jobHeap x)
            ∧ p.activateJob.1.m_jobs.erase obj = p.m_jobs.erase obj
            ∧ obj ∈ p.activateJob.1.m_jobs
            ∧ p.activateJob.1.JobsSorted
            ∧ ∃ l r, p.m_jobs = (l ++ r) ++ [obj] ∧ p.activateJob.1.m_jobs = l ++ obj :: r
                ∧ (∀ x ∈ l, p.activateJob.1.comp x obj = true)
                ∧ (∀ y ∈ r, p.activateJob.1.comp obj y = true))
      ∧ ((∀ x ∈ p.m_jobs, (p.jobHeap x).m_active = true) →
          p.activateJob = (p, .returned ())) := by
  obtain ⟨ys, hys⟩ := List.getLast?_eq_some_iff.mp hlast
  have hplace := activateJob_place p obj ys hs hys
  have hnd := jobsSorted_nodup p hs
  unfold Project.JobsSorted at hs
  rw [hys] at hs hnd
  have hbefore : ∀ x ∈ ys, p.comp x obj = true := fun x hx =>
    (List.pairwise_append.mp hs).2.2 x hx obj (List.mem_singleton.mpr rfl)
  have hnot : obj ∉ ys := fun h =>
    (List.nodup_append.mp hnd).2.2 h (List.mem_singleton.mpr rfl)
  have hrank : ∀ x ∈ p.m_jobs, x ≠ obj → p.comp x obj = true := by
    intro x hx hne
    rw [hys] at hx
    rcases List.mem_append.mp hx with h | h
    · exact hbefore x h
    · exact absurd (List.mem_singleton.mp h) hne
  refine ⟨⟨?_, fun h => ⟨obj, List.mem_of_getLast?_eq_some hlast, h⟩⟩, hrank, ?_, ?_⟩
  · intro h
    obtain ⟨x, hx, hxa⟩ := h
    by_cases hne : x = obj
    · rw [← hne]; exact hxa
    · cases ho : (p.jobHeap obj).m_active with
      | false => rfl
      | true =>
        have := jobCompare_active _ _ _ _ (hrank x hx hne) ho
        rw [hxa] at this
        exact Bool.noConfusion this
  · intro hina
    obtain ⟨hp1, hp2⟩ := hplace hina
    have hdl : p.m_jobs.dropLast = ys := by rw [hys]; simp
    have hins := setInsert_erase
      (fun a b => JobCompare a
        (Function.update p.jobHeap obj { p.jobHeap obj with m_active := true } a) b
        (Function.update p.jobHeap obj { p.jobHeap obj with m_active := true } b)) obj ys hnot
      (fun x hx => jobCompare_total _ _ _ _ (fun h => hnot (by rw [← h]; exact hx)))
    refine ⟨?_, ?_, ?_, ?_, ?_, hp1, hp2⟩
    all_goals rw [activateJob_of_inactive p obj hlast hina]
    · simp only [Function.update_same]
    · intro x hx
      simp only [Function.update_noteq hx]
    · simp only [hdl]
      rw [hins.1, hys, List.erase_append_right _ hnot]
      simp
    · simp only [hdl]
      exact hins.2
  · intro hall
    unfold Project.activateJob
    rw [hlast]
    simp only [hall obj (List.mem_of_getLast?_eq_some hlast)]
    rfl

/-- Witness of C12 (`activateJob_last`): the job order of `twoInactive` is sorted and
ends with the job at address 2, which `activateJob` activates; the new order is
sorted. -/
theorem activateJob_last_witness :
    twoInactive.JobsSorted ∧ twoInactive.m_jobs.getLast? = some 2
      ∧ (twoInactive.jobHeap 2).m_active = false
      ∧ twoInactive.activateJob.1.jobHeap 2 = { twoInactive.jobHeap 2 with m_active := true }
      ∧ twoInactive.activateJob.1.JobsSorted :=
  have hs : twoInactive.JobsSorted := by
    simp [Project.JobsSorted, twoInactive, Project.comp, JobCompare]
  ⟨hs, rfl, rfl, ((activateJob_last twoInactive 2 hs rfl).2.2.1 rfl).2.1,
    ((activateJob_last twoInactive 2 hs rfl).2.2.1 rfl).2.2.2.2.2.1⟩

/-- C13. `JobCompare` is a strict total order on the jobs of a heap, which have
distinct addresses: it is irreflexive, asymmetric and transitive, of two distinct
jobs exactly one precedes the other, every active job precedes every inactive one,
and of two jobs with the same active flag the one with the greater
`getCorrectness()` comes first, the address deciding between equal ones. -/
theorem jobCompare_strict_total_order (p : Project) :
    (∀ a, p.comp a a = false)
      ∧ (∀ a b, p.comp a b = true → p.comp b a = false)
      ∧ (∀ a b c, p.comp a b = true → p.comp b c = true → p.comp a c = true)
      ∧ (∀ a b, a ≠ b →
          (p.comp a b = true ∨ p.comp b a = true) ∧ ¬ (p.comp a b = true ∧ p.comp b a = true))
      ∧ (∀ a b, (p.jobHeap a).m_active = true → (p.jobHeap b).m_active = false →
          p.comp a b = true)
      ∧ (∀ a b, (p.jobHeap a).m_active = (p.jobHeap b).m_active →
          (p.jobHeap b).getCorrectness < (p.jobHeap a).getCorrectness → p.comp a b = true)
      ∧ (∀ a b, (p.jobHeap a).m_active = (p.jobHeap b).m_active →
          (p.jobHeap a).getCorrectness = (p.jobHeap b).getCorrectness →
          (p.comp a b = true ↔ a < b))
      ∧ (∀ a b, p.comp a b
          = JobCompare a (p.jobHeap a) b (p.jobHeap b)) := by
  refine ⟨fun a => jobCompare_irrefl a _ _, fun a b h => jobCompare_asymm _ _ _ _ h,
    fun a b c h1 h2 => jobCompare_trans _ _ _ _ _ _ h1 h2 (fun h => by rw [h]),
    ?_, ?_, ?_, ?_, fun a b => rfl⟩
  · intro a b hne
    refine ⟨jobCompare_total _ _ _ _ hne, fun h => ?_⟩
    have h1 := jobCompare_asymm _ _ _ _ h.1
    unfold Project.comp at h
    rw [h1] at h
    exact Bool.noConfusion h.2
  · intro a b ha hb
    have hne : a ≠ b := fun h => by rw [h, hb] at ha; exact Bool.noConfusion ha
    unfold Project.comp JobCompare
    rw [if_neg hne, if_neg (by rw [ha, hb]; exact Bool.noConfusion)]
    exact ha
  · intro a b hab hlt
    have hne : a ≠ b := fun h => by rw [h] at hlt; exact lt_irrefl _ hlt
    exact jobCompare_of_corr_gt _ _ _ _ hne hab hlt
  · intro a b hab heq
    unfold Project.comp JobCompare
    by_cases hne : a = b
    · rw [if_pos hne, hne]
      simp
    · rw [if_neg hne, if_pos hab]
      simp only []
      rw [if_pos heq]
      exact decide_eq_true_iff

/-! ## Trust score and correctness weight -/

theorem getTrust_ge (p : Project) (node : Nat) (t : ℚ) (h : p.getTrust node = .returned t)
    (h0 : 0 ≤ (p.nodeHeap node).m_trust) : 1 / 10 ≤ t ∧ t ≤ 1 := by
  unfold Project.getTrust at h
  simp only [] at h
  split_ifs at h with h1 h2
  · rw [← Ret.returned.inj h]
    norm_num
  · rw [← Ret.returned.inj h]
    have h3 : (p.nodeHeap node).m_trust ≤ p.m_bestTrust := h2
    have h4 : 0 < p.m_bestTrust := lt_of_le_of_ne (le_trans h0 h3) (Ne.symm h1)
    have h5 : 0 ≤ (p.nodeHeap node).m_trust / p.m_bestTrust := div_nonneg h0 (le_of_lt h4)
    unfold clamp
    split_ifs with h6 h7
    · linarith
    · norm_num
    · exact ⟨by linarith, not_lt.mp h7⟩

/-- Counterexample to C14 as stated: node 1 of `smallProject` has trust 0 and the
tracked maximum is 0, so `getTrust` returns 1/10; with the draw -1/10 the local
`corr` of `simulate` is 0. -/
theorem simulateCorr_counterexample :
    smallProject.getTrust 1 = .returned (1 / 10)
      ∧ (-(1 / 10) : ℚ) ≤ -(1 / 10) ∧ (-(1 / 10) : ℚ) ≤ 1 / 10
      ∧ simulateCorr (1 / 10) (-(1 / 10)) = 0
      ∧ ¬ (0 < simulateCorr (1 / 10) (-(1 / 10))) := by
  refine ⟨?_, le_refl _, by norm_num, ?_, ?_⟩
  · simp [Project.getTrust, smallProject]
  · norm_num [simulateCorr]
  · norm_num [simulateCorr]

/-- C14 (amended). For every node with trust `≥ 0` for which `getTrust` returns, and
every draw `u > -1/10`, the local `corr` of `simulate`, which is what the driver
passes to `startJob`, is strictly greater than 0 and at most 0.99; for every draw
it is `≥ 0`, and it is `> 0` exactly when the sum of the trust score and the draw
is. -/
theorem simulateCorr_pos (p : Project) (node : Nat) (t u : ℚ)
    (ht : p.getTrust node = .returned t) (h0 : 0 ≤ (p.nodeHeap node).m_trust)
    (hu : -(1 / 10) < u) :
    0 < simulateCorr t u ∧ simulateCorr t u ≤ 99 / 100
      ∧ (∀ t1 u1 : ℚ, 0 ≤ simulateCorr t1 u1 ∧ (0 < simulateCorr t1 u1 ↔ 0 < t1 + u1)) := by
  have h1 := (getTrust_ge p node t ht h0).1
  have hgen : ∀ t1 u1 : ℚ, 0 ≤ simulateCorr t1 u1 ∧ (0 < simulateCorr t1 u1 ↔ 0 < t1 + u1) := by
    intro t1 u1
    unfold simulateCorr
    refine ⟨le_min (le_max_left _ _) (by norm_num), ?_⟩
    rw [lt_min_iff, lt_max_iff]
    constructor
    · intro h
      rcases h.1 with h2 | h2
      · exact absurd h2 (lt_irrefl 0)
      · exact h2
    · intro h
      exact ⟨Or.inr h, by norm_num⟩
  refine ⟨(hgen t u).2.mpr (by linarith), ?_, hgen⟩
  unfold simulateCorr
  exact min_le_right _ _

/-- Witness of C14 (`simulateCorr_pos`): node 1 of `smallProject` with the draw 0 gets
a positive weight. -/
theorem simulateCorr_pos_witness :
    smallProject.getTrust 1 = .returned (1 / 10) ∧ 0 ≤ (smallProject.nodeHeap 1).m_trust
      ∧ -(1 / 10) < (0 : ℚ) ∧ 0 < simulateCorr (1 / 10) 0 :=
  have h1 : smallProject.getTrust 1 = .returned (1 / 10) := by
    simp [Project.getTrust, smallProject]
  have h2 : 0 ≤ (smallProject.nodeHeap 1).m_trust := by
    simp [smallProject, Node.new]
  have h3 : -(1 / 10) < (0 : ℚ) := by norm_num
  ⟨h1, h2, h3, (simulateCorr_pos smallProject 1 (1 / 10) 0 h1 h2 h3).1⟩

/-- Counterexample to C15 as stated: in `overTrusted` the tracked maximum is 1 and
node 1 has trust 2, which is at least 0.9 times the maximum; `getTrust` ends at
the assertion of line 234 instead of returning 1. -/
theorem getTrust_counterexample :
    overTrusted.m_bestTrust > 0
      ∧ (overTrusted.nodeHeap 1).m_trust ≥ 9 / 10 * overTrusted.m_bestTrust
      ∧ overTrusted.getTrust 1 = .halted .assertFailed
      ∧ overTrusted.getTrust 1 ≠ .returned 1 := by
  have h : overTrusted.getTrust 1 = .halted .assertFailed := by
    norm_num [Project.getTrust, overTrusted, Node.new]
  refine ⟨by norm_num [overTrusted], by norm_num [overTrusted, Node.new], h, ?_⟩
  rw [h]
  exact fun h2 => Ret.noConfusion h2

/-- C15 (amended). `getTrust` returns 0.1 when the tracked maximum is 0, and
`clamp(0.1 + trust / maximum, 0, 1)` when the maximum is `> 0` and the trust of the
node does not exceed it; when the trust exceeds a maximum that is not 0 it ends at
the assertion of line 234. For a node with `0 ≤ trust ≤ maximum` the result lies
between 0.1 and 1, and it is 1 whenever `maximum ≥ trust ≥ 0.9 * maximum > 0`. -/
theorem getTrust_value (p : Project) (node : Nat) :
    (p.m_bestTrust = 0 → p.getTrust node = .returned (1 / 10))
      ∧ (p.m_bestTrust > 0 → (p.nodeHeap node).m_trust ≤ p.m_bestTrust →
          p.getTrust node
            = .returned (clamp (1 / 10 + (p.nodeHeap node).m_trust / p.m_bestTrust) 0 1))
      ∧ (p.m_bestTrust ≠ 0 → p.m_bestTrust < (p.nodeHeap node).m_trust →
          p.getTrust node = .halted .assertFailed)
      ∧ (0 ≤ (p.nodeHeap node).m_trust → (p.nodeHeap node).m_trust ≤ p.m_bestTrust →
          ∃ t, p.getTrust node = .returned t ∧ 1 / 10 ≤ t ∧ t ≤ 1)
      ∧ (p.m_bestTrust > 0 → 9 / 10 * p.m_bestTrust ≤ (p.nodeHeap node).m_trust →
          (p.nodeHeap node).m_trust ≤ p.m_bestTrust → p.getTrust node = .returned 1) := by
  have hret : (p.nodeHeap node).m_trust ≤ p.m_bestTrust → p.m_bestTrust ≠ 0 →
      p.getTrust node
        = .returned (clamp (1 / 10 + (p.nodeHeap node).m_trust / p.m_bestTrust) 0 1) := by
    intro h1 h2
    unfold Project.getTrust
    simp only []
    rw [if_neg h2, if_neg (not_not.mpr h1)]
  refine ⟨?_, fun h1 h2 => hret h2 (ne_of_gt h1), ?_, ?_, ?_⟩
  · intro h
    unfold Project.getTrust
    simp only []
    rw [if_pos h]
  · intro h1 h2
    unfold Project.getTrust
    simp only []
    rw [if_neg h1, if_pos (not_le.mpr h2)]
  · intro h0 h1
    by_cases h2 : p.m_bestTrust = 0
    · have h3 : p.getTrust node = .returned (1 / 10) := by
        unfold Project.getTrust
        simp only []
        rw [if_pos h2]
      exact ⟨1 / 10, h3, getTrust_ge p node _ h3 h0⟩
    · exact ⟨_, hret h1 h2, getTrust_ge p node _ (hret h1 h2) h0⟩
  · intro h1 h2 h3
    rw [hret h3 (ne_of_gt h1)]
    have h4 : 9 / 10 ≤ (p.nodeHeap node).m_trust / p.m_bestTrust := by
      rw [le_div_iff₀ h1]
      exact h2
    have h5 : (p.nodeHeap node).m_trust / p.m_bestTrust ≤ 1 := by
      rw [div_le_one h1]
      exact h3
    congr 1
    unfold clamp
    split_ifs with h6 h7
    · linarith
    · rfl
    · linarith

/-- Witness of C15 (`getTrust_value`): in `fullyTrusted` the tracked maximum is 1 and
node 1 has trust 1; `getTrust` returns 1. -/
theorem getTrust_value_witness :
    fullyTrusted.m_bestTrust > 0
      ∧ 9 / 10 * fullyTrusted.m_bestTrust ≤ (fullyTrusted.nodeHeap 1).m_trust
      ∧ (fullyTrusted.nodeHeap 1).m_trust ≤ fullyTrusted.m_bestTrust
      ∧ fullyTrusted.getTrust 1 = .returned 1 :=
  have h1 : fullyTrusted.m_bestTrust > 0 := by norm_num [fullyTrusted]
  have h2 : 9 / 10 * fullyTrusted.m_bestTrust ≤ (fullyTrusted.nodeHeap 1).m_trust := by
    norm_num [fullyTrusted, Node.new]
  have h3 : (fullyTrusted.nodeHeap 1).m_trust ≤ fullyTrusted.m_bestTrust := by
    norm_num [fullyTrusted, Node.new]
  ⟨h1, h2, h3, (getTrust_value fullyTrusted 1).2.2.2.2 h1 h2 h3⟩

/-! ## The loop over the due nodes -/

theorem drainStep_retired (d : Draws) (searchAddr currentTick : Nat) (s : Drain)
    (node : Nat) (rest : List Nat) (hn : s.project.m_nodes = node :: rest)
    (hdue : (s.project.nodeHeap node).m_nextActionTime ≤ currentTick)
    (hdead : (s.project.nodeHeap node).m_lastActionTime ≠ 0)
    (hpast : (s.project.nodeHeap node).m_lastActionTime < currentTick)
    (hidle : (s.project.nodeHeap node).m_currentWork = none) :
    drainStep d searchAddr currentTick s = .next s := by
  unfold drainStep
  rw [hn]
  simp only []
  rw [if_neg (not_lt.mpr hdue), if_pos ⟨hdead, hpast, hidle⟩]

theorem drain_retired (d : Draws) (searchAddr currentTick : Nat) (s : Drain)
    (node : Nat) (rest : List Nat) (hn : s.project.m_nodes = node :: rest)
    (hdue : (s.project.nodeHeap node).m_nextActionTime ≤ currentTick)
    (hdead : (s.project.nodeHeap node).m_lastActionTime ≠ 0)
    (hpast : (s.project.nodeHeap node).m_lastActionTime < currentTick)
    (hidle : (s.project.nodeHeap node).m_currentWork = none) :
    ∀ fuel, drain d searchAddr currentTick fuel s = none := by
  intro fuel
  induction fuel with
  | zero => rfl
  | succ k ih =>
    rw [drain, drainStep_retired d searchAddr currentTick s node rest hn hdue hdead hpast hidle]
    exact ih

theorem simulate_of_tick_none (d : Draws) (searchAddr : Nat) (s : Sim)
    (h : s.tick d searchAddr = none) : ∀ fuel, Sim.simulate d searchAddr fuel s = none := by
  intro fuel
  cases fuel with
  | zero => rfl
  | succ k =>
    rw [Sim.simulate, h]

/-- C20, the code at the failing input: in `retiredProject` at tick 6 the first due
node is idle and past its deadline 5. The round of the loop over the due nodes
leaves the state as it is, with that node still first, so the loop has not ended
after any number of rounds, and `simulate` has not ended after any number of
ticks. -/
theorem drain_retired_never_ends :
    retiredProject.m_nodes.head? = some 1
      ∧ (retiredProject.nodeHeap 1).m_nextActionTime ≤ 6
      ∧ (retiredProject.nodeHeap 1).m_currentWork = none
      ∧ (retiredProject.nodeHeap 1).m_lastActionTime = 5
      ∧ drainStep plainDraws 100 6 retiredDrain = .next retiredDrain
      ∧ (∀ fuel, drain plainDraws 100 6 fuel retiredDrain = none)
      ∧ (∀ fuel, Sim.simulate plainDraws 100 fuel retiredSim = none) := by
  have h1 : (retiredDrain.project.nodeHeap 1).m_nextActionTime ≤ 6 := by
    simp [retiredDrain, retiredProject]
  have h2 : (retiredDrain.project.nodeHeap 1).m_lastActionTime ≠ 0 := by
    simp [retiredDrain, retiredProject]
  have h3 : (retiredDrain.project.nodeHeap 1).m_lastActionTime < 6 := by
    simp [retiredDrain, retiredProject]
  have h4 : (retiredDrain.project.nodeHeap 1).m_currentWork = none := by
    simp [retiredDrain, retiredProject, Node.new]
  refine ⟨rfl, h1, h4, by simp [retiredProject], ?_, ?_, ?_⟩
  · exact drainStep_retired plainDraws 100 6 retiredDrain 1 _ rfl h1 h2 h3 h4
  · exact drain_retired plainDraws 100 6 retiredDrain 1 _ rfl h1 h2 h3 h4
  · apply simulate_of_tick_none
    have h5 : retiredSim.drain plainDraws 100 = none :=
      drain_retired plainDraws 100 6 retiredDrain 1 _ rfl h1 h2 h3 h4 _
    unfold Sim.tick
    rw [h5]

/-! ## simulate with no jobs -/

theorem getTrust_of_le (p : Project) (node : Nat)
    (h : (p.nodeHeap node).m_trust ≤ p.m_bestTrust) : ∃ t, p.getTrust node = .returned t := by
  unfold Project.getTrust
  simp only []
  by_cases h1 : p.m_bestTrust = 0
  · rw [if_pos h1]; exact ⟨_, rfl⟩
  · rw [if_neg h1, if_neg (not_not.mpr h)]; exact ⟨_, rfl⟩

theorem plotTrust_of_le (p : Project) (l : List Nat)
    (h : ∀ n ∈ l, (p.nodeHeap n).m_trust ≤ p.m_bestTrust) : p.plotTrust l = none := by
  induction l with
  | nil => rfl
  | cons x xs ih =>
    obtain ⟨t, ht⟩ := getTrust_of_le p x (h x (List.mem_cons_self _ _))
    rw [Project.plotTrust, ht]
    exact ih (fun n hn => h n (List.mem_cons_of_mem _ hn))

theorem findJobAt_nojobs (p : Project) (node : Nat) (t : ℚ) (searchAddr : Nat)
    (hjobs : p.m_jobs = []) : p.findJobAt node t searchAddr = (p, .returned none) := by
  have h : ∀ t1, p.searchFrom node t1 searchAddr = none := by
    intro t1
    unfold Project.searchFrom
    rw [hjobs]
    rfl
  unfold Project.findJobAt
  rw [h t]
  simp only []
  rw [h 1]

theorem assign_nojobs (p : Project) (node currentTick : Nat) (rnd u : ℚ) (searchAddr : Nat)
    (hjobs : p.m_jobs = []) (ht : (p.nodeHeap node).m_trust ≤ p.m_bestTrust) :
    p.assign node currentTick rnd u searchAddr = (p.delay node currentTick, .returned false) := by
  obtain ⟨t, h⟩ := getTrust_of_le p node ht
  unfold Project.assign
  rw [findJobForNode_eq_findJobAt p node rnd searchAddr t h, findJobAt_nojobs p node _ _ hjobs]

theorem drain_nojobs (d : Draws) (searchAddr currentTick : Nat) (l : List Nat) :
    ∀ s : Drain, s.project.m_nodes = l → s.project.m_jobs = [] →
      (∀ n ∈ l, s.project.IdleNode n) →
      ∃ r, drain d searchAddr currentTick (l.length + 1) s = some (r, none)
        ∧ r.foundWork = s.foundWork ∧ r.project.m_jobs = [] ∧ r.jobsDone = s.jobsDone
        ∧ r.resultsSent = s.resultsSent ∧ r.project.m_bestTrust = s.project.m_bestTrust
        ∧ ∀ n, (r.project.nodeHeap n).m_trust = (s.project.nodeHeap n).m_trust := by
  induction l with
  | nil =>
    intro s hn _ _
    refine ⟨s, ?_, rfl, by assumption, rfl, rfl, rfl, fun _ => rfl⟩
    rw [drain, drainStep, hn]
  | cons node rest ih =>
    intro s hn hjobs hidle
    obtain ⟨h1, h2, h3⟩ := hidle node (List.mem_cons_self _ _)
    by_cases hdue : (s.project.nodeHeap node).m_nextActionTime > currentTick
    · refine ⟨s, ?_, rfl, hjobs, rfl, rfl, rfl, fun _ => rfl⟩
      rw [drain, drainStep, hn]
      simp only []
      rw [if_pos hdue]
    · have hstep : drainStep d searchAddr currentTick s
          = .next { s with
              project := ({ s.project with m_nodes := rest } : Project).delay node currentTick
              drawn := s.drawn + 1
              foundWork := s.foundWork || false
              nodesToReinsert := setInsert (fun a b => decide (a < b)) node s.nodesToReinsert } := by
        unfold drainStep
        rw [hn]
        simp only []
        rw [if_neg hdue, if_neg (fun h => h.1 h1)]
        have ha := assign_nojobs ({ s.project with m_nodes := rest } : Project) node currentTick
          (d.target s.drawn) (d.noise s.drawn) searchAddr hjobs h3
        simp only [h2, drainAssign, ha]
      rw [List.length_cons, drain, hstep]
      simp only []
      have hnext := ih
        { s with
          project := ({ s.project with m_nodes := rest } : Project).delay node currentTick
          drawn := s.drawn + 1
          foundWork := s.foundWork || false
          nodesToReinsert := setInsert (fun a b => decide (a < b)) node s.nodesToReinsert }
        rfl hjobs (by
          intro n hn2
          obtain ⟨h4, h5, h6⟩ := hidle n (List.mem_cons_of_mem _ hn2)
          unfold Project.IdleNode Project.delay
          simp only []
          by_cases hnn : n = node
          · rw [hnn, Function.update_same]
            exact ⟨h1, h2, h3⟩
          · rw [Function.update_noteq hnn]
            exact ⟨h4, h5, h6⟩)
      obtain ⟨r, hr1, hr2, hr3, hr4, hr5, hr6, hr7⟩ := hnext
      refine ⟨r, hr1, ?_, hr3, hr4, hr5, hr6, ?_⟩
      · rw [hr2]
        simp
      · intro n
        rw [hr7 n]
        show ((({ s.project with m_nodes := rest } : Project).delay node currentTick).nodeHeap
          n).m_trust = _
        unfold Project.delay
        simp only []
        by_cases hnn : n = node
        · rw [hnn, Function.update_same]
        · rw [Function.update_noteq hnn]

theorem addNode_m_jobs (p : Project) (node : Nat) : (p.addNode node).m_jobs = p.m_jobs := by
  unfold Project.addNode Project.updateTrust
  split_ifs <;> rfl

theorem foldl_addNode_m_jobs (l : List Nat) :
    ∀ p : Project, (l.foldl (fun q n => q.addNode n) p).m_jobs = p.m_jobs := by
  induction l with
  | nil => intro p; rfl
  | cons x xs ih =>
    intro p
    rw [List.foldl_cons, ih, addNode_m_jobs]

theorem mem_setInsert (lt : Nat → Nat → Bool) (a x : Nat) (xs : List Nat)
    (h : x ∈ setInsert lt a xs) : x = a ∨ x ∈ xs := by
  induction xs with
  | nil =>
    left
    simpa [setInsert] using h
  | cons y ys ih =>
    unfold setInsert at h
    split_ifs at h
    · rcases List.mem_cons.mp h with h1 | h1
      · right; rw [h1]; exact List.mem_cons_self _ _
      · rcases ih h1 with h2 | h2
        · left; exact h2
        · right; exact List.mem_cons_of_mem _ h2
    · rcases List.mem_cons.mp h with h1 | h1
      · left; exact h1
      · right; exact h1
    · right; exact h

theorem start_returns (p : Project) (h8 : 8 ≤ p.m_nodes.length) :
    ∃ s0, Sim.start p = .returned s0 ∧ s0.project.jobHeap = p.jobHeap
      ∧ s0.project.nodeHeap = p.nodeHeap ∧ s0.project.m_jobs = p.m_jobs
      ∧ s0.project.m_bestTrust = p.m_bestTrust
      ∧ (∀ n ∈ s0.project.m_nodes, n ∈ p.m_nodes) ∧ (∀ n ∈ s0.plotted, n ∈ p.m_nodes)
      ∧ s0.currentTick = 0 ∧ s0.noWorkFor = 0 ∧ s0.jobsDone = 0 := by
  have hlen : (p.m_nodes.drop 5).length = p.m_nodes.length - 5 := List.length_drop 5 p.m_nodes
  unfold Sim.start
  cases h : p.m_nodes.drop 5 with
  | nil =>
    rw [h] at hlen
    simp only [List.length_nil] at hlen
    omega
  | cons a l1 =>
    cases l1 with
    | nil =>
      rw [h] at hlen
      simp only [List.length_cons, List.length_nil] at hlen
      omega
    | cons b l2 =>
      cases l2 with
      | nil =>
        rw [h] at hlen
        simp only [List.length_cons, List.length_nil] at hlen
        omega
      | cons c l3 =>
        have hmem : ∀ n ∈ [a, b, c], n ∈ p.m_nodes := by
          intro n hn
          apply List.mem_of_mem_drop
          rw [h]
          simp only [List.mem_cons, List.mem_singleton, List.not_mem_nil, or_false] at hn
          rcases hn with hn | hn | hn <;> simp [hn]
        refine ⟨_, rfl, rfl, rfl, rfl, rfl, ?_, hmem, rfl, rfl, rfl⟩
        intro n hn
        rcases mem_setInsert _ _ _ _ hn with h1 | h1
        · rw [h1]
          exact hmem a (List.mem_cons_self _ _)
        · exact List.mem_of_mem_eraseIdx h1

theorem simulate_nojobs (d : Draws) (searchAddr fuel : Nat) (s0 : Sim)
    (hjobs : s0.project.m_jobs = []) (hidle : ∀ n ∈ s0.project.m_nodes, s0.project.IdleNode n)
    (hplot : ∀ n ∈ s0.plotted, (s0.project.nodeHeap n).m_trust ≤ s0.project.m_bestTrust)
    (hc : s0.currentTick = 0 ∧ s0.noWorkFor = 0 ∧ s0.jobsDone = 0) :
    ∃ s, Sim.simulate d searchAddr (fuel + 1) s0 = some (.done s)
      ∧ s.currentTick = 0 ∧ s.noWorkFor = 1 ∧ s.jobsDone = 0 ∧ s.project.m_jobs = [] := by
  obtain ⟨r, hr1, hr2, hr3, hr4, _, hr6, hr7⟩ := drain_nojobs d searchAddr s0.currentTick
    s0.project.m_nodes
    { project := s0.project, foundWork := false, nodesToReinsert := [],
      resultsSent := s0.resultsSent, jobsDone := s0.jobsDone, drawn := s0.drawn } rfl hjobs hidle
  have hd : s0.drain d searchAddr = some (r, none) := hr1
  simp only [] at hr2 hr4 hr6 hr7
  have hp : r.project.plotTrust s0.plotted = none :=
    plotTrust_of_le _ _ (fun n hn => by rw [hr7, hr6]; exact hplot n hn)
  have hj : (r.nodesToReinsert.foldl (fun q n => q.addNode n) r.project).m_jobs = [] := by
    rw [foldl_addNode_m_jobs, hr3]
  refine ⟨{ s0 with
            project := r.nodesToReinsert.foldl (fun q n => q.addNode n) r.project
            resultsSent := r.resultsSent, jobsDone := r.jobsDone, drawn := r.drawn
            noWorkFor := 1 }, ?_, hc.1, rfl, by rw [hr4]; exact hc.2.2, hj⟩
  rw [Sim.simulate]
  unfold Sim.tick
  rw [hd]
  simp only [hr2, hr4, hj, hp, hc.2.1, hc.2.2]
  simp

theorem noJobs_idle : ∀ n ∈ noJobs.m_nodes, noJobs.IdleNode n := by
  intro n _
  exact ⟨rfl, rfl, le_refl _⟩

/-- Counterexample to C17 as stated: `noJobs` has no jobs and eight nodes without
deadlines; `simulate` leaves its loop at the end of tick 0 through the exit of line
400, since `jobsDone = 0` is at least the number of jobs, and however long it runs
it does not take the stall exit. -/
theorem simulate_empty_backlog_counterexample :
    noJobs.m_jobs = [] ∧ noJobs.m_nodes ≠ []
      ∧ (∀ n, (noJobs.nodeHeap n).m_lastActionTime = 0)
      ∧ ∃ s0, Sim.start noJobs = .returned s0
          ∧ (∃ s, Sim.simulate plainDraws 100 1 s0 = some (.done s) ∧ s.currentTick = 0)
          ∧ (∀ fuel s, Sim.simulate plainDraws 100 fuel s0 ≠ some (.stalled s)) := by
  refine ⟨rfl, by simp [noJobs], fun _ => rfl, ?_⟩
  obtain ⟨s0, h0, _, h2, h3, h4, h5, h6, h7⟩ := start_returns noJobs (by simp [noJobs])
  have hidle : ∀ n ∈ s0.project.m_nodes, s0.project.IdleNode n := by
    intro n _
    unfold Project.IdleNode
    rw [h2, h4]
    exact ⟨rfl, rfl, le_refl _⟩
  have hplot : ∀ n ∈ s0.plotted, (s0.project.nodeHeap n).m_trust ≤ s0.project.m_bestTrust := by
    intro n _
    rw [h2, h4]
    exact le_refl _
  refine ⟨s0, h0, ?_, ?_⟩
  · obtain ⟨s, h8, h9, _⟩ := simulate_nojobs plainDraws 100 0 s0 h3 hidle hplot h7
    exact ⟨s, h8, h9⟩
  · intro fuel s
    cases fuel with
    | zero =>
      rw [Sim.simulate]
      exact fun h => Option.noConfusion h
    | succ k =>
      obtain ⟨s1, h8, _⟩ := simulate_nojobs plainDraws 100 k s0 h3 hidle hplot h7
      rw [h8]
      intro h
      exact TickEnd.noConfusion (Option.some.inj h)

/-- C17 (amended). Empty backlog: for every project with no jobs and at least eight
nodes, which are idle, have no deadline and a trust that does not exceed the
tracked maximum, the set-up of `simulate` returns and `simulate` ends at the end of
its first tick, tick 0, through the exit of line 400 (`jobsDone = 0` is at least
the number of jobs, 0) with one tick counted towards the stall limit, and therefore
not through the stall exit. -/
theorem simulate_empty_backlog (d : Draws) (searchAddr fuel : Nat) (p : Project)
    (hjobs : p.m_jobs = []) (hidle : ∀ n ∈ p.m_nodes, p.IdleNode n)
    (h8 : 8 ≤ p.m_nodes.length) :
    ∃ s0 s, Sim.start p = .returned s0
      ∧ Sim.simulate d searchAddr (fuel + 1) s0 = some (.done s)
      ∧ s.currentTick = 0 ∧ s.noWorkFor = 1 ∧ s.jobsDone = 0 ∧ s.project.m_jobs = [] := by
  obtain ⟨s0, h0, _, h2, h3, h4, h5, h6, h7⟩ := start_returns p h8
  have hidle0 : ∀ n ∈ s0.project.m_nodes, s0.project.IdleNode n := by
    intro n hn
    unfold Project.IdleNode
    rw [h2, h4]
    exact hidle n (h5 n hn)
  have hplot : ∀ n ∈ s0.plotted, (s0.project.nodeHeap n).m_trust ≤ s0.project.m_bestTrust := by
    intro n hn
    rw [h2, h4]
    exact (hidle n (h6 n hn)).2.2
  obtain ⟨s, h⟩ := simulate_nojobs d searchAddr fuel s0 (by rw [h3]; exact hjobs) hidle0 hplot h7
  exact ⟨s0, s, h0, h⟩

/-- Witness of C17 (`simulate_empty_backlog`): `noJobs` has no jobs and eight idle nodes
without deadlines; `simulate` ends through the exit of line 400. -/
theorem simulate_empty_backlog_witness :
    noJobs.m_jobs = [] ∧ (∀ n ∈ noJobs.m_nodes, noJobs.IdleNode n)
      ∧ 8 ≤ noJobs.m_nodes.length
      ∧ ∃ s0 s, Sim.start noJobs = .returned s0
          ∧ Sim.simulate plainDraws 100 (1000 + 1) s0 = some (.done s)
          ∧ s.currentTick = 0 ∧ s.noWorkFor = 1 ∧ s.jobsDone = 0 ∧ s.project.m_jobs = [] :=
  ⟨rfl, noJobs_idle, by simp [noJobs],
    simulate_empty_backlog plainDraws 100 1000 noJobs rfl noJobs_idle (by simp [noJobs])⟩

/-! ## The stall counter of simulate -/

theorem drain_head_not_due (d : Draws) (searchAddr currentTick fuel : Nat) (s : Drain)
    (node : Nat) (rest : List Nat) (hn : s.project.m_nodes = node :: rest)
    (hdue : (s.project.nodeHeap node).m_nextActionTime > currentTick) :
    drain d searchAddr currentTick (fuel + 1) s = some (s, none) := by
  rw [drain, drainStep, hn]
  simp only []
  rw [if_pos hdue]

theorem tick_idle (d : Draws) (searchAddr : Nat) (s : Sim) (node : Nat) (rest : List Nat)
    (hn : s.project.m_nodes = node :: rest)
    (hdue : (s.project.nodeHeap node).m_nextActionTime > s.currentTick)
    (hplot : s.project.plotTrust s.plotted = none) :
    s.tick d searchAddr
      = (if s.noWorkFor + 1 > 1000 then some (.stalled { s with noWorkFor := s.noWorkFor + 1 })
         else if s.jobsDone ≥ s.project.m_jobs.length then
           some (.done { s with noWorkFor := s.noWorkFor + 1 })
         else some (.next (s.idleFor 1))) := by
  have hd : s.drain d searchAddr
      = some ({ project := s.project, foundWork := false, nodesToReinsert := [],
                resultsSent := s.resultsSent, jobsDone := s.jobsDone, drawn := s.drawn }, none) :=
    drain_head_not_due d searchAddr s.currentTick _ _ node rest hn hdue
  unfold Sim.tick
  rw [hd]
  simp [Sim.idleFor, hplot]

theorem idleFor_idleFor (s : Sim) (a b : Nat) : (s.idleFor a).idleFor b = s.idleFor (a + b) := by
  simp [Sim.idleFor, Nat.add_assoc]

theorem simulate_idle (d : Draws) (searchAddr fuel : Nat) (node : Nat) (rest : List Nat)
    (k : Nat) :
    ∀ s : Sim, s.project.m_nodes = node :: rest →
      (s.project.nodeHeap node).m_nextActionTime ≥ s.currentTick + k →
      s.noWorkFor + k ≤ 1000 → s.jobsDone < s.project.m_jobs.length →
      s.project.plotTrust s.plotted = none →
      Sim.simulate d searchAddr (k + fuel) s = Sim.simulate d searchAddr fuel (s.idleFor k)
        ∧ Sim.after d searchAddr k s = some (s.idleFor k) := by
  induction k with
  | zero =>
    intro s _ _ _ _ _
    have h : s.idleFor 0 = s := rfl
    rw [h, Nat.zero_add]
    exact ⟨rfl, rfl⟩
  | succ k ih =>
    intro s hn hdue hcount hjobs hplot
    have ht := tick_idle d searchAddr s node rest hn (by omega) hplot
    rw [if_neg (by omega), if_neg (by omega)] at ht
    have hnext := ih (s.idleFor 1) hn (by simp only [Sim.idleFor]; omega)
      (by simp only [Sim.idleFor]; omega) hjobs hplot
    rw [idleFor_idleFor, Nat.add_comm 1 k] at hnext
    have hf : k + 1 + fuel = (k + fuel) + 1 := by omega
    rw [hf, Sim.simulate, Sim.after, ht]
    exact hnext

theorem stall_findJob :
    ({ stallProject with m_nodes := [2, 3, 4, 5, 6, 7, 8] } : Project).findJobForNode 1 1 100
      = ({ stallProject with m_jobs := [], m_nodes := [2, 3, 4, 5, 6, 7, 8] },
          .returned (some 7)) := by
  norm_num [Project.findJobForNode, Project.getTrust, Project.searchFrom, Project.scanJobs,
    lowerBound, JobCompare, searchJob, stallProject, Job.new, Job.getCorrectness, clamp,
    Node.hasSubmitted, Node.new]

theorem stall_assign :
    ({ stallProject with m_nodes := [2, 3, 4, 5, 6, 7, 8] } : Project).assign 1 500 1 0 100
      = (stallWorking, .returned true) := by
  unfold Project.assign
  rw [stall_findJob]
  have h : ({ stallProject with m_jobs := [], m_nodes := [2, 3, 4, 5, 6, 7, 8] } :
      Project).getTrust 1 = .returned (1 / 10) := by
    simp [Project.getTrust, stallProject]
  simp only [h]
  have h2 : simulateCorr (1 / 10) 0 = 1 / 10 := by norm_num [simulateCorr]
  rw [h2]
  rfl

theorem stallWorking_facts :
    stallWorking.m_jobs = [7] ∧ stallWorking.m_nodes = [2, 3, 4, 5, 6, 7, 8]
      ∧ (stallWorking.nodeHeap 1).m_nextActionTime = 2501
      ∧ (stallWorking.nodeHeap 2).m_nextActionTime = 5000
      ∧ (stallWorking.nodeHeap 1).m_currentWork
          = some { job := 7, node := 1, correctness := 1 / 10 } := by
  refine ⟨?_, ?_, ?_, ?_, ?_⟩
  · simp [stallWorking, Project.jobsInsert, Node.startJob, setInsert]
  · simp [stallWorking, Project.jobsInsert, Node.startJob, stallProject]
  · norm_num [stallWorking, Project.jobsInsert, Node.startJob, stallProject, Job.new, Node.new,
      Job.nodeStarted]
    rfl
  · simp [stallWorking, Project.jobsInsert, Node.startJob, stallProject]
  · simp [stallWorking, Project.jobsInsert, Node.startJob, stallProject]

theorem stall_drain :
    stallAt500.drain plainDraws 100
      = some ({ project := stallWorking, foundWork := true, nodesToReinsert := [1],
                resultsSent := 0, jobsDone := 0, drawn := 1 }, none) := by
  have hstep : drainStep plainDraws 100 500 ⟨stallProject, false, [], 0, 0, 0⟩
      = .next ⟨stallWorking, true, [1], 0, 0, 1⟩ := by
    have ha := stall_assign
    simp only [stallProject, Node.new] at ha
    simp [drainStep, drainAssign, stallProject, plainDraws, Node.new, ha, setInsert]
  have hn : stallWorking.m_nodes = 2 :: [3, 4, 5, 6, 7, 8] := stallWorking_facts.2.1
  have hdue : (stallWorking.nodeHeap 2).m_nextActionTime > 500 := by
    rw [stallWorking_facts.2.2.2.1]
    decide
  show drain plainDraws 100 500 (7 + 1 + 1) ⟨stallProject, false, [], 0, 0, 0⟩ = _
  rw [drain, hstep]
  exact drain_head_not_due plainDraws 100 500 7 _ 2 _ hn hdue

theorem stallAt501_facts :
    stallAt501.project.m_nodes = 1 :: [2, 3, 4, 5, 6, 7, 8]
      ∧ (stallAt501.project.nodeHeap 1).m_nextActionTime = 2501
      ∧ stallAt501.project.m_jobs = [7] := by
  have h1 : (stallWorking.addNode 1).nodeHeap = stallWorking.nodeHeap := by
    unfold Project.addNode
    rw [updateTrust_nodeHeap]
  have h2 : (stallWorking.addNode 1).m_nodes
      = setInsert (fun a b => NodeCompare a (stallWorking.nodeHeap a) b (stallWorking.nodeHeap b))
          1 stallWorking.m_nodes := by
    unfold Project.addNode Project.updateTrust
    split_ifs <;> rfl
  refine ⟨?_, ?_, ?_⟩
  · show (stallWorking.addNode 1).m_nodes = _
    rw [h2, stallWorking_facts.2.1]
    simp [setInsert, NodeCompare, stallWorking_facts.2.2.1, stallWorking_facts.2.2.2.1]
  · show ((stallWorking.addNode 1).nodeHeap 1).m_nextActionTime = _
    rw [h1]
    exact stallWorking_facts.2.2.1
  · show (stallWorking.addNode 1).m_jobs = _
    rw [addNode_m_jobs]
    exact stallWorking_facts.1

theorem plotTrust_of_zero (p : Project) (l : List Nat) (h : p.m_bestTrust = 0) :
    p.plotTrust l = none := by
  induction l with
  | nil => rfl
  | cons x xs ih =>
    have ht : p.getTrust x = .returned (1 / 10) := by
      unfold Project.getTrust
      simp only []
      rw [if_pos h]
    rw [Project.plotTrust, ht]
    exact ih

theorem stallAt501_bestTrust : stallAt501.project.m_bestTrust = 0 := by
  show (stallWorking.addNode 1).m_bestTrust = 0
  have h1 : (stallWorking.nodeHeap 1).m_trust = 0 := by
    unfold stallWorking
    show ((Node.startJob 1 _ 7 (1 / 10) 500).nodeHeap 1).m_trust = 0
    rw [startJob_trust]
    simp [stallProject, Node.new]
  have h2 : stallWorking.m_bestTrust = 0 := rfl
  unfold Project.addNode Project.updateTrust
  simp only []
  rw [h1, h2, if_neg (lt_irrefl 0)]

theorem stall_tick : stallAt500.tick plainDraws 100 = some (.next stallAt501) := by
  unfold Sim.tick
  rw [stall_drain]
  have hj : (stallWorking.addNode 1).m_jobs = [7] := stallAt501_facts.2.2
  have hp : stallWorking.plotTrust [6, 7, 8] = none := plotTrust_of_zero _ _ rfl
  simp [hj, hp, stallAt500, stallAt501]

/-- C16, the code at the failing input: on `stallProject` the set-up leaves the
eight nodes as they are and no node is due in the ticks 0 to 499, which brings
`noWorkFor` to 500; in tick 500 node 1 is given the job, and `noWorkFor` stays 500
instead of starting again from 0; no node is due in the ticks 501 to 1001, and in
tick 1001 `noWorkFor` becomes 1001 and `simulate` takes the stall exit, 501 ticks
after a node found work. -/
theorem stall_exit_after_work :
    Sim.start stallProject = .returned stallStart
      ∧ Sim.after plainDraws 100 500 stallStart = some stallAt500
      ∧ (∃ r, stallAt500.drain plainDraws 100 = some (r, none) ∧ r.foundWork = true)
      ∧ stallAt500.tick plainDraws 100 = some (.next stallAt501)
      ∧ stallAt500.noWorkFor = 500 ∧ stallAt501.noWorkFor = 500
      ∧ (∃ s, Sim.simulate plainDraws 100 1002 stallStart = some (.stalled s)
          ∧ s.currentTick = 1001 ∧ s.noWorkFor = 1001) := by
  have hstart : Sim.start stallProject = .returned stallStart := by
    simp [Sim.start, stallProject, stallStart, setInsert, NodeCompare, Node.new]
  have h1 := simulate_idle plainDraws 100 (1 + (500 + 1)) 1 [2, 3, 4, 5, 6, 7, 8] 500
    stallStart rfl (by simp [stallStart, stallProject])
    (by simp [stallStart]) (by simp [stallStart, stallProject])
    (plotTrust_of_zero _ _ rfl)
  have h0 : stallStart.idleFor 500 = stallAt500 := rfl
  rw [h0] at h1
  have h3 := simulate_idle plainDraws 100 1 1 [2, 3, 4, 5, 6, 7, 8] 500 stallAt501
    stallAt501_facts.1 (by rw [stallAt501_facts.2.1]; simp [stallAt501])
    (by simp [stallAt501]) (by rw [stallAt501_facts.2.2]; simp [stallAt501])
    (plotTrust_of_zero _ _ stallAt501_bestTrust)
  have h4 := tick_idle plainDraws 100 (stallAt501.idleFor 500) 1 [2, 3, 4, 5, 6, 7, 8]
    stallAt501_facts.1 (by
      show (stallAt501.project.nodeHeap 1).m_nextActionTime > _
      rw [stallAt501_facts.2.1]
      simp [Sim.idleFor, stallAt501])
    (plotTrust_of_zero _ _ stallAt501_bestTrust)
  rw [if_pos (by simp [Sim.idleFor, stallAt501])] at h4
  refine ⟨hstart, h1.2, ⟨_, stall_drain, rfl⟩, stall_tick, rfl, rfl, ?_⟩
  refine ⟨{ stallAt501.idleFor 500 with noWorkFor := (stallAt501.idleFor 500).noWorkFor + 1 }, ?_,
    rfl, rfl⟩
  have hf : 1002 = 500 + (1 + (500 + 1)) := rfl
  rw [hf, h1.1]
  have hg : 1 + (500 + 1) = (500 + 1) + 1 := rfl
  rw [hg, Sim.simulate, stall_tick]
  simp only []
  rw [h3.1, Sim.simulate, h4]

/-! ## The job findJobForNode returns, against the target -/

theorem dropWhile_head_not (below : Nat → Bool) (xs : List Nat) (y : Nat) (ys : List Nat)
    (h : xs.dropWhile below = y :: ys) : below y = false := by
  induction xs with
  | nil => exact List.noConfusion h
  | cons x xs ih =>
    by_cases hx : below x = true
    · rw [List.dropWhile_cons_of_pos hx] at h
      exact ih h
    · rw [List.dropWhile_cons_of_neg hx] at h
      rw [← (List.cons.inj h).1]
      simpa using hx

theorem eraseIdx_length_append (l : List Nat) (j : Nat) (r : List Nat) :
    (l ++ j :: r).eraseIdx l.length = l ++ r := by
  induction l with
  | nil => rfl
  | cons x l ih =>
    show x :: (l ++ j :: r).eraseIdx l.length = x :: (l ++ r)
    rw [ih]

theorem eraseIdx_of_split (xs pre l1 l2 : List Nat) (obj k : Nat)
    (h : xs = (pre ++ l1) ++ obj :: l2) (hk : k = pre.length + l1.length) :
    xs.eraseIdx k = (pre ++ l1) ++ l2 := by
  subst h
  subst hk
  rw [← List.length_append]
  exact eraseIdx_length_append _ _ _

theorem searchFrom_split (p : Project) (node : Nat) (t : ℚ) (searchAddr k obj : Nat)
    (h : p.searchFrom node t searchAddr = some (k, obj)) :
    ∃ l1 l2,
      p.m_jobs.dropWhile (fun a => JobCompare a (p.jobHeap a) searchAddr (searchJob t))
          = l1 ++ obj :: l2
        ∧ p.m_jobs = (p.m_jobs.takeWhile
            (fun a => JobCompare a (p.jobHeap a) searchAddr (searchJob t)) ++ l1) ++ obj :: l2
        ∧ p.m_jobs.eraseIdx k = (p.m_jobs.takeWhile
            (fun a => JobCompare a (p.jobHeap a) searchAddr (searchJob t)) ++ l1) ++ l2
        ∧ (∀ x ∈ l1, ¬ p.Eligible node x) ∧ p.Eligible node obj := by
  unfold Project.searchFrom at h
  simp only [] at h
  rw [drop_lowerBound] at h
  obtain ⟨l1, l2, h1, h2, h3, h4⟩ := scanJobs_split p node _ _ k obj h
  have h5 : p.m_jobs = (p.m_jobs.takeWhile
      (fun a => JobCompare a (p.jobHeap a) searchAddr (searchJob t)) ++ l1) ++ obj :: l2 := by
    rw [List.append_assoc, ← h1, List.takeWhile_append_dropWhile]
  exact ⟨l1, l2, h1, h5, eraseIdx_of_split _ _ l1 l2 obj k h5 h2, h3, h4⟩

theorem sorted_split (p : Project) (l r : List Nat) (obj : Nat)
    (hs : (l ++ obj :: r).Pairwise (fun a b => p.comp a b = true)) :
    (∀ x ∈ l, p.comp x obj = true) ∧ (∀ x ∈ r, p.comp obj x = true) := by
  rw [List.pairwise_append, List.pairwise_cons] at hs
  exact ⟨fun x hx => hs.2.2 x hx obj (List.mem_cons_self _ _), hs.2.1.1⟩

theorem comp_corr_le (p : Project) (a b : Nat) (h : p.comp a b = true)
    (hb : (p.jobHeap b).m_active = true) :
    (p.jobHeap a).m_active = true
      ∧ (p.jobHeap b).getCorrectness ≤ (p.jobHeap a).getCorrectness := by
  have h1 := jobCompare_active _ _ _ _ h hb
  refine ⟨h1, ?_⟩
  rcases jobCompare_corr _ _ _ _ h (by rw [h1, hb]) with h2 | h2
  · exact le_of_lt h2
  · exact le_of_eq h2.1.symm

theorem not_below_imp (p : Project) (t : ℚ) (searchAddr a : Nat) (hne : a ≠ searchAddr)
    (hact : (p.jobHeap a).m_active = true)
    (h : JobCompare a (p.jobHeap a) searchAddr (searchJob t) = false) :
    (p.jobHeap a).getCorrectness ≤ t := by
  by_contra hlt
  have h1 := jobCompare_of_corr_gt a (p.jobHeap a) searchAddr (searchJob t) hne
    (by rw [hact]; rfl) (by rw [searchJob_getCorrectness]; exact lt_of_not_ge hlt)
  rw [h] at h1
  exact Bool.noConfusion h1

theorem searchFrom_le (p : Project) (node : Nat) (t : ℚ) (searchAddr k obj : Nat)
    (hs : p.JobsSorted) (ha : searchAddr ∉ p.m_jobs)
    (h : p.searchFrom node t searchAddr = some (k, obj)) :
    (p.jobHeap obj).getCorrectness ≤ t := by
  obtain ⟨l1, l2, hd, hsplit, _, _, hel⟩ := searchFrom_split p node t searchAddr k obj h
  have hsuf : (l1 ++ obj :: l2).Pairwise (fun a b => p.comp a b = true) := by
    rw [← hd]
    exact hs.sublist (List.dropWhile_sublist _)
  have hmem : ∀ x ∈ l1 ++ obj :: l2, x ≠ searchAddr := by
    intro x hx hxa
    apply ha
    rw [← hxa, hsplit, List.append_assoc]
    exact List.mem_append_right _ hx
  cases l1 with
  | nil =>
    have h1 := dropWhile_head_not _ _ _ _ hd
    exact not_below_imp p t searchAddr obj (hmem obj (List.mem_cons_self _ _)) hel.1 h1
  | cons y l1 =>
    have h1 := dropWhile_head_not _ _ _ _ hd
    have h2 := (sorted_split p (y :: l1) l2 obj hsuf).1 y (List.mem_cons_self _ _)
    have h3 := comp_corr_le p y obj h2 hel.1
    exact le_trans h3.2
      (not_below_imp p t searchAddr y (hmem y (List.mem_cons_self _ _)) h3.1 h1)

/-- C18. Target-bounded selection: on a job order sorted by `JobCompare` that does
not hold the address of the local `search`, for every node and every target `t`,
with a job eligible when it is active, has `getCorrectness() < 1` and is not in the
submitted set of the node: when some eligible job has `getCorrectness() < t`, the
search of `findJobForNode` returns an eligible job `j` with `getCorrectness() ≤ t`
whose `getCorrectness()` is at least that of every eligible job below the target;
when there is an eligible job and every eligible job has `getCorrectness() > t`, it
returns the eligible job that comes first in the job order. In both cases the job
order loses the returned job and nothing else, and nothing else of the project
changes. The search is what `findJobForNode` does once `getTrust` has returned. -/
theorem findJobForNode_target (p : Project) (node : Nat) (t : ℚ) (searchAddr : Nat)
    (hs : p.JobsSorted) (ha : searchAddr ∉ p.m_jobs) :
    ((∃ e ∈ p.m_jobs, p.Eligible node e ∧ (p.jobHeap e).getCorrectness < t) →
        ∃ j l r, p.findJobAt node t searchAddr
              = ({ p with m_jobs := l ++ r }, .returned (some j))
          ∧ p.m_jobs = l ++ j :: r
          ∧ p.Eligible node j ∧ (p.jobHeap j).getCorrectness ≤ t
          ∧ ∀ e ∈ p.m_jobs, p.Eligible node e → (p.jobHeap e).getCorrectness < t →
              (p.jobHeap e).getCorrectness ≤ (p.jobHeap j).getCorrectness)
      ∧ ((∃ e ∈ p.m_jobs, p.Eligible node e) →
          (∀ e ∈ p.m_jobs, p.Eligible node e → t < (p.jobHeap e).getCorrectness) →
          ∃ j l r, p.findJobAt node t searchAddr
                = ({ p with m_jobs := l ++ r }, .returned (some j))
            ∧ p.m_jobs = l ++ j :: r
            ∧ p.Eligible node j ∧ ∀ x ∈ l, ¬ p.Eligible node x)
      ∧ (∀ (rnd t0 : ℚ), p.getTrust node = .returned t0 →
          p.findJobForNode node rnd searchAddr
            = p.findJobAt node (clamp (rnd - t0) 0 1) searchAddr) := by
  refine ⟨?_, ?_, fun rnd t0 h => findJobForNode_eq_findJobAt p node rnd searchAddr t0 h⟩
  · intro hex
    obtain ⟨k, obj, h1⟩ := searchFrom_finds p node t searchAddr hs hex
    obtain ⟨l1, l2, hd, hsplit, herase, hnot, hel⟩ := searchFrom_split p node t searchAddr k obj h1
    refine ⟨obj, _, l2, ?_, hsplit, hel, searchFrom_le p node t searchAddr k obj hs ha h1, ?_⟩
    · unfold Project.findJobAt
      rw [h1]
      simp only []
      rw [herase]
    · intro e he hele hlt
      have hsuf : (l1 ++ obj :: l2).Pairwise (fun a b => p.comp a b = true) := by
        rw [← hd]
        exact hs.sublist (List.dropWhile_sublist _)
      rw [hsplit, List.append_assoc] at he
      rcases List.mem_append.mp he with h2 | h2
      · have h5 := List.mem_takeWhile_imp h2
        exact absurd (below_imp p t searchAddr e h5).2 (not_le.mpr hlt)
      · rcases List.mem_append.mp h2 with h3 | h3
        · exact absurd hele (hnot e h3)
        · rcases List.mem_cons.mp h3 with h4 | h4
          · rw [h4]
          · exact (comp_corr_le p obj e ((sorted_split p l1 l2 obj hsuf).2 e h4) hele.1).2
  · intro hex hall
    have hnone : p.searchFrom node t searchAddr = none := by
      cases h1 : p.searchFrom node t searchAddr with
      | none => rfl
      | some x =>
        obtain ⟨k, obj⟩ := x
        exfalso
        obtain ⟨l1, l2, _, hsplit, _, _, hel⟩ := searchFrom_split p node t searchAddr k obj h1
        have hmem : obj ∈ p.m_jobs := by
          rw [hsplit]
          exact List.mem_append_right _ (List.mem_cons_self _ _)
        exact absurd (searchFrom_le p node t searchAddr k obj hs ha h1)
          (not_le.mpr (hall obj hmem hel))
    obtain ⟨e, he, hele⟩ := hex
    obtain ⟨k, obj, h1⟩ := searchFrom_finds p node 1 searchAddr hs ⟨e, he, hele, hele.2.1⟩
    obtain ⟨l1, l2, _, hsplit, herase, hnot, hel⟩ := searchFrom_split p node 1 searchAddr k obj h1
    refine ⟨obj, _, l2, ?_, hsplit, hel, ?_⟩
    · unfold Project.findJobAt
      rw [hnone]
      simp only []
      rw [h1]
      simp only []
      rw [herase]
    · intro x hx
      rcases List.mem_append.mp hx with h2 | h2
      · have h5 := List.mem_takeWhile_imp h2
        exact fun hx1 => absurd hx1.2.1 (not_lt.mpr (below_imp p 1 searchAddr x h5).2)
      · exact hnot x h2

/-- Witness of C18 (`findJobForNode_target`): the job order of `twoActive` is sorted and
does not hold the address 100; with the target 1/2 the job at address 3, which is
above the target, is passed over, and a job is returned. -/
theorem findJobForNode_target_witness :
    twoActive.JobsSorted ∧ 100 ∉ twoActive.m_jobs
      ∧ ∃ j l r, twoActive.findJobAt 1 (1 / 2) 100
            = ({ twoActive with m_jobs := l ++ r }, .returned (some j))
          ∧ twoActive.m_jobs = l ++ j :: r
          ∧ twoActive.Eligible 1 j ∧ (twoActive.jobHeap j).getCorrectness ≤ 1 / 2
          ∧ ∀ e ∈ twoActive.m_jobs, twoActive.Eligible 1 e →
              (twoActive.jobHeap e).getCorrectness < 1 / 2 →
              (twoActive.jobHeap e).getCorrectness ≤ (twoActive.jobHeap j).getCorrectness :=
  have hs : twoActive.JobsSorted := by
    norm_num [Project.JobsSorted, Project.comp, JobCompare, twoActive, Job.new,
      Job.getCorrectness]
  have ha : 100 ∉ twoActive.m_jobs := by simp [twoActive]
  ⟨hs, ha, (findJobForNode_target twoActive 1 (1 / 2) 100 hs ha).1
    ⟨4, by simp [twoActive], by
      norm_num [Project.Eligible, twoActive, Job.new, Job.getCorrectness, Node.hasSubmitted,
        Node.new], by
      norm_num [twoActive, Job.new, Job.getCorrectness]⟩⟩

/-! ## The tracked maximum of the trust -/

theorem updateTrust_bestTrust (q : Project) (n : Nat) :
    (q.updateTrust n).m_bestTrust = max q.m_bestTrust (q.nodeHeap n).m_trust := by
  unfold Project.updateTrust
  split_ifs with h
  · rw [max_eq_right (le_of_lt h)]
  · rw [max_eq_left (le_of_not_gt h)]

theorem foldl_updateTrust (rs : List Result) :
    ∀ q0 : Project,
      (rs.foldl (fun q r => q.updateTrust r.node) q0).nodeHeap = q0.nodeHeap
        ∧ q0.m_bestTrust ≤ (rs.foldl (fun q r => q.updateTrust r.node) q0).m_bestTrust
        ∧ ∀ r ∈ rs, (q0.nodeHeap r.node).m_trust
            ≤ (rs.foldl (fun q r => q.updateTrust r.node) q0).m_bestTrust := by
  induction rs with
  | nil =>
    intro q0
    exact ⟨rfl, le_refl _, fun r hr => absurd hr (List.not_mem_nil r)⟩
  | cons x xs ih =>
    intro q0
    rw [List.foldl_cons]
    obtain ⟨h1, h2, h3⟩ := ih (q0.updateTrust x.node)
    have h4 : q0.m_bestTrust ≤ (q0.updateTrust x.node).m_bestTrust := by
      rw [updateTrust_bestTrust]; exact le_max_left _ _
    have h5 : (q0.nodeHeap x.node).m_trust ≤ (q0.updateTrust x.node).m_bestTrust := by
      rw [updateTrust_bestTrust]; exact le_max_right _ _
    refine ⟨by rw [h1, updateTrust_nodeHeap], le_trans h4 h2, ?_⟩
    intro r hr
    rcases List.mem_cons.mp hr with h6 | h6
    · rw [h6]; exact le_trans h5 h2
    · have h7 := h3 r h6
      rw [updateTrust_nodeHeap] at h7
      exact h7

theorem workDone_untouched (self : Nat) (j : Job) (nodes : Nat → Node) (res : AssumedResult)
    (hash : Int) (n : Nat)
    (h : ∀ r ∈ (Job.workDone self j nodes res hash).job.m_results, r.node ≠ n) :
    (Job.workDone self j nodes res hash).nodes n = nodes n := by
  rcases workDone_cases self j nodes res hash with
    ⟨_, h1⟩ | ⟨_, _, h1⟩ | ⟨_, _, _, _, h1⟩ | ⟨_, _, _, h1⟩
  · rw [h1]
  · rw [h1]
  · rw [h1] at h ⊢
    exact payout_untouched _ _ n _ (fun r hr _ => h r hr) nodes
  · rw [h1]

theorem endJob_bestTrust (self : Nat) (p : Project) (randf : ℚ) (rand : Int) :
    (Node.endJob self p randf rand).1.m_bestTrust = p.m_bestTrust := by
  unfold Node.endJob
  simp only []
  split
  · rfl
  · split <;> rfl

theorem endJob_untouched (self : Nat) (p : Project) (randf : ℚ) (rand : Int)
    (w : AssumedResult) (hw : (p.nodeHeap self).m_currentWork = some w) (n : Nat)
    (h : ∀ r ∈ ((Node.endJob self p randf rand).1.jobHeap w.job).m_results, r.node ≠ n) :
    ((Node.endJob self p randf rand).1.nodeHeap n).m_trust = (p.nodeHeap n).m_trust := by
  obtain ⟨h1, _, h3, _⟩ := endJob_some self p randf rand w hw
  rw [h1, Function.update_same] at h
  rw [h3, workDone_untouched _ _ _ _ _ n h]

theorem activateJob_bestTrust (p : Project) : p.activateJob.1.m_bestTrust = p.m_bestTrust := by
  unfold Project.activateJob
  cases p.m_jobs.getLast? with
  | none => rfl
  | some obj =>
    simp only []
    split_ifs <;> rfl

theorem activateJob_results (p : Project) (a : Nat) :
    (p.activateJob.1.jobHeap a).m_results = (p.jobHeap a).m_results := by
  rcases activateJob_jobHeap p with h | ⟨obj, h⟩
  · rw [h]
  · rw [h]
    by_cases ha : a = obj
    · rw [ha, Function.update_same]
    · rw [Function.update_noteq ha]

theorem finishWork_covered (p : Project) (node : Nat) (randf : ℚ) (rand : Int) (q : Project)
    (b : Bool) (hinv : p.TrustCovered) (h : p.finishWork node randf rand = (q, .returned b)) :
    q.TrustCovered := by
  unfold Project.finishWork at h
  cases hw : (p.nodeHeap node).m_currentWork with
  | none =>
    rw [hw] at h
    simp at h
  | some w =>
    rw [hw] at h
    simp only [] at h
    unfold Project.jobsErase at h
    by_cases hmem : w.job ∈ p.m_jobs
    · rw [if_pos hmem] at h
      simp only [] at h
      have hw1 : (({ p with m_jobs := p.m_jobs.erase w.job } : Project).nodeHeap node).m_currentWork
          = some w := hw
      have hb := endJob_bestTrust node { p with m_jobs := p.m_jobs.erase w.job } randf rand
      have hu := endJob_untouched node { p with m_jobs := p.m_jobs.erase w.job } randf rand w hw1
      cases he : Node.endJob node { p with m_jobs := p.m_jobs.erase w.job } randf rand with
      | mk p2 r2 =>
        rw [he] at h hb hu
        simp only [] at hb hu
        cases r2 with
        | halted hl => simp at h
        | returned u =>
          simp only [] at h
          split at h
          · simp at h
          · rename_i p4 a heq
            have h4 : p4.nodeHeap = p2.nodeHeap ∧ p4.m_bestTrust = p2.m_bestTrust
                ∧ ∀ c, (p4.jobHeap c).m_results = (p2.jobHeap c).m_results := by
              split_ifs at heq
              · have e1 := activateJob_nodeHeap (p2.jobsInsert w.job)
                have e2 := activateJob_bestTrust (p2.jobsInsert w.job)
                have e3 := activateJob_results (p2.jobsInsert w.job)
                rw [heq] at e1 e2 e3
                exact ⟨e1, e2, e3⟩
              · rw [← (Prod.mk.inj heq).1]
                exact ⟨rfl, rfl, fun _ => rfl⟩
            obtain ⟨h5, h6, h7⟩ := h4
            obtain ⟨f1, f2, f3⟩ := foldl_updateTrust (p4.jobHeap w.job).m_results p4
            rw [(Prod.mk.inj h).1] at f1 f2 f3
            intro n
            rw [f1]
            by_cases hn : ∃ r ∈ (p4.jobHeap w.job).m_results, r.node = n
            · obtain ⟨r, hr, hrn⟩ := hn
              rw [← hrn]
              exact f3 r hr
            · have hn2 : ∀ r ∈ (p2.jobHeap w.job).m_results, r.node ≠ n := by
                intro r hr hrn
                rw [← h7] at hr
                exact hn ⟨r, hr, hrn⟩
              rw [h5, hu n hn2]
              exact le_trans (hinv n) (by rw [← hb, ← h6]; exact f2)
    · rw [if_neg hmem] at h
      simp at h

theorem findJobAt_returns (p : Project) (node : Nat) (t : ℚ) (searchAddr : Nat) :
    ∃ q r, p.findJobAt node t searchAddr = (q, .returned r) ∧ q.nodeHeap = p.nodeHeap
      ∧ q.m_bestTrust = p.m_bestTrust := by
  unfold Project.findJobAt
  cases p.searchFrom node t searchAddr with
  | some x => exact ⟨_, _, rfl, rfl, rfl⟩
  | none =>
    simp only []
    cases p.searchFrom node 1 searchAddr with
    | some x => exact ⟨_, _, rfl, rfl, rfl⟩
    | none => exact ⟨_, _, rfl, rfl, rfl⟩

theorem assign_covered (p : Project) (node currentTick : Nat) (rnd u : ℚ) (searchAddr : Nat)
    (hinv : p.TrustCovered) :
    ∃ q b, p.assign node currentTick rnd u searchAddr = (q, .returned b) ∧ q.TrustCovered := by
  obtain ⟨t, ht⟩ := getTrust_of_le p node (hinv node)
  obtain ⟨q, r, h1, h2, h3⟩ := findJobAt_returns p node (clamp (rnd - t) 0 1) searchAddr
  have hq : q.TrustCovered := by
    intro n
    rw [h2, h3]
    exact hinv n
  unfold Project.assign
  rw [findJobForNode_eq_findJobAt p node rnd searchAddr t ht, h1]
  cases r with
  | none =>
    refine ⟨_, _, rfl, ?_⟩
    intro n
    unfold Project.delay
    simp only []
    by_cases hn : n = node
    · rw [hn, Function.update_same]
      exact hq node
    · rw [Function.update_noteq hn]
      exact hq n
  | some job =>
    obtain ⟨t1, ht1⟩ := getTrust_of_le q node (hq node)
    simp only []
    rw [ht1]
    refine ⟨_, _, rfl, ?_⟩
    intro n
    show ((Node.startJob node q job (simulateCorr t1 u) currentTick).nodeHeap n).m_trust
      ≤ q.m_bestTrust
    rw [startJob_trust]
    exact hq n

theorem drainAssign_covered (d : Draws) (searchAddr currentTick node k : Nat) (s : Drain)
    (hinv : s.project.TrustCovered) :
    ∃ s1, drainAssign d searchAddr currentTick node k s = .next s1 ∧ s1.project.TrustCovered := by
  obtain ⟨q, b, h1, h2⟩ := assign_covered s.project node currentTick (d.target k) (d.noise k)
    searchAddr hinv
  unfold drainAssign
  rw [h1]
  exact ⟨_, rfl, h2⟩

theorem drainStep_covered (d : Draws) (searchAddr currentTick : Nat) (s : Drain)
    (hinv : s.project.TrustCovered) :
    (∃ s1, (drainStep d searchAddr currentTick s = .next s1
          ∨ drainStep d searchAddr currentTick s = .exit s1) ∧ s1.project.TrustCovered)
      ∨ ∃ s1 h node rest q, drainStep d searchAddr currentTick s = .halted s1 h
          ∧ s.project.m_nodes = node :: rest
          ∧ ({ s.project with m_nodes := rest } : Project).finishWork node
              (d.randf s.drawn) (d.rand s.drawn) = (q, .halted h) := by
  unfold drainStep
  cases hn : s.project.m_nodes with
  | nil => exact Or.inl ⟨s, Or.inr rfl, hinv⟩
  | cons node rest =>
    simp only []
    split_ifs with h1 h2
    · exact Or.inl ⟨s, Or.inr rfl, hinv⟩
    · exact Or.inl ⟨s, Or.inl rfl, hinv⟩
    · cases hw : (s.project.nodeHeap node).m_currentWork with
      | none =>
        simp only []
        obtain ⟨s1, e1, e2⟩ := drainAssign_covered d searchAddr currentTick node s.drawn
          { s with project := { s.project with m_nodes := rest }, drawn := s.drawn + 1 } hinv
        exact Or.inl ⟨s1, Or.inl e1, e2⟩
      | some w =>
        simp only []
        cases hf : ({ s.project with m_nodes := rest } : Project).finishWork node
            (d.randf s.drawn) (d.rand s.drawn) with
        | mk p1 r1 =>
          cases r1 with
          | halted hl =>
            exact Or.inr ⟨_, hl, node, rest, p1, rfl, rfl, hf⟩
          | returned nowDone =>
            have hp1 : p1.TrustCovered :=
              finishWork_covered ({ s.project with m_nodes := rest } : Project) node _ _ p1 nowDone
                hinv hf
            simp only []
            by_cases h3 : (p1.nodeHeap node).m_lastActionTime ≠ 0
                ∧ (p1.nodeHeap node).m_lastActionTime < currentTick
            · rw [if_pos h3]
              exact Or.inl ⟨_, Or.inl rfl, hp1⟩
            · rw [if_neg h3]
              obtain ⟨s1, e1, e2⟩ := drainAssign_covered d searchAddr currentTick node s.drawn
                  { s with
                    project := p1
                    drawn := s.drawn + 1
                    resultsSent := s.resultsSent + 1
                    jobsDone := if nowDone then s.jobsDone + 1 else s.jobsDone } hp1
              exact Or.inl ⟨s1, Or.inl e1, e2⟩

theorem drain_covered (d : Draws) (searchAddr currentTick : Nat) :
    ∀ (fuel : Nat) (s r : Drain), s.project.TrustCovered →
      drain d searchAddr currentTick fuel s = some (r, none) → r.project.TrustCovered := by
  intro fuel
  induction fuel with
  | zero =>
    intro s r _ h
    exact Option.noConfusion h
  | succ k ih =>
    intro s r hinv h
    rw [drain] at h
    rcases drainStep_covered d searchAddr currentTick s hinv with
      ⟨s1, e1 | e1, e2⟩ | ⟨s1, hl, node, rest, q, e1, _, _⟩
    · rw [e1] at h
      exact ih s1 r e2 h
    · rw [e1] at h
      rw [← (Prod.mk.inj (Option.some.inj h)).1]
      exact e2
    · rw [e1] at h
      simp at h

theorem addNode_covered (p : Project) (node : Nat) (hinv : p.TrustCovered) :
    (p.addNode node).TrustCovered := by
  intro n
  unfold Project.addNode
  rw [updateTrust_nodeHeap, updateTrust_bestTrust]
  exact le_trans (hinv n) (le_max_left _ _)

theorem foldl_addNode_covered (l : List Nat) :
    ∀ p : Project, p.TrustCovered → (l.foldl (fun q n => q.addNode n) p).TrustCovered := by
  induction l with
  | nil => intro p h; exact h
  | cons x xs ih =>
    intro p h
    rw [List.foldl_cons]
    exact ih _ (addNode_covered p x h)

theorem tick_covered (d : Draws) (searchAddr : Nat) (s s1 : Sim) (hinv : s.project.TrustCovered)
    (h : s.tick d searchAddr = some (.next s1)) : s1.project.TrustCovered := by
  unfold Sim.tick at h
  cases hd : s.drain d searchAddr with
  | none =>
    rw [hd] at h
    exact Option.noConfusion h
  | some x =>
    obtain ⟨r, hl⟩ := x
    rw [hd] at h
    cases hl with
    | some hh => simp at h
    | none =>
      have hr : r.project.TrustCovered := drain_covered d searchAddr s.currentTick _ _ r hinv hd
      simp only [] at h
      rw [plotTrust_of_le r.project s.plotted (fun n _ => hr n)] at h
      simp only [] at h
      split_ifs at h
      all_goals first
        | (rw [← TickEnd.next.inj (Option.some.inj h)]
           exact foldl_addNode_covered _ _ hr)
        | exact TickEnd.noConfusion (Option.some.inj h)

theorem after_covered (d : Draws) (searchAddr : Nat) :
    ∀ (k : Nat) (s s1 : Sim), s.project.TrustCovered →
      Sim.after d searchAddr k s = some s1 → s1.project.TrustCovered := by
  intro k
  induction k with
  | zero =>
    intro s s1 hinv h
    rw [← Option.some.inj h]
    exact hinv
  | succ k ih =>
    intro s s1 hinv h
    rw [Sim.after] at h
    split at h
    · rename_i s2 heq
      exact ih s2 s1 (tick_covered d searchAddr s s2 hinv heq) h
    · exact Option.noConfusion h

theorem start_covered (p : Project) (s0 : Sim) (hinv : p.TrustCovered)
    (h : Sim.start p = .returned s0) : s0.project.TrustCovered := by
  unfold Sim.start at h
  split at h
  · rw [← Ret.returned.inj h]
    exact hinv
  · exact Ret.noConfusion h

/-- C19. Tracked maximum covers every node: on a project in which no node has more
trust than `m_bestTrust`, the lines of `simulate` that process the finished work of
a node (the job leaves the order, `endJob`, the job is inserted again, `activateJob`,
`updateTrust` on the node of every stored result of the job) leave, when they
return, a project in which again no node has more trust than `m_bestTrust`; on such
a project `getTrust` returns for every node, also in the calls on the keys of
`plots`, and the lines that ask for a job and start it return and keep the
property; every round of the loop over the due nodes keeps it or ends the process
inside the lines that process finished work, which do not call `getTrust`; and it
holds after the set-up and after every tick of `simulate`. For every project,
`updateTrust` sets `m_bestTrust` to the maximum of `m_bestTrust` and the trust of
the node, never lowers it, and leaves the nodes as they are. -/
theorem trust_covered_invariant (p : Project) (hinv : p.TrustCovered) :
    (∀ node randf rand q b, p.finishWork node randf rand = (q, .returned b) →
        q.TrustCovered)
      ∧ (∀ node, ∃ t, p.getTrust node = .returned t)
      ∧ (∀ l, p.plotTrust l = none)
      ∧ (∀ node currentTick rnd u searchAddr,
          ∃ q b, p.assign node currentTick rnd u searchAddr = (q, .returned b)
            ∧ q.TrustCovered)
      ∧ (∀ d searchAddr currentTick (s : Drain), s.project = p →
          (∃ s1, (drainStep d searchAddr currentTick s = .next s1
                ∨ drainStep d searchAddr currentTick s = .exit s1) ∧ s1.project.TrustCovered)
            ∨ ∃ s1 h node rest q, drainStep d searchAddr currentTick s = .halted s1 h
                ∧ s.project.m_nodes = node :: rest
                ∧ ({ s.project with m_nodes := rest } : Project).finishWork node
                    (d.randf s.drawn) (d.rand s.drawn) = (q, .halted h))
      ∧ (∀ s0, Sim.start p = .returned s0 → s0.project.TrustCovered)
      ∧ (∀ d searchAddr k (s s1 : Sim), s.project = p →
          Sim.after d searchAddr k s = some s1 → s1.project.TrustCovered)
      ∧ (∀ (q : Project) (n : Nat),
          (q.updateTrust n).m_bestTrust = max q.m_bestTrust (q.nodeHeap n).m_trust
            ∧ q.m_bestTrust ≤ (q.updateTrust n).m_bestTrust
            ∧ (q.updateTrust n).nodeHeap = q.nodeHeap) := by
  refine ⟨fun node randf rand q b h => finishWork_covered p node randf rand q b hinv h,
    fun node => getTrust_of_le p node (hinv node),
    fun l => plotTrust_of_le p l (fun n _ => hinv n),
    fun node currentTick rnd u searchAddr =>
      assign_covered p node currentTick rnd u searchAddr hinv, ?_,
    fun s0 h => start_covered p s0 hinv h, ?_, ?_⟩
  · intro d searchAddr currentTick s hs
    exact drainStep_covered d searchAddr currentTick s (by rw [hs]; exact hinv)
  · intro d searchAddr k s s1 hs h
    exact after_covered d searchAddr k s s1 (by rw [hs]; exact hinv) h
  · intro q n
    refine ⟨updateTrust_bestTrust q n, ?_, updateTrust_nodeHeap q n⟩
    rw [updateTrust_bestTrust]
    exact le_max_left _ _

theorem finishing_finishWork :
    (finishing.finishWork 2 0 0).2 = .returned true
      ∧ (finishing.finishWork 2 0 0).1.m_bestTrust = 1 / 2 := by
  constructor
  · norm_num [Project.finishWork, finishing, secondReservation, halfDoneJob, Project.jobsErase,
      Node.endJob, Node.endJobHash, Job.workDone, Node.new, mapErase, mapFind, mapAssign,
      multimapInsert, payout, addTrust, Project.jobsInsert, setInsert, Project.activateJob,
      Project.updateTrust]
  · norm_num [Project.finishWork, finishing, secondReservation, halfDoneJob, Project.jobsErase,
      Node.endJob, Node.endJobHash, Job.workDone, Node.new, mapErase, mapFind, mapAssign,
      multimapInsert, payout, addTrust, Project.jobsInsert, setInsert, Project.activateJob,
      Project.updateTrust]

/-- Witness of C19 (`trust_covered_invariant`): in `finishing` every node has trust 0 and
`m_bestTrust` is 0; node 2 sends the second half of the job at address 7, the job
becomes done, nodes 1 and 2 are paid 1/2 each, `m_bestTrust` becomes 1/2, and no
node has more trust than that. -/
theorem trust_covered_invariant_witness :
    finishing.TrustCovered
      ∧ (finishing.finishWork 2 0 0).2 = .returned true
      ∧ (finishing.finishWork 2 0 0).1.m_bestTrust = 1 / 2
      ∧ (finishing.finishWork 2 0 0).1.TrustCovered :=
  have hinv : finishing.TrustCovered := by
    intro n
    by_cases h : n = 2 <;> simp [finishing, Node.new, h]
  ⟨hinv, finishing_finishWork.1, finishing_finishWork.2,
    (trust_covered_invariant finishing hinv).1 2 0 0 _ true
      (Prod.ext rfl finishing_finishWork.1)⟩

/-! ## Job with float arithmetic: facts -/

theorem run32_append (self : Nat) (s : JobRun) (xs ys : List Call) :
    s.run32 self (xs ++ ys) = (s.run32 self xs).run32 self ys := by
  unfold JobRun.run32
  rw [List.foldl_append]

theorem reserved32_append (self : Nat) (xs ys : List Call) :
    ∀ s : JobRun, JobRun.reserved32 self s (xs ++ ys)
      = JobRun.reserved32 self s xs + JobRun.reserved32 self (s.run32 self xs) ys := by
  induction xs with
  | nil =>
    intro s
    show _ = 0 + _
    rw [zero_add]
    rfl
  | cons x xs ih =>
    intro s
    show s.reservedBy x + JobRun.reserved32 self (s.step32 self x) (xs ++ ys)
      = (s.reservedBy x + JobRun.reserved32 self (s.step32 self x) xs) + _
    rw [ih, add_assoc]
    rfl

theorem wellFormed32_append (self : Nat) (xs ys : List Call) :
    ∀ s : JobRun, JobRun.WellFormed32 self s (xs ++ ys)
      ↔ JobRun.WellFormed32 self s xs ∧ JobRun.WellFormed32 self (s.run32 self xs) ys := by
  induction xs with
  | nil =>
    intro s
    show _ ↔ True ∧ _
    rw [true_and]
    rfl
  | cons x xs ih =>
    intro s
    show ((s.halted = none → s.Allowed x) ∧ JobRun.WellFormed32 self (s.step32 self x) (xs ++ ys))
      ↔ ((s.halted = none → s.Allowed x) ∧ JobRun.WellFormed32 self (s.step32 self x) xs) ∧ _
    rw [ih, and_assoc]
    rfl

end CloudSim
